import Mathlib

/-! Verification of libcoin `BlockChain` (src/coinChain/BlockChain.cpp).

A shallow embedding of the ledger engine: the relational store is four lists of
rows, the tries are ordered key/value lists, C++ exceptions are the `thrown`
constructor of `Res` (which keeps the state reached when the exception was
raised, because members that are not restored by a handler keep their value).

Conventions.
* `int`, `int64`, `unsigned int` are modelled by `Int` / `Nat` without wrap-around.
* Hashes (`uint256`) are natural numbers; the hash functions are parameters.
* Collaborators whose code is not part of `BlockChain.cpp` are either fields of
  `Ext` / `Chain` (pure parameters) or small models whose doc comment says so.
-/

namespace Libcoin

/-! ## Data model -/

abbrev Script := List Nat

/-- Outpoint `Coin(hash, index)`. -/
structure Coin where
  hash : Nat
  index : Nat
deriving DecidableEq, Repr

structure Output where
  value : Int
  script : Script
deriving DecidableEq, Repr

structure Input where
  prevout : Coin
  signature : Script
  sequence : Nat
deriving DecidableEq, Repr

structure Transaction where
  version : Int
  lockTime : Nat
  inputs : List Input
  outputs : List Output
deriving DecidableEq, Repr

/-- Full block: the six header fields and the ordered transactions. -/
structure Block where
  version : Int
  prev : Nat
  mrkl : Nat
  time : Nat
  bits : Nat
  nonce : Nat
  txs : List Transaction
deriving DecidableEq, Repr

/-- Header summary `BlockRef(version, hash, prev, time, bits)`. -/
structure BlockRef where
  version : Int
  hash : Nat
  prev : Nat
  time : Nat
  bits : Nat
deriving DecidableEq, Repr

/-- Class `Confirmation`: derives from `Transaction` and adds `cnf` and `count`. -/
structure Confirmation where
  txn : Transaction
  cnf : Int
  count : Int
deriving DecidableEq, Repr

/-- Class `Unspent(coin, hash, idx, value, script, count, ocnf)` with members `coin`,
`key`, `output`, `count`, `cnf`. -/
structure Unspent where
  coin : Int
  key : Coin
  output : Output
  count : Int
  cnf : Int
deriving DecidableEq, Repr

/-- Row of table `Blocks`. -/
structure BlockRow where
  count : Int
  hash : Nat
  version : Int
  prev : Nat
  mrkl : Nat
  time : Nat
  bits : Nat
  nonce : Nat
deriving DecidableEq, Repr

/-- Row of table `Confirmations`. -/
structure ConfirmationRow where
  cnf : Int
  version : Int
  locktime : Nat
  count : Int
  idx : Int
deriving DecidableEq, Repr

/-- Row of table `Spendings`. -/
structure Spending where
  ocnf : Int
  coin : Int
  hash : Nat
  idx : Nat
  value : Int
  script : Script
  signature : Script
  sequence : Nat
  icnf : Int
deriving DecidableEq, Repr

/-- The sqlite database: the four tables, the two AUTOINCREMENT counters
(`sqlite_sequence`) and whether `UNIQUE INDEX UnspentIndex ON Unspents (hash, idx)`
exists. Rows are kept in insertion order. -/
structure Store where
  blocks : List BlockRow
  confirmations : List ConfirmationRow
  unspents : List Unspent
  spendings : List Spending
  confirmationsSeq : Int
  unspentsSeq : Int
  unspentIndex : Bool
deriving DecidableEq, Repr

/-- The two failure kinds of the engine (`Error`, `Reject`) and the exception of
the database layer; all three derive from `std::exception`. -/
inductive Failure where
  | Error (what : String)
  | Reject (what : String)
  | Database (what : String)
deriving DecidableEq, Repr

def Failure.what : Failure → String
  | .Error w => w
  | .Reject w => w
  | .Database w => w

def Failure.isError : Failure → Bool
  | .Error _ => true
  | _ => false

/-- Result of a member function: normal return with a value, or an exception;
both carry the object state at that point. -/
inductive Res (σ α : Type) where
  | ok (a : α) (s : σ)
  | thrown (f : Failure) (s : σ)
deriving DecidableEq, Repr

def Res.state {σ α : Type} : Res σ α → σ
  | .ok _ s => s
  | .thrown _ s => s

def Res.isOk {σ α : Type} : Res σ α → Bool
  | .ok _ _ => true
  | .thrown _ _ => false

def Res.failure {σ α : Type} : Res σ α → Option Failure
  | .ok _ _ => none
  | .thrown f _ => some f

/-! ## Constants -/

def COINBASE_MATURITY : Int := 100

/-- The value of a 32-bit `int` to which the integer `v` is assigned or in which it
is computed: the residue of `v` modulo 2^32 between -2^31 and 2^31 - 1. -/
def wrapInt32 (v : Int) : Int := (v + 2147483648) % 4294967296 - 2147483648

def LOCKTIME_THRESHOLD : Int := 500000000

/-! ## Ordered maps (`std::map<uint256, T>`, `std::set<uint256>`) -/

def mapInsert {α : Type} (k : Nat) (v : α) : List (Nat × α) → List (Nat × α)
  | [] => [(k, v)]
  | (k1, v1) :: rest =>
    if k = k1 then (k, v) :: rest
    else if k < k1 then (k, v) :: (k1, v1) :: rest
    else (k1, v1) :: mapInsert k v rest

def mapErase {α : Type} (k : Nat) (m : List (Nat × α)) : List (Nat × α) :=
  m.filter (fun e => decide (e.1 ≠ k))

def mapFind {α : Type} (k : Nat) (m : List (Nat × α)) : Option α :=
  (m.find? (fun e => decide (e.1 = k))).map (fun e => e.2)

def setInsert (k : Nat) : List Nat → List Nat
  | [] => [k]
  | k1 :: rest =>
    if k = k1 then k1 :: rest
    else if k < k1 then k :: k1 :: rest
    else k1 :: setInsert k rest

/-! ## BlockTree -/

/-- Modelled from the spec: class `BlockTree` is not part of `BlockChain.cpp`.
The forest is an arena of header summaries in insertion order (the genesis
first); parents, heights, cumulative work and the best tip are derived from it. -/
structure BlockTree where
  nodes : List BlockRef
deriving DecidableEq, Repr

/-- Class `BlockIterator`: the node it points at with its signed height (negative for a
side-branch node); `_tree.end()` is `none` in `Option BlockIterator`. -/
structure BlockIterator where
  ref : BlockRef
  height : Int
deriving DecidableEq, Repr

/-- Modelled from the spec: `count(iter)` is the positive identifier used as
primary key in the store, height + 1 on the main chain (the genesis has count 1).
A node that is not on the main chain has a negative height; the key under which
the rows of such a block were stored is its distance from the genesis plus one,
so the identifier is `|height| + 1`. -/
def BlockIterator.count (blk : BlockIterator) : Int := |blk.height| + 1

/-- Struct `BlockTree::Changes`. -/
structure Changes where
  deleted : List Nat
  inserted : List Nat
deriving DecidableEq, Repr

namespace BlockTree

/-- Path from the node with hash `h` back to the root, newest first, following
parent hashes through the arena given newest first. -/
def chainBack : List BlockRef → Nat → List BlockRef
  | [], _ => []
  | r :: rest, h => if r.hash = h then r :: chainBack rest r.prev else chainBack rest h

/-- Modelled from the spec: `find(hash)`, as the node only. -/
def findRef (t : BlockTree) (h : Nat) : Option BlockRef :=
  t.nodes.find? (fun r => decide (r.hash = h))

/-- Path from a node to the genesis, newest first. -/
def path (t : BlockTree) (h : Nat) : List BlockRef := chainBack t.nodes.reverse h

/-- Modelled from the spec: the best tip has the strictly greatest cumulative
work; ties are broken by first-seen. The arena is read oldest first; `acc` holds
the nodes read so far, newest first, each with the cumulative work of the branch
that ends in it (its own work plus that of its parent), and `best` the best node
so far with its work. -/
def bestOf (work : BlockRef → Nat) :
    List BlockRef → List (BlockRef × Nat) → Option (BlockRef × Nat) → Option (BlockRef × Nat)
  | [], _, best => best
  | r :: rest, acc, best =>
    let w := ((acc.find? (fun e => decide (e.1.hash = r.prev))).map (fun e => e.2)).getD 0 + work r
    match best with
    | none => bestOf work rest ((r, w) :: acc) (some (r, w))
    | some b =>
      if b.2 < w then bestOf work rest ((r, w) :: acc) (some (r, w))
      else bestOf work rest ((r, w) :: acc) (some b)

/-- Modelled from the spec: `best()`, as the node only. -/
def bestRef (work : BlockRef → Nat) (t : BlockTree) : Option BlockRef :=
  (bestOf work t.nodes [] none).map (fun b => b.1)

/-- The main chain, tip first, genesis last. -/
def trunk (work : BlockRef → Nat) (t : BlockTree) : List BlockRef :=
  match bestRef work t with
  | none => []
  | some b => t.path b.hash

/-- Modelled from the spec: `height()` of the tree is the height of the best tip. -/
def height (work : BlockRef → Nat) (t : BlockTree) : Int := ((trunk work t).length : Int) - 1

/-- Modelled from the spec: `count()` of the tree is height + 1. -/
def count (work : BlockRef → Nat) (t : BlockTree) : Int := ((trunk work t).length : Int)

/-- Modelled from the spec: `find(hash)`; the height of the iterator is the
distance to the genesis, negated for a node that is not on the main chain. -/
def find (work : BlockRef → Nat) (t : BlockTree) (h : Nat) : Option BlockIterator :=
  match t.findRef h with
  | none => none
  | some r =>
    let d : Int := ((t.path h).length : Int) - 1
    if (trunk work t).any (fun b => decide (b.hash = h)) then some ⟨r, d⟩ else some ⟨r, -d⟩

/-- Modelled from the spec: `best()`. -/
def best (work : BlockRef → Nat) (t : BlockTree) : Option BlockIterator :=
  match bestRef work t with
  | none => none
  | some b => find work t b.hash

/-- Block at a given height of a chain given tip first (the tip has the height
`length - 1`). -/
def chainAt (chain : List BlockRef) (h : Int) : Option BlockRef :=
  if h < 0 ∨ (chain.length : Int) ≤ h then none else chain.get? (chain.length - 1 - h.toNat)

/-- Main-chain block at a given height (`BlockChain::iterator(height)`). -/
def atHeight (work : BlockRef → Nat) (t : BlockTree) (h : Int) : Option BlockRef :=
  chainAt (trunk work t) h

/-- The parts of two chains, both given genesis first, above their fork point. -/
def aboveFork : List BlockRef → List BlockRef → List BlockRef × List BlockRef
  | a :: as, b :: bs => if a.hash = b.hash then aboveFork as bs else (a :: as, b :: bs)
  | as, bs => (as, bs)

/-- Modelled from the spec: `insert(BlockRef)` splices the node under its parent;
when the best tip changes, `deleted` lists the blocks to detach from the old tip
down to the fork point and `inserted` the blocks to attach, new tip first. A node
that is already known, or whose parent is unknown, changes nothing. -/
def insert (work : BlockRef → Nat) (t : BlockTree) (r : BlockRef) : BlockTree × Changes :=
  if (t.findRef r.hash).isSome || (t.findRef r.prev).isNone then (t, ⟨[], []⟩)
  else
    let t1 : BlockTree := ⟨t.nodes ++ [r]⟩
    let d := aboveFork (trunk work t).reverse (trunk work t1).reverse
    (t1, ⟨d.1.reverse.map (fun b => b.hash), d.2.reverse.map (fun b => b.hash)⟩)

/-- Modelled from the spec: `pop_back()` removes the node spliced last. -/
def pop_back (t : BlockTree) : BlockTree := ⟨t.nodes.dropLast⟩

/-- Modelled from the spec: `assign(Vec<BlockRef>)` rebuilds from persisted order. -/
def assign (refs : List BlockRef) : BlockTree := ⟨refs⟩

end BlockTree


/-! ## External collaborators -/

/-- Pure primitives consumed by the engine whose code lies outside
`BlockChain.cpp`: hashing, work of a header, the constant `MAX_MONEY`,
`VerifySignature`, the clocks, the digest of a trie and the two coinbase checks
of class `Block`. -/
structure Ext where
  blockHash : Block → Nat
  txHash : Transaction → Nat
  work : BlockRef → Nat
  MAX_MONEY : Nat
  VerifySignature : Output → Transaction → Nat → Bool → Nat → Bool
  GetTime : Int
  GetAdjustedTime : Int
  trieHash : List Unspent → Nat
  checkHeightInCoinbase : Block → Int → Bool
  checkSpendablesRootInCoinbase : Block → Nat → Bool

/-- The chain parameters behind member `_chain`. -/
structure Chain where
  genesisBlock : Block
  subsidy : Int → Int
  nextWorkRequired : BlockTree → BlockIterator → Nat
  checkPoints : Int → Nat → Bool
  timeStampBIP0016 : Nat
  timeStampBIP0030 : Nat
  totalBlocksEstimate : Nat
  accept_quorum : Nat
  accept_majority : Nat
  enforce_quorum : Nat
  enforce_majority : Nat

/-- Function `MoneyRange`: the value is neither negative nor above `MAX_MONEY`. -/
def Ext.MoneyRange (X : Ext) (v : Int) : Bool := decide (0 ≤ v ∧ v ≤ (X.MAX_MONEY : Int))

/-! ## Transactions -/

/-- Modelled from the spec: the null outpoint of a coinbase input (hash 0 and
the largest 32-bit index). -/
def Coin.isNull (c : Coin) : Bool := c.hash == 0 && c.index == 4294967295

/-- Modelled from the spec: a coinbase has exactly one input, whose previous
outpoint is the null outpoint. -/
def Transaction.isCoinBase (txn : Transaction) : Bool :=
  match txn.inputs with
  | [i] => i.prevout.isNull
  | _ => false

/-- Sum of the output values (`Transaction::getValueOut`). -/
def Transaction.getValueOut (txn : Transaction) : Int := (txn.outputs.map (fun o => o.value)).sum

/-- Member `Input::isFinal`: the sequence number is the largest 32-bit value. -/
def Input.isFinal (i : Input) : Bool := i.sequence == 4294967295

/-- Member `Confirmation::is_coinbase`: coinbase confirmations have `cnf = -count`
(see the schema comments of the constructor). -/
def Confirmation.is_coinbase (c : Confirmation) : Bool := decide (c.cnf < 0)

/-! ## Spendables trie -/

/-- Modelled from the spec: the Merkle trie `Spendables`, an ordered key/value
set over outpoints, with its `authenticated` switch. Leaves are kept in key
order; inserting a key that is present replaces its value. -/
structure Spendables where
  leaves : List Unspent
  auth : Bool
deriving DecidableEq, Repr

def Coin.lt (a b : Coin) : Bool := decide (a.hash < b.hash) || (a.hash == b.hash && decide (a.index < b.index))

def trieInsert (u : Unspent) : List Unspent → List Unspent
  | [] => [u]
  | v :: rest =>
    if u.key = v.key then u :: rest
    else if Coin.lt u.key v.key then u :: v :: rest
    else v :: trieInsert u rest

namespace Spendables

def empty : Spendables := ⟨[], false⟩

def insert (t : Spendables) (u : Unspent) : Spendables := { t with leaves := trieInsert u t.leaves }

def remove (t : Spendables) (k : Coin) : Spendables :=
  { t with leaves := t.leaves.filter (fun u => decide (u.key ≠ k)) }

def find (t : Spendables) (k : Coin) : Option Unspent := t.leaves.find? (fun u => decide (u.key = k))

def authenticated (t : Spendables) (b : Bool) : Spendables := { t with auth := b }

/-- Digest of the root node (`root()->hash()`). -/
def rootHash (X : Ext) (t : Spendables) : Nat := X.trieHash t.leaves

end Spendables

/-! ## Claim pool -/

structure Claim where
  txn : Transaction
  hash : Nat
  spents : List Coin
  fee : Int
  timestamp : Int
deriving DecidableEq, Repr

/-- Modelled from the spec: class `Claims`, the pool of unconfirmed transactions
with the outpoints each claim spends, its fee and its admission time. -/
structure Claims where
  entries : List Claim
deriving DecidableEq, Repr

namespace Claims

def have_ (c : Claims) (h : Nat) : Bool := c.entries.any (fun e => decide (e.hash = h))

def spent (c : Claims) (k : Coin) : Bool := c.entries.any (fun e => e.spents.any (fun s => decide (s = k)))

/-- Output of an earlier claim referenced by an outpoint, if any (a null `Output`
in the source is `none` here). -/
def prev (c : Claims) (k : Coin) : Option Output :=
  match c.entries.find? (fun e => decide (e.hash = k.hash)) with
  | none => none
  | some e => e.txn.outputs.get? k.index

def insert (X : Ext) (c : Claims) (txn : Transaction) (spents : List Coin) (fee : Int) : Claims :=
  ⟨c.entries ++ [⟨txn, X.txHash txn, spents, fee, X.GetTime⟩]⟩

def erase (c : Claims) (h : Nat) : Claims := ⟨c.entries.filter (fun e => decide (e.hash ≠ h))⟩

/-- Removal of the claims admitted before the given time. -/
def purge (c : Claims) (before : Int) : Claims := ⟨c.entries.filter (fun e => decide (before ≤ e.timestamp))⟩

/-- Modelled from the spec: `transactions(fee)` returns the fee-ordered selection
for template assembly (here every claim, the highest fee first) and reports the
total of their fees. -/
def transactions (c : Claims) : List Transaction × Int :=
  ((List.insertionSort (fun a b : Claim => b.fee ≤ a.fee) c.entries).map (fun e => e.txn),
   (c.entries.map (fun e => e.fee)).sum)

end Claims

/-! ## Verifier -/

structure VerifyJob where
  output : Output
  txn : Transaction
  in_idx : Nat
  strict : Bool
  flags : Nat
deriving DecidableEq, Repr

/-- Modelled from the spec: the batched signature checker; `verify` enqueues a
check and `yield_success` is the aggregate result of the enqueued checks. -/
structure Verifier where
  queue : List VerifyJob
deriving DecidableEq, Repr

namespace Verifier

def reset (_ : Verifier) : Verifier := ⟨[]⟩

def verify (v : Verifier) (o : Output) (txn : Transaction) (in_idx : Nat) (strict : Bool) (flags : Nat) : Verifier :=
  ⟨v.queue ++ [⟨o, txn, in_idx, strict, flags⟩]⟩

def yield_success (X : Ext) (v : Verifier) : Bool :=
  v.queue.all (fun j => X.VerifySignature j.output j.txn j.in_idx j.strict j.flags)

def reason (_ : Verifier) : String := "signature check failed"

end Verifier

/-! ## Engine state -/

/-- The data members of class `BlockChain` that the modelled member functions
read or write. -/
structure BlockChain where
  store : Store
  tree : BlockTree
  branches : List (Nat × Block)
  spendables : Spendables
  immature_coinbases : Spendables
  claims : Claims
  verifier : Verifier
  bestLocator : List Nat
  lazy_purging : Bool
  purge_depth : Nat
  validation_depth : Nat
  verification_depth : Nat
deriving DecidableEq, Repr

abbrev Txns := List (Nat × Transaction)

abbrev Hashes := List Nat

def Res.bind {σ α β : Type} (r : Res σ α) (f : α → σ → Res σ β) : Res σ β :=
  match r with
  | .ok a s => f a s
  | .thrown e s => .thrown e s

/-! ## Store statements -/

namespace Store

/-- Statement `INSERT INTO Spendings`: `coin` is the primary key. -/
def insertSpending (s : Store) (r : Spending) : Option Store :=
  if s.spendings.any (fun x => decide (x.coin = r.coin)) then none
  else some { s with spendings := s.spendings ++ [r] }

/-- Statement `INSERT [OR REPLACE] INTO Unspents` without a `coin` value: the row
gets the next AUTOINCREMENT id; a clash with `UnspentIndex` fails, or with `OR
REPLACE` deletes the clashing rows. -/
def insertUnspent (s : Store) (replace : Bool) (key : Coin) (output : Output) (count cnf : Int) :
    Option (Int × Store) :=
  let dup := s.unspentIndex && s.unspents.any (fun u => decide (u.key = key))
  if dup && !replace then none
  else
    let rows := if dup then s.unspents.filter (fun u => decide (u.key ≠ key)) else s.unspents
    let coin := s.unspentsSeq + 1
    some (coin, { s with unspents := rows ++ [⟨coin, key, output, count, cnf⟩], unspentsSeq := coin })

/-- Statement `INSERT INTO Unspents (coin, ...)` with an explicit `coin`: `coin`
is the rowid of the table, so the row takes its place in the order of the ids, in
which the rows are read. -/
def insertUnspentRow (s : Store) (u : Unspent) : Option Store :=
  if s.unspents.any (fun x => decide (x.coin = u.coin)) then none
  else if s.unspentIndex && s.unspents.any (fun x => decide (x.key = u.key)) then none
  else some { s with unspents := List.orderedInsert (fun a b : Unspent => a.coin ≤ b.coin) u s.unspents,
                     unspentsSeq := max s.unspentsSeq u.coin }

/-- Statement `INSERT INTO Confirmations` without a `cnf` value. -/
def insertConfirmation (s : Store) (locktime : Nat) (version count idx : Int) : Int × Store :=
  let cnf := s.confirmationsSeq + 1
  (cnf, { s with confirmations := s.confirmations ++ [⟨cnf, version, locktime, count, idx⟩],
                 confirmationsSeq := cnf })

/-- Statement `INSERT INTO Confirmations (cnf, ...)` with an explicit `cnf`. -/
def insertConfirmationRow (s : Store) (r : ConfirmationRow) : Option Store :=
  if s.confirmations.any (fun x => decide (x.cnf = r.cnf)) then none
  else some { s with confirmations := s.confirmations ++ [r],
                     confirmationsSeq := max s.confirmationsSeq r.cnf }

/-- Statement `INSERT INTO Blocks`: `count` is the primary key. -/
def insertBlock (s : Store) (r : BlockRow) : Option Store :=
  if s.blocks.any (fun x => decide (x.count = r.count)) then none
  else some { s with blocks := s.blocks ++ [r] }

/-- The two purge statements: `DELETE FROM Spendings WHERE icnf IN (SELECT cnf FROM
Confirmations WHERE count <= ?)` and `DELETE FROM Confirmations WHERE count <= ?`. -/
def purge (s : Store) (depth : Int) : Store :=
  let cnfs := (s.confirmations.filter (fun c => decide (c.count ≤ depth))).map (fun c => c.cnf)
  { s with spendings := s.spendings.filter (fun x => !cnfs.contains x.icnf),
           confirmations := s.confirmations.filter (fun c => !decide (c.count ≤ depth)) }

/-- Statement `CREATE UNIQUE INDEX IF NOT EXISTS UnspentIndex ON Unspents (hash,
idx)`: it fails when two rows hold the same outpoint. -/
def createUnspentIndex (s : Store) : Option Store :=
  if s.unspentIndex then some s
  else if (s.unspents.map (fun u => u.key)).Nodup then some { s with unspentIndex := true }
  else none

end Store

def constraintFailed : Failure := .Database "constraint failed"

/-! ## Member functions of `BlockChain` -/

/-- The lookup of `redeem`: in the table `Unspents` with the maturity test when
`_validation_depth` is 0, else in the spendables trie, from which the coin is
removed. -/
def findCoin (bc : BlockChain) (input : Input) (iconf : Confirmation) : Res BlockChain Unspent :=
  if bc.validation_depth = 0 then
    match bc.store.unspents.find? (fun u => decide (u.key = input.prevout)) with
    | none => .thrown (.Reject "Spent coin not found !") bc
    | some coin =>
      if coin.count < 0 ∧ iconf.count + coin.count < COINBASE_MATURITY then
        .thrown (.Error "Tried to spend immature coinbase") bc
      else .ok coin bc
  else
    match bc.spendables.find input.prevout with
    | none => .thrown (.Error "Spent coin not found or immature coinbase") bc
    | some coin => .ok coin { bc with spendables := bc.spendables.remove input.prevout }

/-- The row of `Spendings` that `redeem` writes unless the consuming block lies
below the purge depth. -/
def archiveCoin (bc : BlockChain) (coin : Unspent) (input : Input) (iconf : Confirmation) :
    Res BlockChain Unit :=
  if iconf.count ≥ (bc.purge_depth : Int) then
    match bc.store.insertSpending
        ⟨coin.cnf, coin.coin, input.prevout.hash, input.prevout.index, coin.output.value,
         coin.output.script, input.signature, input.sequence, iconf.cnf⟩ with
    | none => .thrown constraintFailed bc
    | some st => .ok () { bc with store := st }
  else .ok () bc

/-- Member `BlockChain::redeem`. -/
def redeem (X : Ext) (bc : BlockChain) (input : Input) (iconf : Confirmation) : Res BlockChain Output :=
  (findCoin bc input iconf).bind fun coin bc1 =>
    if !X.MoneyRange coin.output.value then .thrown (.Error "Input values out of range") bc1
    else
      (archiveCoin bc1 coin input iconf).bind fun _ bc2 =>
        .ok coin.output
          { bc2 with store := { bc2.store with
              unspents := bc2.store.unspents.filter (fun u => decide (u.coin ≠ coin.coin)) } }

/-- Member `BlockChain::issue`. -/
def issue (bc : BlockChain) (output : Output) (hash : Nat) (out_idx : Nat) (conf : Confirmation)
    (unique : Bool) : Res BlockChain Unit :=
  let count : Int := if conf.is_coinbase then -conf.count else conf.count
  if bc.validation_depth = 0 then
    match bc.store.insertUnspent (!unique) ⟨hash, out_idx⟩ output count conf.cnf with
    | none => .thrown constraintFailed bc
    | some (_, st) => .ok () { bc with store := st }
  else
    match bc.store.insertUnspent false ⟨hash, out_idx⟩ output count conf.cnf with
    | none => .thrown constraintFailed bc
    | some (coin, st) =>
      let bc1 : BlockChain := { bc with store := st }
      let unspent : Unspent := ⟨coin, ⟨hash, out_idx⟩, output, count, conf.cnf⟩
      if conf.is_coinbase then
        if unique && (bc1.immature_coinbases.find ⟨hash, out_idx⟩).isSome then
          .thrown (.Error "Attempting to insert dublicate coinbase") bc1
        else if unique && (bc1.spendables.find ⟨hash, out_idx⟩).isSome then
          .thrown (.Error "Attempting to insert dublicate coinbase") bc1
        else .ok () { bc1 with immature_coinbases := bc1.immature_coinbases.insert unspent }
      else .ok () { bc1 with spendables := bc1.spendables.insert unspent }

/-- Body of the loop of `maturate`: move one coinbase row into the spendables. -/
def maturateOne (b : BlockChain) (cb : Unspent) : BlockChain :=
  { b with spendables := b.spendables.insert cb,
           immature_coinbases := b.immature_coinbases.remove cb.key }

/-- Member `BlockChain::maturate`. -/
def maturate (bc : BlockChain) (count : Int) : BlockChain :=
  if bc.validation_depth = 0 then bc
  else (bc.store.unspents.filter (fun u => decide (u.count = -count))).foldl maturateOne bc

/-- Member `BlockChain::insertBlockHeader`. -/
def insertBlockHeader (X : Ext) (bc : BlockChain) (count : Int) (block : Block) : Res BlockChain Unit :=
  match bc.store.insertBlock
      ⟨count, X.blockHash block, block.version, block.prev, block.mrkl, block.time, block.bits,
       block.nonce⟩ with
  | none => .thrown constraintFailed bc
  | some st => .ok () { bc with store := st }

/-- The input loop of `postTransaction`: redeem each input, add its value to
`value_in` and hand it to the verifier when `verify` is set. -/
def redeemInputs (X : Ext) (txn : Transaction) (conf : Confirmation) (verify strict : Bool) :
    BlockChain → List Input → Nat → Int → Res BlockChain Int
  | bc, [], _, value_in => .ok value_in bc
  | bc, input :: rest, in_idx, value_in =>
    (redeem X bc input conf).bind fun coin bc1 =>
      let bc2 : BlockChain :=
        if verify then { bc1 with verifier := bc1.verifier.verify coin txn in_idx strict 0 } else bc1
      redeemInputs X txn conf verify strict bc2 rest (in_idx + 1) (value_in + coin.value)

/-- The outputs returned by the successive calls of `redeem` in the input loop of
`postTransaction` (the loop stops at the first call that throws). -/
def redeemedOutputs (X : Ext) (txn : Transaction) (conf : Confirmation) (verify strict : Bool) :
    BlockChain → List Input → Nat → List Output
  | _, [], _ => []
  | bc, input :: rest, in_idx =>
    match redeem X bc input conf with
    | .thrown _ _ => []
    | .ok coin bc1 =>
      let bc2 : BlockChain :=
        if verify then { bc1 with verifier := bc1.verifier.verify coin txn in_idx strict 0 } else bc1
      coin :: redeemedOutputs X txn conf verify strict bc2 rest (in_idx + 1)

/-- The output loop of `postTransaction` and `postSubsidy`. -/
def issueOutputs (hash : Nat) (conf : Confirmation) (unique : Bool) :
    BlockChain → List Output → Nat → Res BlockChain Unit
  | bc, [], _ => .ok () bc
  | bc, o :: rest, out_idx =>
    (issue bc o hash out_idx conf unique).bind fun _ bc1 =>
      issueOutputs hash conf unique bc1 rest (out_idx + 1)

/-- The first statements of `postTransaction`: the confirmation id, from a new row
of `Confirmations` or `LOCKTIME_THRESHOLD` below the purge depth. -/
def confirmTransaction (bc : BlockChain) (txn : Transaction) (blk : BlockIterator) (idx : Int) :
    Int × BlockChain :=
  if blk.count ≥ (bc.purge_depth : Int) then
    ((bc.store.insertConfirmation txn.lockTime txn.version blk.count idx).1,
     { bc with store := (bc.store.insertConfirmation txn.lockTime txn.version blk.count idx).2 })
  else (LOCKTIME_THRESHOLD, bc)

/-- Member `BlockChain::postTransaction`; the result is the updated `fees`. -/
def postTransaction (X : Ext) (chain : Chain) (bc : BlockChain) (txn : Transaction) (fees min_fee : Int)
    (blk : BlockIterator) (idx : Int) (verify : Bool) : Res BlockChain Int :=
  let hash := X.txHash txn
  let strictPayToScriptHash := decide (blk.ref.time > chain.timeStampBIP0016)
  let p : Int × BlockChain := confirmTransaction bc txn blk idx
  let conf : Confirmation := ⟨txn, p.1, blk.count⟩
  (redeemInputs X txn conf verify strictPayToScriptHash p.2 txn.inputs 0 0).bind fun value_in bc2 =>
    let fee := value_in - txn.getValueOut
    if fee < 0 then .thrown (.Error "fee < 0") bc2
    else if fee < min_fee then .thrown (.Error "fee < min_fee") bc2
    else if !X.MoneyRange (fees + fee) then .thrown (.Error "fees out of range") bc2
    else
      (issueOutputs hash conf true bc2 txn.outputs 0).bind fun _ bc3 => .ok (fees + fee) bc3

/-- The confirmation row of a coinbase (`cnf = -count`), written by `postSubsidy`
unless the block lies below the purge depth. -/
def confirmCoinbase (bc : BlockChain) (txn : Transaction) (blk : BlockIterator) : Res BlockChain Unit :=
  if blk.count ≥ (bc.purge_depth : Int) then
    match bc.store.insertConfirmationRow ⟨-blk.count, txn.version, txn.lockTime, blk.count, 0⟩ with
    | none => .thrown constraintFailed bc
    | some st => .ok () { bc with store := st }
  else .ok () bc

/-- The row of `Spendings` that `postSubsidy` writes for the coinbase input. -/
def archiveCoinbase (bc : BlockChain) (input : Input) (blk : BlockIterator) (value_in : Int) :
    Res BlockChain Unit :=
  if blk.count ≥ (bc.purge_depth : Int) then
    match bc.store.insertSpending
        ⟨0, -blk.count, 0, 0, value_in, [], input.signature, input.sequence, blk.count⟩ with
    | none => .thrown constraintFailed bc
    | some st => .ok () { bc with store := st }
  else .ok () bc

/-- Member `BlockChain::postSubsidy`; the test `txn.isCoinBase()` is the match on
the single input with a null previous outpoint, which is `txn.getInput(0)`. -/
def postSubsidy (X : Ext) (chain : Chain) (bc : BlockChain) (txn : Transaction) (blk : BlockIterator)
    (fees : Int) : Res BlockChain Unit :=
  match txn.inputs with
  | [input] =>
    if !input.prevout.isNull then
      .thrown (.Error "postSubsidy only valid for coinbase transactions.") bc
    else
      let conf : Confirmation := ⟨txn, -blk.count, blk.count⟩
      let hash := X.txHash txn
      (confirmCoinbase bc txn blk).bind fun _ bc1 =>
        let value_in := chain.subsidy blk.height + fees
        if value_in < txn.getValueOut then .thrown (.Error "value in < value out") bc1
        else
          (archiveCoinbase bc1 input blk value_in).bind fun _ bc2 =>
            let unique := decide (blk.ref.time > chain.timeStampBIP0030)
            (issueOutputs hash conf unique bc2 txn.outputs 0).bind fun _ bc3 =>
              if bc3.validation_depth > 0 ∧ blk.count > COINBASE_MATURITY then
                .ok () (maturate bc3 (blk.count - COINBASE_MATURITY))
              else .ok () bc3
  | _ => .thrown (.Error "postSubsidy only valid for coinbase transactions.") bc

/-- The statement `INSERT INTO Unspents (...) SELECT ... FROM Spendings` of
`rollbackConfirmation`, row by row. -/
def resurrect : Store → List Unspent → Option Store
  | s, [] => some s
  | s, u :: rest =>
    match s.insertUnspentRow u with
    | none => none
    | some s1 => resurrect s1 rest

/-- Member `BlockChain::rollbackConfirmation`. -/
def rollbackConfirmation (bc : BlockChain) (cnf : Int) : Res BlockChain Unit :=
  let count : Int :=
    match bc.store.confirmations.find? (fun c => decide (c.cnf = cnf)) with
    | none => 0
    | some c => c.count
  let spent := bc.store.spendings.filter (fun s => decide (s.icnf = cnf))
  let bc1 : BlockChain :=
    if bc.validation_depth > 0 ∧ cnf > 0 then
      let unspents : List Unspent :=
        spent.map (fun s => ⟨s.coin, ⟨s.hash, s.idx⟩, ⟨s.value, s.script⟩, count, s.ocnf⟩)
      let t1 := unspents.foldl (fun t u => t.insert u) bc.spendables
      let coins := (bc.store.unspents.filter (fun u => decide (u.cnf = cnf))).map (fun u => u.key)
      { bc with spendables := coins.foldl (fun t c => t.remove c) t1 }
    else bc
  let count1 : Int := if cnf < 0 then -count else count
  match resurrect bc1.store
      (spent.map (fun s => ⟨s.coin, ⟨s.hash, s.idx⟩, ⟨s.value, s.script⟩, count1, s.ocnf⟩)) with
  | none => .thrown constraintFailed bc1
  | some st =>
    .ok () { bc1 with store := { st with
      spendings := st.spendings.filter (fun s => decide (s.icnf ≠ cnf)),
      unspents := st.unspents.filter (fun u => decide (u.cnf ≠ cnf)),
      confirmations := st.confirmations.filter (fun c => decide (c.cnf ≠ cnf)) } }

/-- The loop of `rollbackBlock` over the confirmations to remove. -/
def rollbackConfirmations : BlockChain → List Int → Res BlockChain Unit
  | bc, [] => .ok () bc
  | bc, cnf :: rest => (rollbackConfirmation bc cnf).bind fun _ bc1 => rollbackConfirmations bc1 rest

/-- Member `BlockChain::rollbackBlock`. -/
def rollbackBlock (bc : BlockChain) (count : Int) : Res BlockChain Unit :=
  let cnfs : List Int :=
    (List.insertionSort (fun a b : ConfirmationRow => a.idx ≤ b.idx)
      (bc.store.confirmations.filter (fun c => decide (c.count = count)))).map (fun c => c.cnf)
  (rollbackConfirmations bc cnfs.reverse).bind fun _ bc1 =>
    .ok () { bc1 with store := { bc1.store with
      blocks := bc1.store.blocks.filter (fun b => decide (b.count ≠ count)) } }

/-- Member `BlockChain::getBlockHeader`: a block without transactions, null when
there is no row. -/
def getBlockHeader (bc : BlockChain) (count : Int) : Block :=
  match bc.store.blocks.find? (fun b => decide (b.count = count)) with
  | none => ⟨0, 0, 0, 0, 0, 0, []⟩
  | some b => ⟨b.version, b.prev, b.mrkl, b.time, b.bits, b.nonce, []⟩

/-- Member `BlockChain::getBlock(int count, Block&)`. The rows of the `UNION` are
distinct and come in the order of `idx`, rows of equal `idx` in the order of their
value and then of their script. -/
def getBlock (bc : BlockChain) (count : Int) : Block :=
  let header := getBlockHeader bc count
  let confs : List ConfirmationRow :=
    List.insertionSort (fun a b : ConfirmationRow => a.idx ≤ b.idx)
      (bc.store.confirmations.filter (fun c => decide (c.count = count)))
  let txns : List Transaction := confs.map fun conf =>
    let inputs : List Input :=
      (List.insertionSort (fun a b : Spending => a.idx ≤ b.idx)
        (bc.store.spendings.filter (fun s => decide (s.icnf = conf.cnf)))).map
        (fun s => ⟨⟨s.hash, s.idx⟩, s.signature, s.sequence⟩)
    let rows : List (Int × Script × Nat) :=
      ((bc.store.unspents.filter (fun u => decide (u.cnf = conf.cnf))).map
          (fun u => (u.output.value, u.output.script, u.key.index))) ++
      ((bc.store.spendings.filter (fun s => decide (s.icnf = conf.cnf))).map
          (fun s => (s.value, s.script, s.idx)))
    let outputs : List Output :=
      (List.insertionSort (fun a b : Int × Script × Nat =>
          a.2.2 < b.2.2 ∨ (a.2.2 = b.2.2 ∧ (a.1 < b.1 ∨ (a.1 = b.1 ∧ a.2.1 ≤ b.2.1))))
        rows.dedup).map
        (fun r => ⟨r.1, r.2.1⟩)
    ⟨conf.version, conf.locktime, inputs, outputs⟩
  { header with txs := txns }

/-- Member `BlockChain::isFinal`. -/
def isFinal (X : Ext) (bc : BlockChain) (tx : Transaction) (nBlockHeight : Int) (nBlockTime : Int) : Bool :=
  if tx.lockTime = 0 then true
  else
    let h : Int := if nBlockHeight = 0 then bc.tree.height X.work else nBlockHeight
    let t : Int := if nBlockTime = 0 then X.GetAdjustedTime else nBlockTime
    if (tx.lockTime : Int) < (if (tx.lockTime : Int) < LOCKTIME_THRESHOLD then h else t) then true
    else tx.inputs.all (fun i => i.isFinal)

/-- Member `BlockChain::isSpent`: when `_validation_depth` is 0 the query yields the
`coin` of the row of `Unspents` with the outpoint, or 0 when there is no row, and
the result is the comparison with 0; else the outpoint is looked up in the
spendables trie. -/
def isSpent (bc : BlockChain) (coin : Coin) : Bool :=
  if bc.validation_depth = 0 then
    decide (((bc.store.unspents.find? (fun u => decide (u.key = coin))).map (fun u => u.coin)).getD 0 = 0)
  else (bc.spendables.find coin).isNone

/-- The transaction loop of `attach` (index 1 onwards); `verify` is the local
variable declared before the loop, so an assignment made for one transaction is
seen by the following ones. The result is `fees` with the two reference
parameters `unconfirmed` and `confirmed`. -/
def attachLoop (X : Ext) (chain : Chain) (blk : BlockIterator) (min_fee : Int) :
    BlockChain → List Transaction → Int → Int → Bool → Txns → Hashes →
      Res BlockChain (Int × Txns × Hashes)
  | bc, [], _, fees, _, unconfirmed, confirmed => .ok (fees, unconfirmed, confirmed) bc
  | bc, txn :: rest, idx, fees, verify, unconfirmed, confirmed =>
    let hash := X.txHash txn
    let verify1 := if (mapFind hash unconfirmed).isSome || bc.claims.have_ hash then false else verify
    (postTransaction X chain bc txn fees min_fee blk idx verify1).bind fun fees1 bc1 =>
      attachLoop X chain blk min_fee bc1 rest (idx + 1) fees1 verify1
        (mapErase hash unconfirmed) (setInsert hash confirmed)

/-- A block without header values and transactions (`Block()`). -/
def nullBlock : Block := ⟨0, 0, 0, 0, 0, 0, []⟩

/-- Expression `_branches[hash]`: the block stored under the key; a null block is
stored and returned when the key is absent. -/
def branchAt (bc : BlockChain) (hash : Nat) : Block × BlockChain :=
  match mapFind hash bc.branches with
  | some b => (b, bc)
  | none => (nullBlock, { bc with branches := mapInsert hash nullBlock bc.branches })

/-- Member `BlockChain::attach`. Reading `_branches[hash]` creates a null block
when the key is absent; transaction 0 of a block without transactions (undefined
in the source) is taken to be a transaction without inputs. -/
def attach (X : Ext) (chain : Chain) (bc : BlockChain) (blk : BlockIterator) (unconfirmed : Txns)
    (confirmed : Hashes) : Res BlockChain (Txns × Hashes) :=
  let block : Block := (branchAt bc blk.ref.hash).1
  let bc0 : BlockChain := (branchAt bc blk.ref.hash).2
  let height := blk.height
  if !chain.checkPoints height blk.ref.hash then
    .thrown (.Error ("Rejected by checkpoint lockin at " ++ toString height)) bc0
  else if !block.txs.all (fun tx => isFinal X bc0 tx height blk.ref.time) then
    .thrown (.Error "Contains a non-final transaction") bc0
  else
    let bc1 : BlockChain := { bc0 with verifier := bc0.verifier.reset }
    (insertBlockHeader X bc1 blk.count block).bind fun _ bc2 =>
      let verify := decide (bc2.verification_depth ≠ 0) && decide (height > (bc2.verification_depth : Int))
      (attachLoop X chain blk 0 bc2 block.txs.tail 1 0 verify unconfirmed confirmed).bind fun r bc3 =>
        (postSubsidy X chain bc3 (block.txs.headD ⟨1, 0, [], []⟩) blk r.1).bind fun _ bc4 =>
          if !bc4.verifier.yield_success X then
            .thrown (.Error ("Verify Signature failed with: " ++ bc4.verifier.reason)) bc4
          else .ok (r.2.1, r.2.2) bc4

/-- Member `BlockChain::detach`; the result is the reference parameter `unconfirmed`. -/
def detach (X : Ext) (bc : BlockChain) (blk : BlockIterator) (unconfirmed : Txns) : Res BlockChain Txns :=
  let block := getBlock bc blk.count
  (rollbackBlock bc blk.count).bind fun _ bc1 =>
    .ok (block.txs.foldl (fun u tx => mapInsert (X.txHash tx) tx u) unconfirmed)
      { bc1 with branches := mapInsert blk.ref.hash block bc1.branches }

/-! ### Version floors -/

/-- Statement `++bins[v]` on a `std::map<int, size_t>` kept in key order. -/
def binsIncr (v : Int) : List (Int × Nat) → List (Int × Nat)
  | [] => [(v, 1)]
  | (k, c) :: rest =>
    if v = k then (k, c + 1) :: rest
    else if v < k then (v, 1) :: (k, c) :: rest
    else (k, c) :: binsIncr v rest

def binsGet (v : Int) : List (Int × Nat) → Nat
  | [] => 0
  | (k, c) :: rest => if v = k then c else binsGet v rest

/-- The inner `while (++i != bins.rend())` loop over the bins below the highest
version, in descending order, `count` being the running sum. -/
def scanBins (majority : Nat) : List (Int × Nat) → Nat → Option Int
  | [], _ => none
  | (k, c) :: rest, count => if count + c > majority then some k else scanBins majority rest (count + c)

/-- The `do ... while (--bi != _tree.end())` loop shared by
`getMinAcceptedBlockVersion` and `getMinEnforcedBlockVersion`, over the main
chain from the best tip back to the genesis. -/
def minVersionLoop (quorum majority : Nat) : List BlockRef → List (Int × Nat) → Nat → Int
  | [], _, _ => 1
  | bi :: rest, bins, blocks =>
    let bins1 := binsIncr bi.version bins
    if binsGet bi.version bins1 > majority then bi.version
    else
      let inner : Option Int :=
        if blocks + 1 > quorum then
          match bins1.reverse with
          | [] => none
          | (_, c) :: more => scanBins majority more c
        else none
      match inner with
      | some v => v
      | none => minVersionLoop quorum majority rest bins1 (blocks + 1)

/-- Member `BlockChain::getMinAcceptedBlockVersion`. -/
def getMinAcceptedBlockVersion (X : Ext) (chain : Chain) (bc : BlockChain) : Int :=
  minVersionLoop chain.accept_quorum chain.accept_majority (bc.tree.trunk X.work) [] 0

/-- Member `BlockChain::getMinEnforcedBlockVersion`. -/
def getMinEnforcedBlockVersion (X : Ext) (chain : Chain) (bc : BlockChain) : Int :=
  minVersionLoop chain.enforce_quorum chain.enforce_majority (bc.tree.trunk X.work) [] 0

/-- Modelled from the spec: `getMedianTimePast` is the median of the previous
eleven block times, counted back from the given block. -/
def getMedianTimePast (bc : BlockChain) (blk : BlockIterator) : Int :=
  let times : List Int := ((bc.tree.path blk.ref.hash).take 11).map (fun r => (r.time : Int))
  let sorted := List.insertionSort (fun a b : Int => a ≤ b) times
  sorted.getD (sorted.length / 2) 0

/-- Member `BlockChain::validation_depth(unsigned int)`, the setter. -/
def validation_depth (X : Ext) (bc : BlockChain) (v : Nat) : Res BlockChain Unit :=
  if v = bc.validation_depth then .ok () bc
  else
    let bc1 : BlockChain := { bc with validation_depth := v }
    if bc1.validation_depth = 0 then
      match bc1.store.createUnspentIndex with
      | none => .thrown constraintFailed bc1
      | some st => .ok () { bc1 with store := st }
    else
      let bc2 : BlockChain := { bc1 with store := { bc1.store with unspentIndex := false } }
      if bc2.tree.count X.work < (bc2.validation_depth : Int) then
        .ok () { bc2 with spendables := bc2.spendables.authenticated false }
      else .ok () { bc2 with spendables := bc2.spendables.authenticated true }

/-! ### Best locator -/

/-- The height loop of `updateBestLocator`; every round lowers the last height,
so `height + 1` rounds of fuel are enough. -/
def locatorHeights : Nat → List Int → Int → List Int
  | 0, heights, _ => heights
  | fuel + 1, heights, step =>
    if heights.getLastD 0 - step ≤ 0 then heights
    else
      let heights1 := heights ++ [heights.getLastD 0 - step]
      locatorHeights fuel heights1 (if heights1.length > 10 then step * 2 else step)

/-- Member `BlockChain::updateBestLocator`. -/
def updateBestLocator (X : Ext) (chain : Chain) (bc : BlockChain) : BlockChain :=
  let heights := locatorHeights ((bc.tree.height X.work).toNat + 1) [bc.tree.height X.work] 1
  let have_ : List Nat :=
    heights.map (fun h => ((bc.tree.atHeight X.work h).map (fun r => r.hash)).getD 0)
  { bc with bestLocator := have_ ++ [X.blockHash chain.genesisBlock] }

/-- The loop of `getDistanceBack` over the hashes of the locator; `known` tells
whether `_tree.find` returns an iterator for a hash. The variables `distance` and
`step` are of type `int`. -/
def distanceBack (known : Nat → Bool) : List Nat → Int → Int → Int
  | [], distance, _ => distance
  | hash :: rest, distance, step =>
    if known hash then distance
    else
      distanceBack known rest (wrapInt32 (distance + step))
        (if wrapInt32 (distance + step) > 10 then wrapInt32 (step * 2) else step)

/-- Member `BlockChain::getDistanceBack`. -/
def getDistanceBack (X : Ext) (bc : BlockChain) (locator : List Nat) : Int :=
  distanceBack (fun hash => (bc.tree.find X.work hash).isSome) locator 0 1

/-! ### Claims -/

def coinSetInsert (k : Coin) : List Coin → List Coin
  | [] => [k]
  | k1 :: rest =>
    if k = k1 then k1 :: rest
    else if Coin.lt k k1 then k :: k1 :: rest
    else k1 :: coinSetInsert k rest

/-- The input loop of `try_claim` inside its `try` block. -/
def claimInputs (X : Ext) (bc : BlockChain) (txn : Transaction) (verify strict : Bool) :
    List Input → Nat → List Coin → Int → Except Failure (List Coin × Int)
  | [], _, spents, value_in => .ok (spents, value_in)
  | input :: rest, in_idx, spents, value_in =>
    if bc.claims.spent input.prevout || spents.contains input.prevout then
      .error (.Error "Coin already spent!")
    else
      let found : Except Failure Unspent :=
        match bc.claims.prev input.prevout with
        | some output => .ok ⟨0, input.prevout, output, 0, 0⟩
        | none =>
          if bc.validation_depth = 0 then
            match bc.store.unspents.find? (fun u => decide (u.key = input.prevout)) with
            | none => .error (.Reject "Spent coin not found !")
            | some coin =>
              if coin.count < 0 ∧ bc.tree.count X.work + coin.count < COINBASE_MATURITY then
                .error (.Error "Tried to spend immature coinbase")
              else .ok coin
          else
            match bc.spendables.find input.prevout with
            | some coin => .ok coin
            | none => .error (.Reject "Spent coin not found or immature coinbase")
      match found with
      | .error f => .error f
      | .ok coin =>
        if !X.MoneyRange coin.output.value then .error (.Error "Input values out of range")
        else if verify && !X.VerifySignature coin.output txn in_idx strict 0 then
          .error (.Error ("Verify Signature failed with verifying: " ++ toString (X.txHash txn)))
        else
          claimInputs X bc txn verify strict rest (in_idx + 1) (coinSetInsert input.prevout spents)
            (value_in + coin.output.value)

/-- Member `BlockChain::try_claim` (a `const` member: the state is only read). -/
def try_claim (X : Ext) (chain : Chain) (bc : BlockChain) (txn : Transaction) (verify : Bool) :
    Except Failure (List Coin × Int) :=
  let hash := X.txHash txn
  let min_fee : Int := 0
  if bc.claims.have_ hash then .error (.Error "Transaction already exists!")
  else
    let strictPayToScriptHash := decide (X.GetTime > (chain.timeStampBIP0016 : Int))
    let body : Except Failure (List Coin × Int) :=
      match claimInputs X bc txn verify strictPayToScriptHash txn.inputs 0 [] 0 with
      | .error f => .error f
      | .ok (spents, value_in) =>
        let fee := value_in - txn.getValueOut
        if fee < 0 then .error (.Error "fee < 0")
        else if fee < min_fee then .error (.Error "fee < min_fee")
        else .ok (spents, fee)
    match body with
    | .error (.Reject w) => .error (.Reject ("claim(Transaction): " ++ w))
    | .error f => .error (.Error ("claim(Transaction): " ++ f.what))
    | .ok r => .ok r

/-- Member `BlockChain::claim`. -/
def claim (X : Ext) (chain : Chain) (bc : BlockChain) (txn : Transaction) (verify : Bool) :
    Res BlockChain Unit :=
  match try_claim X chain bc txn verify with
  | .error f => .thrown f bc
  | .ok res => .ok () { bc with claims := bc.claims.insert X txn res.1 res.2 }

/-! ### append -/

/-- The loop of `append` over `changes.deleted`. An iterator that `find` does not
return (undefined in the source) is reported as an exception. -/
def detachAll (X : Ext) : BlockChain → List Nat → Txns → Res BlockChain Txns
  | bc, [], unconfirmed => .ok unconfirmed bc
  | bc, h :: rest, unconfirmed =>
    match bc.tree.find X.work h with
    | none => .thrown (.Database "invalid iterator") bc
    | some blk => (detach X bc blk unconfirmed).bind fun u bc1 => detachAll X bc1 rest u

/-- The loop of `append` over `changes.inserted`, given here from the last index
down to index 0; the result carries `blk`, the iterator assigned last. -/
def attachAll (X : Ext) (chain : Chain) :
    BlockChain → List Nat → Option BlockIterator → Txns → Hashes →
      Res BlockChain (Option BlockIterator × Txns × Hashes)
  | bc, [], blk, unconfirmed, confirmed => .ok (blk, unconfirmed, confirmed) bc
  | bc, h :: rest, _, unconfirmed, confirmed =>
    match bc.tree.find X.work h with
    | none => .thrown (.Database "invalid iterator") bc
    | some blk =>
      (attach X chain bc blk unconfirmed confirmed).bind fun r bc1 =>
        attachAll X chain bc1 rest (some blk) r.1 r.2

/-- The `switch` of `append` on the enforced block version: `default` and `case 3`
test the spendables root and fall through to `case 2`, which tests the height;
`case 1` and `case 0` test nothing. The result is the exception thrown, if any. -/
def checkVersionConstraints (X : Ext) (chain : Chain) (bc : BlockChain) (block : Block)
    (prev_height : Int) : Option Failure :=
  let min_enforced_version := getMinEnforcedBlockVersion X chain bc
  let sw : Int := if min_enforced_version > 0 then min_enforced_version else 0
  if sw = 0 ∨ sw = 1 then none
  else if sw ≠ 2 ∧ block.version ≥ 3 ∧
      X.checkSpendablesRootInCoinbase block (bc.spendables.rootHash X) = true then
    some (.Error "Version 3(or more) block with wrong or missing Spendable Root hash in coinbase rejected!")
  else if block.version ≥ 2 ∧ X.checkHeightInCoinbase block (prev_height + 1) = true then
    some (.Error "Version 2(or more) block with wrong or missing height in coinbase rejected!")
  else none

/-- The purge statements of `append`, run unless purging is lazy or the block
attached last lies below the purge depth. -/
def purgeOld (bc : BlockChain) (blk : Option BlockIterator) : BlockChain :=
  match blk with
  | none => bc
  | some b =>
    if !bc.lazy_purging && decide (b.count ≥ (bc.purge_depth : Int)) then
      { bc with store := bc.store.purge bc.purge_depth }
    else bc

/-- The `try` block of `append`, from `BEGIN --BLOCK` to `updateBestLocator()`;
the result is the pair of locals `unconfirmed`, `confirmed`. -/
def appendTry (X : Ext) (chain : Chain) (bc : BlockChain) (block : Block) (changes : Changes)
    (prev_height : Int) : Res BlockChain (Txns × Hashes) :=
  (detachAll X bc changes.deleted []).bind fun unconfirmed bc1 =>
    (attachAll X chain bc1 changes.inserted.reverse none unconfirmed []).bind fun r bc2 =>
      let bc3 : BlockChain := purgeOld bc2 r.1
      match checkVersionConstraints X chain bc3 block prev_height with
      | some f => .thrown f bc3
      | none =>
        let bc4 : BlockChain :=
          { bc3 with branches := changes.inserted.foldl (fun b h => mapErase h b) bc3.branches }
        .ok (r.2.1, r.2.2) (updateBestLocator X chain bc4)

/-- The last loop of `append`: claim the unconfirmed transactions again, without
verification. -/
def claimAll (X : Ext) (chain : Chain) : BlockChain → Txns → Res BlockChain Unit
  | bc, [] => .ok () bc
  | bc, tx :: rest => (claim X chain bc tx.2 false).bind fun _ bc1 => claimAll X chain bc1 rest

/-- The part of `append` after the `try` statement. -/
def appendCommitted (X : Ext) (chain : Chain) (bc : BlockChain) (unconfirmed : Txns)
    (confirmed : Hashes) : Res BlockChain Unit :=
  let bc1 : BlockChain :=
    if bc.validation_depth > 0 then
      { bc with spendables :=
          bc.spendables.authenticated (decide (bc.tree.count X.work ≥ (bc.validation_depth : Int))) }
    else bc
  let bc2 : BlockChain := { bc1 with claims := confirmed.foldl (fun c h => c.erase h) bc1.claims }
  let bc3 : BlockChain := { bc2 with claims := bc2.claims.purge (X.GetTime - 24 * 60 * 60) }
  claimAll X chain bc3 unconfirmed

/-- Member `BlockChain::append`. -/
def append (X : Ext) (chain : Chain) (bc : BlockChain) (block : Block) : Res BlockChain Unit :=
  let hash := X.blockHash block
  if (bc.tree.find X.work hash).isSome then .thrown (.Error "Block already accepted") bc
  else if block.version < getMinAcceptedBlockVersion X chain bc then
    .thrown (.Error ("Rejected version = " ++ toString block.version ++ " block: version too old.")) bc
  else
    match bc.tree.find X.work block.prev with
    | none => .thrown (.Error "Cannot accept orphan block") bc
    | some prev =>
      if block.bits ≠ chain.nextWorkRequired bc.tree prev then
        .thrown (.Error "Incorrect proof of work") bc
      else if (block.time : Int) ≤ getMedianTimePast bc prev then
        .thrown (.Error "Block's timestamp is too early") bc
      else
        let prev_height := prev.height
        let ins := bc.tree.insert X.work ⟨block.version, hash, prev.ref.hash, block.time, block.bits⟩
        let changes := ins.2
        let bc1 : BlockChain := { bc with tree := ins.1 }
        let snapshot := bc1.spendables
        if prev_height < (chain.totalBlocksEstimate : Int) ∧ changes.inserted.length = 0 then
          .thrown (.Error ("Branching disallowed before last checkpoint at: " ++
            toString chain.totalBlocksEstimate)) bc1
        else
          let bc2 : BlockChain := { bc1 with branches := mapInsert hash block bc1.branches }
          if changes.inserted.length = 0 then .ok () bc2
          else
            match appendTry X chain bc2 block changes prev_height with
            | .thrown e s =>
              .thrown (.Error ("append(Block): " ++ e.what))
                { s with store := bc2.store,
                         tree := s.tree.pop_back,
                         branches := changes.deleted.foldl (fun b h => mapErase h b) s.branches,
                         spendables := snapshot }
            | .ok r s => appendCommitted X chain s r.1 r.2

/-! ### Block template -/

/-- The payout loop of `getBlockTemplate`: the outputs of the coinbase, one per
payee. Division and remainder are those of C++ (`Int.tdiv`, `Int.tmod`); the two
calls of `accumulate` have the initial value `0` and so sum in `int`. -/
def payouts (payees : List Script) (fractions fee_fractions : List Nat) (subsidy fee : Int) :
    List Output :=
  let denominator0 : Int := wrapInt32 (fractions.map (fun f => (f : Int))).sum
  let fee_denominator0 : Int := wrapInt32 (fee_fractions.map (fun f => (f : Int))).sum
  let denominator : Int := if denominator0 = 0 then (payees.length : Int) else denominator0
  let fee_denominator : Int := if fee_denominator0 = 0 then denominator else fee_denominator0
  (List.range payees.length).map fun i =>
    let nominator : Int := if fractions.length > 0 then ((fractions.getD i 0 : Nat) : Int) else 1
    let fee_nominator : Int :=
      if fee_fractions.length > 0 then ((fee_fractions.getD i 0 : Nat) : Int) else nominator
    let value : Int :=
      (nominator * subsidy).tdiv denominator + (fee_nominator * fee).tdiv fee_denominator
    ⟨if i = 0 then value + subsidy.tmod denominator + fee.tmod fee_denominator else value,
     payees.getD i []⟩

/-- The copy of the spendables trie in `getBlockTemplate` after the outputs of the
selected transactions are inserted and their inputs removed. -/
def templateSpendables (X : Ext) (bc : BlockChain) (txns : List Transaction) : Spendables :=
  txns.foldl
    (fun sp tx =>
      tx.inputs.foldl (fun s i => s.remove i.prevout)
        ((List.range tx.outputs.length).foldl
          (fun s idx => s.insert ⟨0, ⟨X.txHash tx, idx⟩, tx.outputs.getD idx ⟨0, []⟩, 0, 0⟩) sp))
    bc.spendables

/-- Member `BlockChain::getBlockTemplate` (a `const` member). A default
`Transaction` has version 1 and lock time 0, an `Input` built from an outpoint and
a script has the largest sequence number; `_tree.best()` of an empty tree
(undefined in the source) is reported as an exception. -/
def getBlockTemplate (X : Ext) (chain : Chain) (bc : BlockChain) (payees : List Script)
    (fractions fee_fractions : List Nat) : Except Failure Block :=
  if payees.length = 0 then .error (.Error "Trying the generate a Block Template with no payees")
  else if fractions.length > 0 ∧ fractions.length ≠ payees.length then
    .error (.Error "Fractions should be either 0 or match the number of payees")
  else if fee_fractions.length > 0 ∧ fee_fractions.length ≠ payees.length then
    .error (.Error "Fee fractions should be either 0 or match the number of payees and fractions")
  else
    match bc.tree.best X.work with
    | none => .error (.Database "invalid iterator")
    | some best =>
      let sel := bc.claims.transactions
      let count := bc.tree.count X.work
      let spendables :=
        if count > 0 then
          (bc.store.unspents.filter (fun u => decide (u.count = -(count - COINBASE_MATURITY)))).foldl
            (fun s u => s.insert u) (templateSpendables X bc sel.1)
        else templateSpendables X bc sel.1
      let coinbase : Script := [count.toNat, spendables.rootHash X]
      let coinbase_txn : Transaction :=
        ⟨1, 0, [⟨⟨0, 4294967295⟩, coinbase, 4294967295⟩],
         payouts payees fractions fee_fractions (chain.subsidy count) sel.2⟩
      .ok ⟨3, best.ref.hash, 0, X.GetTime.toNat, chain.nextWorkRequired bc.tree best, 0,
           coinbase_txn :: sel.1⟩

/-! ### Constructor -/

/-- Constructor `BlockChain::BlockChain(chain, dataDir)` over the database `db`
(the `CREATE ... IF NOT EXISTS` statements leave an existing database as it is).
Member `_validation_depth` has no initialiser: `vd0` is the value it holds while
the genesis block is attached, before the constructor assigns it. -/
def BlockChain.create (X : Ext) (chain : Chain) (db : Store) (vd0 : Nat) : Res BlockChain Unit :=
  let blockchain : List BlockRef :=
    (List.insertionSort (fun a b : BlockRow => a.count ≤ b.count) db.blocks).map
      (fun b => ⟨b.version, b.hash, b.prev, b.time, b.bits⟩)
  let bc0 : BlockChain :=
    { store := db, tree := BlockTree.assign blockchain, branches := [],
      spendables := Spendables.empty, immature_coinbases := Spendables.empty,
      claims := ⟨[]⟩, verifier := ⟨[]⟩, bestLocator := [], lazy_purging := false,
      purge_depth := 0, validation_depth := vd0,
      verification_depth := chain.totalBlocksEstimate }
  let started : Res BlockChain Unit :=
    if bc0.tree.count X.work = 0 then
      let block := chain.genesisBlock
      let bc1 : BlockChain :=
        { bc0 with
          tree := BlockTree.assign (blockchain ++
            [⟨block.version, X.blockHash block, block.prev, block.time, block.bits⟩]),
          branches := mapInsert (X.blockHash block) block bc0.branches }
      match bc1.tree.find X.work (X.blockHash block) with
      | none => .thrown (.Error "BlockChain - creating genesisblock failed") bc1
      | some blk =>
        match attach X chain bc1 blk [] [] with
        | .thrown e s =>
          .thrown (.Error ("BlockChain - creating genesisblock failed: " ++ e.what))
            { s with store := bc1.store }
        | .ok _ s => .ok () { s with branches := [] }
    else .ok () bc0
  started.bind fun _ bc2 =>
    let bc3 := updateBestLocator X chain bc2
    let counts := bc3.store.confirmations.map (fun c => c.count)
    let bc4 : BlockChain :=
      { bc3 with purge_depth := match counts with
                                | [] => 0
                                | c :: rest => (rest.foldl min c).toNat }
    if bc4.store.unspentIndex then .ok () { bc4 with validation_depth := 0 }
    else
      let limit : Int := -(bc4.tree.count X.work - COINBASE_MATURITY)
      let spendables := bc4.store.unspents.filter (fun u => decide (u.count ≥ limit))
      let immatures := bc4.store.unspents.filter (fun u => decide (u.count < limit))
      .ok () { bc4 with
        validation_depth := chain.totalBlocksEstimate,
        spendables := spendables.foldl (fun t u => t.insert u) bc4.spendables,
        immature_coinbases := immatures.foldl (fun t u => t.insert u) bc4.immature_coinbases }

/-! ## Example parameters

A small chain used to run the member functions on concrete inputs: the hash of a
block is its nonce, the hash of a transaction its version number, the work of a
header is its `bits`, the required `bits` are 5, or 6 after a block whose time
ends in 1, a signature is valid when the input script equals the output script,
and the coinbase commitments are the first two items of the coinbase script. -/

def demoExt : Ext where
  blockHash := fun b => b.nonce
  txHash := fun t => t.version.toNat
  work := fun r => r.bits
  MAX_MONEY := 2100000000000000
  VerifySignature := fun o txn in_idx _ _ =>
    match txn.inputs.get? in_idx with
    | some i => decide (i.signature = o.script)
    | none => false
  GetTime := 1400000000
  GetAdjustedTime := 1400000000
  trieHash := fun l => l.length
  checkHeightInCoinbase := fun b h =>
    match b.txs with
    | cb :: _ =>
      (match cb.inputs with
       | i :: _ => decide (i.signature.head? = some h.toNat)
       | [] => false)
    | [] => false
  checkSpendablesRootInCoinbase := fun b root =>
    match b.txs with
    | cb :: _ =>
      (match cb.inputs with
       | i :: _ => decide (i.signature.get? 1 = some root)
       | [] => false)
    | [] => false

/-- A coinbase with hash `id`, the given coinbase script and one output. -/
def demoCoinbase (id : Nat) (script : Script) (value : Int) : Transaction :=
  ⟨id, 0, [⟨⟨0, 4294967295⟩, script, 4294967295⟩], [⟨value, [7]⟩]⟩

/-- A block holding the given transactions, with hash `id` and `bits` 5. -/
def demoBlock (version : Int) (id prev time : Nat) (txs : List Transaction) : Block :=
  ⟨version, prev, 0, time, 5, id, txs⟩

def demoChain (totalBlocksEstimate quorum majority : Nat) : Chain where
  genesisBlock := demoBlock 1 100 0 10 [demoCoinbase 1 [] 50]
  subsidy := fun _ => 50
  nextWorkRequired := fun _ prev => if prev.ref.time % 10 = 1 then 6 else 5
  checkPoints := fun _ _ => true
  timeStampBIP0016 := 0
  timeStampBIP0030 := 0
  totalBlocksEstimate := totalBlocksEstimate
  accept_quorum := quorum
  accept_majority := majority
  enforce_quorum := quorum
  enforce_majority := majority

def demoStore (unspentIndex : Bool) : Store := ⟨[], [], [], [], 0, 0, unspentIndex⟩

/-- An engine that only holds a tree of headers. -/
def demoEngine (nodes : List BlockRef) : BlockChain :=
  ⟨demoStore false, ⟨nodes⟩, [], Spendables.empty, Spendables.empty, ⟨[]⟩, ⟨[]⟩, [], false, 0, 0, 0⟩

/-- The engine constructed over an empty database. -/
def demoFresh (chain : Chain) (unspentIndex : Bool) : BlockChain :=
  (BlockChain.create demoExt chain (demoStore unspentIndex) 0).state

/-- Successive calls of `append`, each of which has to return normally. -/
def appendAll (X : Ext) (chain : Chain) : BlockChain → List Block → Option BlockChain
  | bc, [] => some bc
  | bc, b :: rest =>
    match append X chain bc b with
    | .ok _ s => appendAll X chain s rest
    | .thrown _ _ => none

/-- The parameters of the example chain: the last checkpoint is at height 1 and
the version of the best tip is the accepted and the enforced floor (majority 0). -/
def demoParams : Chain := demoChain 1 1000 0

/-- Block `n` of the example chain (count `n + 1`): a coinbase only. -/
def demoCoinbaseBlock (n : Nat) : Block :=
  demoBlock 1 (100 + n) (99 + n) (10 + 10 * n) [demoCoinbase (n + 1) [] 50]

/-- The transaction with hash `id` that spends output 0 of transaction `coin` with
the given signature script and pays `value` to script `[8]`. -/
def demoSpend (id coin : Nat) (sig : Script) (value : Int) : Transaction :=
  ⟨id, 0, [⟨⟨coin, 0⟩, sig, 4294967295⟩], [⟨value, [8]⟩]⟩

def demoRow (n : Nat) : Unspent :=
  { coin := (n : Int) + 1, key := ⟨n + 1, 0⟩, output := ⟨50, [7]⟩, count := -((n : Int) + 1),
    cnf := -((n : Int) + 1) }

def demoBlockRow (n : Nat) : BlockRow :=
  { count := (n : Int) + 1, hash := 100 + n, version := 1, prev := if n = 0 then 0 else 99 + n,
    mrkl := 0, time := 10 + 10 * n, bits := 5, nonce := 100 + n }

def demoConfirmationRow (n : Nat) : ConfirmationRow :=
  { cnf := -((n : Int) + 1), version := (n : Int) + 1, locktime := 0, count := (n : Int) + 1, idx := 0 }

def demoSpendingRow (n : Nat) : Spending :=
  { ocnf := 0, coin := -((n : Int) + 1), hash := 0, idx := 0, value := 50, script := [],
    signature := [], sequence := 4294967295, icnf := (n : Int) + 1 }

def demoRef (n : Nat) : BlockRef :=
  { version := 1, hash := 100 + n, prev := if n = 0 then 0 else 99 + n, time := 10 + 10 * n, bits := 5 }

/-- The engine in trie mode after the genesis and 101 further coinbase-only
blocks (counts 1 to 102): the coinbases of counts 1 and 2 have matured. -/
def demoBase : BlockChain where
  store :=
    { blocks := (List.range 102).map demoBlockRow
      confirmations := (List.range' 1 101).map demoConfirmationRow
      unspents := (List.range 102).map demoRow
      spendings := (List.range 102).map demoSpendingRow
      confirmationsSeq := 0
      unspentsSeq := 102
      unspentIndex := false }
  tree := ⟨(List.range 102).map demoRef⟩
  branches := []
  spendables := ⟨[demoRow 0, demoRow 1], true⟩
  immature_coinbases := ⟨(List.range' 2 100).map demoRow, false⟩
  claims := ⟨[]⟩
  verifier := ⟨[]⟩
  bestLocator := [201, 200, 199, 198, 197, 196, 195, 194, 193, 192, 191, 189, 185, 177, 161, 129, 100]
  lazy_purging := false
  purge_depth := 1
  validation_depth := 1
  verification_depth := 1

/-- The state in which `append` enters its `try` block for a block offered to
`demoBase`: the header is in the tree and the body in the side map. -/
def demoEntered (b : Block) : BlockChain :=
  { demoBase with
    tree := (demoBase.tree.insert demoExt.work
      ⟨b.version, demoExt.blockHash b, b.prev, b.time, b.bits⟩).1,
    branches := mapInsert (demoExt.blockHash b) b demoBase.branches }

/-- Iterator of block 202 once it is the best tip (height 102, count 103). -/
def demoTip : BlockIterator := ⟨⟨1, 202, 201, 1030, 5⟩, 102⟩

/-- The block 202 on top of the example chain (count 103): a coinbase and the
transaction 500, which spends the matured coinbase of count 1 with the given
signature script. -/
def demoSpendBlock (sig : Script) : Block :=
  demoBlock 1 202 201 1030 [demoCoinbase 103 [] 50, demoSpend 500 1 sig 50]

/-- A competitor of block 200: count 101, previous block 199, a time that ends in
1; it holds a transaction that spends the coinbase of count 2. -/
def demoForkA : Block :=
  demoBlock 1 300 199 1011 [demoCoinbase 600 [] 50, demoSpend 500 2 [7] 50]

/-- The successor of `demoForkA`, with the bits 6 required after it: its branch has
more work than the two main-chain blocks 200 and 201. -/
def demoForkB : Block :=
  { demoBlock 1 301 300 1020 [demoCoinbase 601 [] 50] with bits := 6 }

/-- The state in which `append` enters its `try` block for `demoForkB` after
`demoForkA` has been appended to `demoBase`. -/
def demoReorgEntered : BlockChain :=
  { (append demoExt demoParams demoBase demoForkA).state with
    tree := ((append demoExt demoParams demoBase demoForkA).state.tree.insert demoExt.work
      ⟨1, 301, 300, 1020, 6⟩).1,
    branches := mapInsert 301 demoForkB (append demoExt demoParams demoBase demoForkA).state.branches }

/-- The engine `demoBase` after `claim` has admitted the transaction 500, which
spends the coinbase of count 1. -/
def demoClaimed : BlockChain :=
  (claim demoExt demoParams demoBase (demoSpend 500 1 [7] 50) true).state

/-- Block 202 with the claimed transaction 500 followed by transaction 501, which
spends the coinbase of count 2 with a signature script the verifier refuses. -/
def demoUnverifiedBlock : Block :=
  demoBlock 1 202 201 1030
    [demoCoinbase 103 [] 50, demoSpend 500 1 [7] 50, demoSpend 501 2 [6] 50]


/-- The example chain without checkpoints (`totalBlocksEstimate` 0): an engine
constructed over the empty database validates against the table `Unspents`
(`_validation_depth` 0) and never verifies signatures. -/
def demoOpen : Chain := demoChain 0 1000 0

/-- Block 101 on the genesis of the example chain: a coinbase and the transaction
500, which spends the outpoint (77, 0) that does not exist. -/
def demoMissingCoinBlock : Block :=
  demoBlock 1 101 100 20 [demoCoinbase 2 [] 50, demoSpend 500 77 [7] 50]

/-- Block 101 on the genesis (count 2): a coinbase and the transactions 10 and 11,
which have neither inputs nor outputs. -/
def demoMainA : Block :=
  demoBlock 1 101 100 20 [demoCoinbase 2 [] 50, ⟨10, 0, [], []⟩, ⟨11, 0, [], []⟩]

/-- A competitor of `demoMainA` at count 2, with a time that ends in 1. -/
def demoSideA : Block := demoBlock 1 301 100 21 [demoCoinbase 3 [] 50]

/-- The successor of `demoSideA`, with the bits 6 required after it: its branch has
more work than the main chain genesis, `demoMainA`. -/
def demoSideB : Block := { demoBlock 1 302 301 30 [demoCoinbase 4 [] 50] with bits := 6 }

/-- The engine over the empty database of `demoOpen` after `demoMainA` and
`demoSideA` have been appended: `demoMainA` is the best tip, `demoSideA` is held
in the side map. -/
def demoForked : BlockChain :=
  (append demoExt demoOpen (append demoExt demoOpen (demoFresh demoOpen false) demoMainA).state
    demoSideA).state

/-- The state in which `append` enters its `try` block for `demoSideB` offered to
`demoForked`. -/
def demoForkedEntered : BlockChain :=
  { demoForked with
    tree := (demoForked.tree.insert demoExt.work ⟨1, 302, 301, 30, 6⟩).1,
    branches := mapInsert 302 demoSideB demoForked.branches }

/-- Block 202 on top of `demoBase` (count 103) with the transaction 500, which
spends the coinbase output of count 3: the difference of the counts is 100. -/
def demoEarlySpendBlock : Block :=
  demoBlock 1 202 201 1030 [demoCoinbase 103 [] 50, demoSpend 500 3 [7] 50]

/-- Block 203 (count 104) on top of the coinbase-only block 202, with the same
transaction 500: the difference of the counts is 101. -/
def demoLateSpendBlock : Block :=
  demoBlock 1 203 202 1040 [demoCoinbase 104 [] 50, demoSpend 500 3 [7] 50]

/-- The engine `demoBase` after the call `validation_depth(0)`: the table
`Unspents` is used for validation from then on. -/
def demoBaseStoreMode : BlockChain := (validation_depth demoExt demoBase 0).state

/-- A tree of the first 14 blocks of the example chain (tip height 13). -/
def demoLong : BlockChain := demoEngine ((List.range 14).map demoRef)

/-- A tree of the first 2 blocks of the example chain (tip height 1). -/
def demoShort : BlockChain := demoEngine ((List.range 2).map demoRef)

/-- Block 101 (count 2) with a coinbase and the transaction 10, which has no input
and one output of value 0. -/
def demoRegularBlock : Block :=
  demoBlock 1 101 100 20 [demoCoinbase 2 [] 50, ⟨10, 0, [], [⟨0, [9]⟩]⟩]

/-- The engine in trie mode after the genesis and `demoRegularBlock`. -/
def demoRegular : BlockChain :=
  (append demoExt demoParams (demoFresh demoParams false) demoRegularBlock).state

/-- Block 202 on top of `demoBase`: a coinbase that pays `v` and the transaction
500, which spends the matured coinbase of count 1 (value 50) and pays 45, so its
fee is 5; the subsidy is 50. -/
def demoFeeBlock (v : Int) : Block :=
  demoBlock 1 202 201 1030 [demoCoinbase 103 [] v, demoSpend 500 1 [7] 45]

/-! ## Specification predicates -/

/-- The keys of the bins are strictly increasing, as in a `std::map`. -/
def BinsSorted (bins : List (Int × Nat)) : Prop := bins.Pairwise (fun a b => a.1 < b.1)

/-- The members that no statement inside the `try` block of `append` assigns. -/
def frameOf (b : BlockChain) : BlockTree × Claims × Bool × Nat × Nat × Nat :=
  (b.tree, b.claims, b.lazy_purging, b.purge_depth, b.validation_depth, b.verification_depth)

abbrev SameFrame (a b : BlockChain) : Prop := frameOf b = frameOf a


/-- The header summary of the genesis block. -/
def genesisRef (X : Ext) (chain : Chain) : BlockRef :=
  ⟨chain.genesisBlock.version, X.blockHash chain.genesisBlock, chain.genesisBlock.prev,
   chain.genesisBlock.time, chain.genesisBlock.bits⟩

/-- The state in which the constructor attaches the genesis block. -/
def genesisEntered (X : Ext) (chain : Chain) (db : Store) (vd0 : Nat) : BlockChain :=
  { store := db, tree := ⟨[genesisRef X chain]⟩,
    branches := mapInsert (X.blockHash chain.genesisBlock) chain.genesisBlock [],
    spendables := Spendables.empty, immature_coinbases := Spendables.empty,
    claims := ⟨[]⟩, verifier := ⟨[]⟩, bestLocator := [], lazy_purging := false,
    purge_depth := 0, validation_depth := vd0,
    verification_depth := chain.totalBlocksEstimate }

/-- The committed unspent coin with the given outpoint that `try_claim` looks up:
the row of `Unspents` when `_validation_depth` is 0, else the leaf of the
spendables trie. -/
def committedCoin (bc : BlockChain) (k : Coin) : Option Unspent :=
  if bc.validation_depth = 0 then bc.store.unspents.find? (fun u => decide (u.key = k))
  else bc.spendables.find k

/-- An input of a claim is resolved to the output `o`: the output of an earlier
claim, or else that of a committed unspent coin; its value is in the money range. -/
def Resolved (X : Ext) (bc : BlockChain) (input : Input) (o : Output) : Prop :=
  (bc.claims.prev input.prevout = some o ∨
    (bc.claims.prev input.prevout = none ∧
      ∃ u, committedCoin bc input.prevout = some u ∧ u.output = o)) ∧
  X.MoneyRange o.value = true

/-- The table `Unspents` with its id counter and the leaves of the two tries. -/
def coinsOf (b : BlockChain) : List Unspent × Int × List Unspent × List Unspent :=
  (b.store.unspents, b.store.unspentsSeq, b.spendables.leaves, b.immature_coinbases.leaves)

/-- The ids of the rows of `Unspents` are not 0 and the id counter is not negative
(ids are assigned from 1 upwards). -/
def IdsAssigned (b : BlockChain) : Prop :=
  0 ≤ b.store.unspentsSeq ∧ ∀ u ∈ b.store.unspents, u.coin ≠ 0

/-- The rows of `Unspents` are told apart by their outpoint and by their id, and no
id exceeds the id counter. -/
structure RowsOk (b : BlockChain) : Prop where
  keys : ∀ u ∈ b.store.unspents, ∀ v ∈ b.store.unspents, u.key = v.key → u = v
  ids : ∀ u ∈ b.store.unspents, ∀ v ∈ b.store.unspents, u.coin = v.coin → u = v
  bound : ∀ u ∈ b.store.unspents, u.coin ≤ b.store.unspentsSeq

/-- The rows of `Unspents` are the leaves of the spendables trie together with the
leaves of the trie of immature coinbases, and no leaf is in both tries. -/
structure Covered (b : BlockChain) : Prop where
  cover : ∀ u, u ∈ b.store.unspents ↔ (u ∈ b.spendables.leaves ∨ u ∈ b.immature_coinbases.leaves)
  disjoint : ∀ u ∈ b.spendables.leaves, u ∉ b.immature_coinbases.leaves

/-- The database before anything is stored: tables without rows and id counters
at 0. -/
def Store.empty (unspentIndex : Bool) : Store := ⟨[], [], [], [], 0, 0, unspentIndex⟩

/-- No transaction of the block has the hash of a transaction with an unspent
output, or of another transaction of the block (the rule of BIP 30). -/
def NewOutpoints (X : Ext) (b : BlockChain) (block : Block) : Prop :=
  (block.txs.map X.txHash).Nodup ∧
  ∀ tx ∈ block.txs, ∀ u ∈ b.store.unspents, u.key.hash ≠ X.txHash tx

/-- The tree change that `append` computes for the block detaches no block and
attaches at most the appended block. -/
def ExtendsTip (X : Ext) (b : BlockChain) (block : Block) : Prop :=
  ∀ prev, b.tree.find X.work block.prev = some prev →
    (b.tree.insert X.work
      ⟨block.version, X.blockHash block, prev.ref.hash, block.time, block.bits⟩).2.deleted = [] ∧
    ((b.tree.insert X.work
      ⟨block.version, X.blockHash block, prev.ref.hash, block.time, block.bits⟩).2.inserted = [] ∨
     (b.tree.insert X.work
      ⟨block.version, X.blockHash block, prev.ref.hash, block.time, block.bits⟩).2.inserted =
        [X.blockHash block])

/-- The states reached from an engine constructed over the empty database, for a
chain whose genesis block holds one transaction, by successful calls of `append`
that detach no block and issue only new outpoints. -/
inductive Extended (X : Ext) (chain : Chain) : BlockChain → Prop
  | fresh (unspentIndex : Bool) (vd0 : Nat) (cb : Transaction) (s : BlockChain) :
      chain.genesisBlock.txs = [cb] →
      BlockChain.create X chain (Store.empty unspentIndex) vd0 = .ok () s → Extended X chain s
  | step (s : BlockChain) (block : Block) (s1 : BlockChain) :
      Extended X chain s → ExtendsTip X s block → NewOutpoints X s block →
      append X chain s block = .ok () s1 → Extended X chain s1

/-- The properties of the list of heights that the loop of `updateBestLocator`
keeps: strictly decreasing, the last entry is the smallest, every entry after the
first is positive, and the gap after the entry at index `i` is `2 ^ (i - 9)` (with
the truncated subtraction of natural numbers: 1 up to index 9). -/
def LocatorInv (l : List Int) : Prop :=
  l.Pairwise (fun a b => a > b) ∧ (∀ a ∈ l, l.getLastD 0 ≤ a) ∧ (∀ a ∈ l.tail, 0 < a) ∧
  (∀ i, i + 1 < l.length → l.getD i 0 - l.getD (i + 1) 0 = 2 ^ (i - 9))

/-- The states of an engine: the state in which the constructor returns normally,
and the state after any call of `append` or `claim` on such a state, whether the
call returns or throws. -/
inductive Reached (X : Ext) (chain : Chain) : BlockChain → Prop
  | init (db : Store) (vd0 : Nat) (s : BlockChain) :
      BlockChain.create X chain db vd0 = .ok () s → Reached X chain s
  | appended (s : BlockChain) (block : Block) :
      Reached X chain s → Reached X chain (append X chain s block).state
  | claimed (s : BlockChain) (txn : Transaction) (verify : Bool) :
      Reached X chain s → Reached X chain (claim X chain s txn verify).state

/-- The states that follow `s0` by calls of `append` and `claim`, whether they
return or throw. -/
inductive Later (X : Ext) (chain : Chain) (s0 : BlockChain) : BlockChain → Prop
  | now : Later X chain s0 s0
  | appended (s : BlockChain) (block : Block) :
      Later X chain s0 s → Later X chain s0 (append X chain s block).state
  | claimed (s : BlockChain) (txn : Transaction) (verify : Bool) :
      Later X chain s0 s → Later X chain s0 (claim X chain s txn verify).state

/-- The first hash of the best locator is the hash of a node of the tree. -/
def LocatorKnown (bc : BlockChain) : Prop :=
  ∃ hash rest, bc.bestLocator = hash :: rest ∧ (bc.tree.findRef hash).isSome = true

/-- The best locator of `b` is that of `a`. -/
abbrev SameLocator (a b : BlockChain) : Prop := b.bestLocator = a.bestLocator

/-- The value that the outputs `redeemed` by the inputs of a transaction carry,
less the value of the outputs of the transaction. -/
def feeOf (txn : Transaction) (redeemed : List Output) : Int :=
  (redeemed.map (fun o => o.value)).sum - txn.getValueOut

/-- The outputs that `redeem` returns for the inputs of each transaction of the
loop of `attach`, transaction by transaction, each in the state that the loop has
reached when it calls `postTransaction` for it (the list ends with the first
transaction for which `postTransaction` throws). -/
def loopRedeemed (X : Ext) (chain : Chain) (blk : BlockIterator) (min_fee : Int) :
    BlockChain → List Transaction → Int → Int → Bool → Txns → List (List Output)
  | _, [], _, _, _, _ => []
  | bc, txn :: rest, idx, fees, verify, unconfirmed =>
    let hash := X.txHash txn
    let verify1 := if (mapFind hash unconfirmed).isSome || bc.claims.have_ hash then false else verify
    let p : Int × BlockChain := confirmTransaction bc txn blk idx
    redeemedOutputs X txn ⟨txn, p.1, blk.count⟩ verify1
        (decide (blk.ref.time > chain.timeStampBIP0016)) p.2 txn.inputs 0 ::
      match postTransaction X chain bc txn fees min_fee blk idx verify1 with
      | .thrown _ _ => []
      | .ok fees1 bc1 =>
        loopRedeemed X chain blk min_fee bc1 rest (idx + 1) fees1 verify1 (mapErase hash unconfirmed)

/-- The statements of `attach` up to the end of its transaction loop; the result
is the local variable `fees` with the reference parameters `unconfirmed` and
`confirmed`. -/
def attachTransactions (X : Ext) (chain : Chain) (bc : BlockChain) (blk : BlockIterator)
    (unconfirmed : Txns) (confirmed : Hashes) : Res BlockChain (Int × Txns × Hashes) :=
  let block : Block := (branchAt bc blk.ref.hash).1
  let bc0 : BlockChain := (branchAt bc blk.ref.hash).2
  let height := blk.height
  if !chain.checkPoints height blk.ref.hash then
    .thrown (.Error ("Rejected by checkpoint lockin at " ++ toString height)) bc0
  else if !block.txs.all (fun tx => isFinal X bc0 tx height blk.ref.time) then
    .thrown (.Error "Contains a non-final transaction") bc0
  else
    let bc1 : BlockChain := { bc0 with verifier := bc0.verifier.reset }
    (insertBlockHeader X bc1 blk.count block).bind fun _ bc2 =>
      let verify := decide (bc2.verification_depth ≠ 0) && decide (height > (bc2.verification_depth : Int))
      attachLoop X chain blk 0 bc2 block.txs.tail 1 0 verify unconfirmed confirmed

/-- The outputs that the inputs of the transactions of a block redeem while
`attach` runs its transaction loop, one list per transaction after the coinbase. -/
def attachRedeemed (X : Ext) (chain : Chain) (bc : BlockChain) (blk : BlockIterator)
    (unconfirmed : Txns) : List (List Output) :=
  let block : Block := (branchAt bc blk.ref.hash).1
  let bc0 : BlockChain := (branchAt bc blk.ref.hash).2
  let bc1 : BlockChain := { bc0 with verifier := bc0.verifier.reset }
  let bc2 : BlockChain := (insertBlockHeader X bc1 blk.count block).state
  let verify := decide (bc2.verification_depth ≠ 0) && decide (blk.height > (bc2.verification_depth : Int))
  loopRedeemed X chain blk 0 bc2 block.txs.tail 1 0 verify unconfirmed

/-! ## Lemmas -/

theorem append_known (X : Ext) (chain : Chain) (bc : BlockChain) (block : Block)
    (h : (bc.tree.find X.work (X.blockHash block)).isSome = true) :
    append X chain bc block = .thrown (.Error "Block already accepted") bc := by
  unfold append
  rw [if_pos h]

theorem append_old_version (X : Ext) (chain : Chain) (bc : BlockChain) (block : Block)
    (h : block.version < getMinAcceptedBlockVersion X chain bc) :
    ∃ msg, append X chain bc block = .thrown (.Error msg) bc := by
  unfold append
  by_cases hk : (bc.tree.find X.work (X.blockHash block)).isSome = true
  · exact ⟨_, by rw [if_pos hk]⟩
  · exact ⟨_, by rw [if_neg hk, if_pos h]⟩

theorem binsGet_of_lt (v : Int) (bins : List (Int × Nat))
    (h : ∀ e ∈ bins, v < e.1) : binsGet v bins = 0 := by
  induction bins with
  | nil => rfl
  | cons e rest ih =>
    obtain ⟨k, c⟩ := e
    have hk : v < k := h (k, c) (List.mem_cons_self _ _)
    have hne : v ≠ k := ne_of_lt hk
    simp only [binsGet, if_neg hne]
    exact ih (fun e he => h e (List.mem_cons_of_mem _ he))

theorem binsGet_binsIncr (v w : Int) (bins : List (Int × Nat)) (hs : BinsSorted bins) :
    binsGet w (binsIncr v bins) = if w = v then binsGet v bins + 1 else binsGet w bins := by
  induction bins with
  | nil =>
    by_cases hw : w = v <;> simp [binsIncr, binsGet, hw]
  | cons e rest ih =>
    obtain ⟨k, c⟩ := e
    have hs1 : BinsSorted rest := (List.pairwise_cons.mp hs).2
    have hlt : ∀ e ∈ rest, k < e.1 := (List.pairwise_cons.mp hs).1
    by_cases hvk : v = k
    · subst hvk
      by_cases hw : w = v <;> simp [binsIncr, binsGet, hw]
    · by_cases hlt2 : v < k
      · have h0 : binsGet v rest = 0 :=
          binsGet_of_lt v rest (fun e he => lt_trans hlt2 (hlt e he))
        by_cases hw : w = v
        · subst hw
          simp [binsIncr, binsGet, hvk, hlt2, h0]
        · simp [binsIncr, binsGet, hvk, hlt2, hw]
      · by_cases hw : w = v
        · subst hw
          simp [binsIncr, binsGet, hvk, hlt2, ih hs1]
        · by_cases hwk : w = k
          · have hkv : ¬ k = v := fun h => hvk h.symm
            simp [binsIncr, binsGet, hvk, hlt2, hwk, hkv]
          · simp [binsIncr, binsGet, hvk, hlt2, hw, hwk, ih hs1]

theorem binsIncr_mem (v : Int) (bins : List (Int × Nat)) (e : Int × Nat)
    (he : e ∈ binsIncr v bins) : e.1 = v ∨ ∃ e0 ∈ bins, e0.1 = e.1 := by
  induction bins with
  | nil =>
    simp [binsIncr] at he
    left; rw [he]
  | cons a rest ih =>
    obtain ⟨k, c⟩ := a
    unfold binsIncr at he
    split at he
    · rename_i hvk
      rcases List.mem_cons.mp he with h | h
      · left; rw [h]; exact hvk.symm
      · right; exact ⟨e, List.mem_cons_of_mem _ h, rfl⟩
    · split at he
      · rcases List.mem_cons.mp he with h | h
        · left; rw [h]
        · right; exact ⟨e, h, rfl⟩
      · rcases List.mem_cons.mp he with h | h
        · right; exact ⟨(k, c), List.mem_cons_self _ _, by rw [h]⟩
        · rcases ih h with h1 | ⟨e0, h0, h1⟩
          · left; exact h1
          · right; exact ⟨e0, List.mem_cons_of_mem _ h0, h1⟩

theorem binsIncr_sorted (v : Int) (bins : List (Int × Nat)) (hs : BinsSorted bins) :
    BinsSorted (binsIncr v bins) := by
  induction bins with
  | nil => simp [binsIncr, BinsSorted]
  | cons a rest ih =>
    obtain ⟨k, c⟩ := a
    have hs1 : BinsSorted rest := (List.pairwise_cons.mp hs).2
    have hlt : ∀ e ∈ rest, k < e.1 := (List.pairwise_cons.mp hs).1
    unfold binsIncr
    split
    · exact List.pairwise_cons.mpr ⟨hlt, hs1⟩
    · split
      · rename_i hvk hlt2
        refine List.pairwise_cons.mpr ⟨?_, hs⟩
        intro e he
        rcases List.mem_cons.mp he with h | h
        · rw [h]; exact hlt2
        · exact lt_trans hlt2 (hlt e h)
      · rename_i hvk hlt2
        refine List.pairwise_cons.mpr ⟨?_, ih hs1⟩
        intro e he
        rcases binsIncr_mem v rest e he with h | ⟨e0, h0, h1⟩
        · rw [h]
          exact lt_of_le_of_ne (not_lt.mp hlt2) (fun h => hvk h.symm)
        · rw [← h1]; exact hlt e0 h0


theorem minVersionLoop_majority (quorum majority : Nat) (V : Int) :
    ∀ (L : List BlockRef) (bins : List (Int × Nat)) (blocks : Nat),
      BinsSorted bins →
      binsGet V bins ≤ majority →
      majority < binsGet V bins + ((L.map (fun r => r.version)).take (quorum - blocks)).count V →
      (∀ W, W ≠ V →
        binsGet W bins + ((L.map (fun r => r.version)).take (quorum - blocks)).count W ≤ majority) →
      minVersionLoop quorum majority L bins blocks = V := by
  intro L
  induction L with
  | nil =>
    intro bins blocks _ hV hc _
    simp at hc
    omega
  | cons b rest ih =>
    intro bins blocks hs hV hc ho
    have hq : blocks < quorum := by
      by_contra hq
      have : quorum - blocks = 0 := by omega
      rw [this] at hc
      simp at hc
      omega
    obtain ⟨n, hn⟩ : ∃ n, quorum - blocks = n + 1 := ⟨quorum - blocks - 1, by omega⟩
    have hn1 : quorum - (blocks + 1) = n := by omega
    rw [hn] at hc ho
    simp only [List.take_succ_cons, List.map_cons, List.count_cons] at hc ho
    unfold minVersionLoop
    simp only
    have hget := binsGet_binsIncr b.version b.version bins hs
    simp only [if_true] at hget
    have hnq : ¬ (blocks + 1 > quorum) := by omega
    by_cases hbV : b.version = V
    · have e1 : (b.version == V) = true := by simp [hbV]
      rw [e1] at hc
      simp only [if_true] at hc
      by_cases hgt : binsGet b.version (binsIncr b.version bins) > majority
      · rw [if_pos hgt]; exact hbV
      · rw [if_neg hgt, if_neg hnq]
        simp only
        apply ih _ _ (binsIncr_sorted _ _ hs)
        · rw [← hbV]; omega
        · rw [hn1, binsGet_binsIncr b.version V bins hs, if_pos hbV.symm]
          rw [hbV]; omega
        · intro W hW
          rw [hn1, binsGet_binsIncr b.version W bins hs, if_neg (by rw [hbV]; exact hW)]
          have h2 := ho W hW
          have e0 : (b.version == W) = false := by
            simp only [beq_eq_false_iff_ne, ne_eq]; rw [hbV]; exact fun h => hW h.symm
          rw [e0] at h2
          simp only [Bool.false_eq_true, if_false, Nat.add_zero] at h2
          exact h2
    · have e0 : (b.version == V) = false := by
        simp only [beq_eq_false_iff_ne, ne_eq]; exact hbV
      rw [e0] at hc
      simp only [Bool.false_eq_true, if_false, Nat.add_zero] at hc
      have hob := ho b.version hbV
      have e1 : (b.version == b.version) = true := by simp
      rw [e1] at hob
      simp only [if_true] at hob
      have hgt : ¬ (binsGet b.version (binsIncr b.version bins) > majority) := by omega
      rw [if_neg hgt, if_neg hnq]
      simp only
      apply ih _ _ (binsIncr_sorted _ _ hs)
      · rw [binsGet_binsIncr b.version V bins hs, if_neg (fun h => hbV h.symm)]; exact hV
      · rw [hn1, binsGet_binsIncr b.version V bins hs, if_neg (fun h => hbV h.symm)]
        exact hc
      · intro W hW
        rw [hn1, binsGet_binsIncr b.version W bins hs]
        have h2 := ho W hW
        by_cases hWb : W = b.version
        · rw [if_pos hWb]
          have e2 : (b.version == W) = true := by simp [hWb]
          rw [e2] at h2
          simp only [if_true] at h2
          rw [hWb] at h2 ⊢; omega
        · rw [if_neg hWb]
          have e2 : (b.version == W) = false := by
            simp only [beq_eq_false_iff_ne, ne_eq]; exact fun h => hWb h.symm
          rw [e2] at h2
          simp only [Bool.false_eq_true, if_false, Nat.add_zero] at h2
          exact h2

theorem minVersionLoop_short (quorum majority : Nat) :
    ∀ (L : List BlockRef) (bins : List (Int × Nat)) (blocks : Nat),
      BinsSorted bins →
      (∀ W, binsGet W bins + L.length ≤ majority) →
      blocks + L.length ≤ quorum →
      minVersionLoop quorum majority L bins blocks = 1 := by
  intro L
  induction L with
  | nil => intro bins blocks _ _ _; rfl
  | cons b rest ih =>
    intro bins blocks hs hb hq
    unfold minVersionLoop
    simp only
    have hget := binsGet_binsIncr b.version b.version bins hs
    simp only [if_true] at hget
    have h1 := hb b.version
    simp only [List.length_cons] at h1 hq
    have hgt : ¬ (binsGet b.version (binsIncr b.version bins) > majority) := by omega
    rw [if_neg hgt]
    have hnq : ¬ (blocks + 1 > quorum) := by omega
    rw [if_neg hnq]
    simp only
    apply ih _ _ (binsIncr_sorted _ _ hs)
    · intro W
      rw [binsGet_binsIncr b.version W bins hs]
      have := hb W
      simp only [List.length_cons] at this
      split <;> omega
    · omega


theorem Res.bind_frame {α β : Type} (a : BlockChain) (r : Res BlockChain α)
    (f : α → BlockChain → Res BlockChain β)
    (hr : SameFrame a r.state) (hf : ∀ x s, SameFrame a s → SameFrame a (f x s).state) :
    SameFrame a (r.bind f).state := by
  cases r with
  | ok x s => exact hf x s hr
  | thrown e s => exact hr

theorem findCoin_frame (bc : BlockChain) (input : Input) (iconf : Confirmation) :
    SameFrame bc (findCoin bc input iconf).state := by
  unfold findCoin
  repeat (first | rfl | split)

theorem archiveCoin_frame (bc : BlockChain) (coin : Unspent) (input : Input) (iconf : Confirmation) :
    SameFrame bc (archiveCoin bc coin input iconf).state := by
  unfold archiveCoin
  repeat (first | rfl | split)

theorem redeem_frame (X : Ext) (bc : BlockChain) (input : Input) (iconf : Confirmation) :
    SameFrame bc (redeem X bc input iconf).state := by
  unfold redeem
  apply Res.bind_frame
  · exact findCoin_frame bc input iconf
  · intro coin s hs
    split
    · exact hs
    · apply Res.bind_frame
      · exact (archiveCoin_frame s coin input iconf).trans hs
      · intro _ s2 hs2
        exact hs2

theorem issue_frame (bc : BlockChain) (output : Output) (hash out_idx : Nat) (conf : Confirmation)
    (unique : Bool) : SameFrame bc (issue bc output hash out_idx conf unique).state := by
  unfold issue
  dsimp only
  repeat (first | rfl | split)

theorem maturate_frame (bc : BlockChain) (count : Int) : SameFrame bc (maturate bc count) := by
  unfold maturate
  split
  · rfl
  · generalize bc.store.unspents.filter _ = l
    have : ∀ (l : List Unspent) (b : BlockChain), SameFrame bc b →
        SameFrame bc (l.foldl maturateOne b) := by
      intro l
      induction l with
      | nil => intro b hb; exact hb
      | cons u rest ih => intro b hb; exact ih _ hb
    exact this l bc rfl

theorem insertBlockHeader_frame (X : Ext) (bc : BlockChain) (count : Int) (block : Block) :
    SameFrame bc (insertBlockHeader X bc count block).state := by
  unfold insertBlockHeader
  repeat (first | rfl | split)

theorem redeemInputs_frame (X : Ext) (txn : Transaction) (conf : Confirmation) (verify strict : Bool)
    (a : BlockChain) :
    ∀ (inputs : List Input) (bc : BlockChain) (in_idx : Nat) (value_in : Int), SameFrame a bc →
      SameFrame a (redeemInputs X txn conf verify strict bc inputs in_idx value_in).state := by
  intro inputs
  induction inputs with
  | nil => intro bc _ _ h; exact h
  | cons input rest ih =>
    intro bc in_idx value_in h
    unfold redeemInputs
    apply Res.bind_frame
    · exact (redeem_frame X bc input conf).trans h
    · intro coin s hs
      apply ih
      split
      · exact hs
      · exact hs

theorem issueOutputs_frame (hash : Nat) (conf : Confirmation) (unique : Bool) (a : BlockChain) :
    ∀ (outputs : List Output) (bc : BlockChain) (out_idx : Nat), SameFrame a bc →
      SameFrame a (issueOutputs hash conf unique bc outputs out_idx).state := by
  intro outputs
  induction outputs with
  | nil => intro bc _ h; exact h
  | cons o rest ih =>
    intro bc out_idx h
    unfold issueOutputs
    apply Res.bind_frame
    · exact (issue_frame bc o hash out_idx conf unique).trans h
    · intro _ s hs
      exact ih s _ hs


theorem confirmTransaction_frame (bc : BlockChain) (txn : Transaction) (blk : BlockIterator)
    (idx : Int) : SameFrame bc (confirmTransaction bc txn blk idx).2 := by
  unfold confirmTransaction
  split <;> rfl

theorem postTransaction_frame (X : Ext) (chain : Chain) (bc : BlockChain) (txn : Transaction)
    (fees min_fee : Int) (blk : BlockIterator) (idx : Int) (verify : Bool) :
    SameFrame bc (postTransaction X chain bc txn fees min_fee blk idx verify).state := by
  unfold postTransaction
  dsimp only
  apply Res.bind_frame
  · exact redeemInputs_frame _ _ _ _ _ bc _ _ _ _ (confirmTransaction_frame bc txn blk idx)
  · intro value_in s hs
    split
    · exact hs
    · split
      · exact hs
      · split
        · exact hs
        · apply Res.bind_frame
          · exact issueOutputs_frame _ _ _ bc _ s _ hs
          · intro _ s2 hs2
            exact hs2

theorem confirmCoinbase_frame (bc : BlockChain) (txn : Transaction) (blk : BlockIterator) :
    SameFrame bc (confirmCoinbase bc txn blk).state := by
  unfold confirmCoinbase
  repeat (first | rfl | split)

theorem archiveCoinbase_frame (bc : BlockChain) (input : Input) (blk : BlockIterator)
    (value_in : Int) : SameFrame bc (archiveCoinbase bc input blk value_in).state := by
  unfold archiveCoinbase
  repeat (first | rfl | split)

theorem postSubsidy_frame (X : Ext) (chain : Chain) (bc : BlockChain) (txn : Transaction)
    (blk : BlockIterator) (fees : Int) :
    SameFrame bc (postSubsidy X chain bc txn blk fees).state := by
  unfold postSubsidy
  split
  · split
    · rfl
    · dsimp only
      apply Res.bind_frame
      · exact confirmCoinbase_frame bc txn blk
      · intro _ s hs
        split
        · exact hs
        · apply Res.bind_frame
          · exact (archiveCoinbase_frame s _ blk _).trans hs
          · intro _ s2 hs2
            apply Res.bind_frame
            · exact issueOutputs_frame _ _ _ bc _ s2 _ hs2
            · intro _ s3 hs3
              split
              · exact (maturate_frame s3 _).trans hs3
              · exact hs3
  · rfl

theorem rollbackConfirmation_frame (bc : BlockChain) (cnf : Int) :
    SameFrame bc (rollbackConfirmation bc cnf).state := by
  unfold rollbackConfirmation
  dsimp only
  split
  · split <;> rfl
  · split <;> rfl

theorem rollbackConfirmations_frame (a : BlockChain) :
    ∀ (cnfs : List Int) (bc : BlockChain), SameFrame a bc →
      SameFrame a (rollbackConfirmations bc cnfs).state := by
  intro cnfs
  induction cnfs with
  | nil => intro bc h; exact h
  | cons c rest ih =>
    intro bc h
    unfold rollbackConfirmations
    apply Res.bind_frame
    · exact (rollbackConfirmation_frame bc c).trans h
    · intro _ s hs
      exact ih s hs

theorem rollbackBlock_frame (bc : BlockChain) (count : Int) :
    SameFrame bc (rollbackBlock bc count).state := by
  unfold rollbackBlock
  dsimp only
  apply Res.bind_frame
  · exact rollbackConfirmations_frame bc _ bc rfl
  · intro _ s hs
    exact hs

theorem detach_frame (X : Ext) (bc : BlockChain) (blk : BlockIterator) (unconfirmed : Txns) :
    SameFrame bc (detach X bc blk unconfirmed).state := by
  unfold detach
  dsimp only
  apply Res.bind_frame
  · exact rollbackBlock_frame bc _
  · intro _ s hs
    exact hs

theorem attachLoop_frame (X : Ext) (chain : Chain) (blk : BlockIterator) (min_fee : Int)
    (a : BlockChain) :
    ∀ (txs : List Transaction) (bc : BlockChain) (idx fees : Int) (verify : Bool)
      (unconfirmed : Txns) (confirmed : Hashes), SameFrame a bc →
      SameFrame a (attachLoop X chain blk min_fee bc txs idx fees verify unconfirmed confirmed).state := by
  intro txs
  induction txs with
  | nil => intro bc _ _ _ _ _ h; exact h
  | cons txn rest ih =>
    intro bc idx fees verify unconfirmed confirmed h
    unfold attachLoop
    dsimp only
    apply Res.bind_frame
    · exact (postTransaction_frame X chain bc txn _ _ blk _ _).trans h
    · intro _ s hs
      exact ih s _ _ _ _ _ hs

theorem branchAt_frame (bc : BlockChain) (hash : Nat) : SameFrame bc (branchAt bc hash).2 := by
  unfold branchAt
  split <;> rfl

theorem attach_frame (X : Ext) (chain : Chain) (bc : BlockChain) (blk : BlockIterator)
    (unconfirmed : Txns) (confirmed : Hashes) :
    SameFrame bc (attach X chain bc blk unconfirmed confirmed).state := by
  unfold attach
  dsimp only
  have h0 := branchAt_frame bc blk.ref.hash
  split
  · exact h0
  · split
    · exact h0
    · apply Res.bind_frame
      · exact (insertBlockHeader_frame X _ _ _).trans h0
      · intro _ s hs
        apply Res.bind_frame
        · exact attachLoop_frame X chain blk 0 bc _ s _ _ _ _ _ hs
        · intro r s2 hs2
          apply Res.bind_frame
          · exact (postSubsidy_frame X chain s2 _ blk _).trans hs2
          · intro _ s3 hs3
            split <;> exact hs3

theorem detachAll_frame (X : Ext) (a : BlockChain) :
    ∀ (hs : List Nat) (bc : BlockChain) (unconfirmed : Txns), SameFrame a bc →
      SameFrame a (detachAll X bc hs unconfirmed).state := by
  intro l
  induction l with
  | nil => intro bc _ h; exact h
  | cons x rest ih =>
    intro bc unconfirmed h
    unfold detachAll
    split
    · exact h
    · apply Res.bind_frame
      · exact (detach_frame X bc _ _).trans h
      · intro _ s hs
        exact ih s _ hs

theorem attachAll_frame (X : Ext) (chain : Chain) (a : BlockChain) :
    ∀ (hs : List Nat) (bc : BlockChain) (blk : Option BlockIterator) (unconfirmed : Txns)
      (confirmed : Hashes), SameFrame a bc →
      SameFrame a (attachAll X chain bc hs blk unconfirmed confirmed).state := by
  intro l
  induction l with
  | nil => intro bc _ _ _ h; exact h
  | cons x rest ih =>
    intro bc blk unconfirmed confirmed h
    unfold attachAll
    split
    · exact h
    · apply Res.bind_frame
      · exact (attach_frame X chain bc _ _ _).trans h
      · intro _ s hs
        exact ih s _ _ _ hs

theorem updateBestLocator_frame (X : Ext) (chain : Chain) (bc : BlockChain) :
    SameFrame bc (updateBestLocator X chain bc) := rfl

theorem purgeOld_frame (bc : BlockChain) (blk : Option BlockIterator) :
    SameFrame bc (purgeOld bc blk) := by
  unfold purgeOld
  split
  · rfl
  · split <;> rfl

theorem appendTry_frame (X : Ext) (chain : Chain) (bc : BlockChain) (block : Block)
    (changes : Changes) (prev_height : Int) :
    SameFrame bc (appendTry X chain bc block changes prev_height).state := by
  unfold appendTry
  apply Res.bind_frame
  · exact detachAll_frame X bc _ bc _ rfl
  · intro u s hs
    apply Res.bind_frame
    · exact attachAll_frame X chain bc _ s _ _ _ hs
    · intro r s2 hs2
      dsimp only
      have h3 : SameFrame bc (purgeOld s2 r.1) := (purgeOld_frame s2 r.1).trans hs2
      split
      · exact h3
      · exact h3


theorem BlockTree.find_eq_none (work : BlockRef → Nat) (t : BlockTree) (h : Nat) :
    t.find work h = none ↔ t.findRef h = none := by
  unfold BlockTree.find
  constructor
  · intro hf
    split at hf
    · assumption
    · split at hf <;> simp at hf
  · intro hf
    rw [hf]

theorem BlockTree.find_some_ref (work : BlockRef → Nat) (t : BlockTree) (h : Nat)
    (blk : BlockIterator) (hf : t.find work h = some blk) :
    t.findRef h = some blk.ref ∧ blk.ref.hash = h := by
  unfold BlockTree.find at hf
  split at hf
  · simp at hf
  · rename_i r hr
    have hh : r.hash = h := by
      have := List.find?_some hr
      simpa using this
    split at hf
    · simp only [Option.some.injEq] at hf
      subst hf
      exact ⟨hr, hh⟩
    · simp only [Option.some.injEq] at hf
      subst hf
      exact ⟨hr, hh⟩

theorem BlockTree.pop_back_insert (work : BlockRef → Nat) (t : BlockTree) (r : BlockRef)
    (hnew : t.findRef r.hash = none) (hprev : (t.findRef r.prev).isSome = true) :
    (t.insert work r).1.pop_back = t := by
  unfold BlockTree.insert
  have hc : ¬ (((t.findRef r.hash).isSome || (t.findRef r.prev).isNone) = true) := by
    rw [hnew]
    cases hp : t.findRef r.prev with
    | none => rw [hp] at hprev; simp at hprev
    | some x => simp
  rw [if_neg hc]
  simp [BlockTree.pop_back]


theorem redeemInputs_value (X : Ext) (txn : Transaction) (conf : Confirmation) (verify strict : Bool) :
    ∀ (inputs : List Input) (bc : BlockChain) (in_idx : Nat) (v0 vin : Int) (s : BlockChain),
      redeemInputs X txn conf verify strict bc inputs in_idx v0 = .ok vin s →
      vin = v0 + ((redeemedOutputs X txn conf verify strict bc inputs in_idx).map (fun o => o.value)).sum ∧
      (redeemedOutputs X txn conf verify strict bc inputs in_idx).length = inputs.length := by
  intro inputs
  induction inputs with
  | nil =>
    intro bc in_idx v0 vin s h
    simp only [redeemInputs, Res.ok.injEq] at h
    simp [redeemedOutputs, h.1]
  | cons input rest ih =>
    intro bc in_idx v0 vin s h
    unfold redeemInputs at h
    unfold redeemedOutputs
    cases hr : redeem X bc input conf with
    | thrown f s1 => rw [hr] at h; simp [Res.bind] at h
    | ok coin bc1 =>
      rw [hr] at h
      simp only [Res.bind] at h
      have := ih _ _ _ _ _ h
      simp only [List.map_cons, List.sum_cons, List.length_cons]
      constructor
      · rw [this.1]; ring
      · rw [this.2]

theorem postSubsidy_ok (X : Ext) (chain : Chain) (bc : BlockChain) (txn : Transaction)
    (blk : BlockIterator) (fees : Int) (s : BlockChain)
    (h : postSubsidy X chain bc txn blk fees = .ok () s) :
    txn.getValueOut ≤ chain.subsidy blk.height + fees := by
  unfold postSubsidy at h
  split at h
  · split at h
    · simp at h
    · dsimp only at h
      by_contra hlt
      have hlt2 : chain.subsidy blk.height + fees < txn.getValueOut := not_le.mp hlt
      simp only [hlt2, if_true] at h
      cases hc : confirmCoinbase bc txn blk with
      | thrown f s1 => rw [hc] at h; simp [Res.bind] at h
      | ok u s1 => rw [hc] at h; simp [Res.bind] at h
  · simp at h

theorem issue_failure (bc : BlockChain) (output : Output) (hash out_idx : Nat) (conf : Confirmation)
    (unique : Bool) (f : Failure) (s : BlockChain)
    (h : issue bc output hash out_idx conf unique = .thrown f s) :
    f = constraintFailed ∨ f = .Error "Attempting to insert dublicate coinbase" := by
  unfold issue at h
  dsimp only at h
  split at h
  · split at h
    · simp only [Res.thrown.injEq] at h; exact Or.inl h.1.symm
    · simp at h
  · split at h
    · simp only [Res.thrown.injEq] at h; exact Or.inl h.1.symm
    · split at h
      · split at h
        · simp only [Res.thrown.injEq] at h; exact Or.inr h.1.symm
        · split at h
          · simp only [Res.thrown.injEq] at h; exact Or.inr h.1.symm
          · simp at h
      · simp at h

theorem issueOutputs_failure (hash : Nat) (conf : Confirmation) (unique : Bool) :
    ∀ (outputs : List Output) (bc : BlockChain) (out_idx : Nat) (f : Failure) (s : BlockChain),
      issueOutputs hash conf unique bc outputs out_idx = .thrown f s →
      f = constraintFailed ∨ f = .Error "Attempting to insert dublicate coinbase" := by
  intro outputs
  induction outputs with
  | nil => intro bc out_idx f s h; simp [issueOutputs] at h
  | cons o rest ih =>
    intro bc out_idx f s h
    unfold issueOutputs at h
    cases hi : issue bc o hash out_idx conf unique with
    | thrown f1 s1 =>
      rw [hi] at h
      simp only [Res.bind, Res.thrown.injEq] at h
      rw [← h.1]
      exact issue_failure _ _ _ _ _ _ _ _ hi
    | ok u s1 =>
      rw [hi] at h
      simp only [Res.bind] at h
      exact ih _ _ _ _ h

theorem confirmCoinbase_failure (bc : BlockChain) (txn : Transaction) (blk : BlockIterator)
    (f : Failure) (s : BlockChain) (h : confirmCoinbase bc txn blk = .thrown f s) :
    f = constraintFailed := by
  unfold confirmCoinbase at h
  split at h
  · split at h
    · simp only [Res.thrown.injEq] at h; exact h.1.symm
    · simp at h
  · simp at h

theorem archiveCoinbase_failure (bc : BlockChain) (input : Input) (blk : BlockIterator)
    (value_in : Int) (f : Failure) (s : BlockChain)
    (h : archiveCoinbase bc input blk value_in = .thrown f s) : f = constraintFailed := by
  unfold archiveCoinbase at h
  split at h
  · split at h
    · simp only [Res.thrown.injEq] at h; exact h.1.symm
    · simp at h
  · simp at h

theorem postSubsidy_exceeds (X : Ext) (chain : Chain) (bc : BlockChain) (txn : Transaction)
    (blk : BlockIterator) (fees : Int)
    (h : chain.subsidy blk.height + fees < txn.getValueOut) :
    ∃ f s, postSubsidy X chain bc txn blk fees = .thrown f s ∧
      (f = .Error "value in < value out" ∨
       f = .Error "postSubsidy only valid for coinbase transactions." ∨
       f = constraintFailed) := by
  unfold postSubsidy
  split
  · split
    · exact ⟨_, _, rfl, Or.inr (Or.inl rfl)⟩
    · dsimp only
      simp only [h, if_true]
      cases hc : confirmCoinbase bc txn blk with
      | thrown f s1 =>
        exact ⟨f, s1, rfl, Or.inr (Or.inr (confirmCoinbase_failure _ _ _ _ _ hc))⟩
      | ok u s1 => exact ⟨_, _, rfl, Or.inl rfl⟩
  · exact ⟨_, _, rfl, Or.inr (Or.inl rfl)⟩

theorem postSubsidy_equal (X : Ext) (chain : Chain) (bc : BlockChain) (txn : Transaction)
    (blk : BlockIterator) (fees : Int)
    (h : txn.getValueOut = chain.subsidy blk.height + fees) :
    (postSubsidy X chain bc txn blk fees).failure ≠ some (.Error "value in < value out") := by
  have hnlt : ¬ (chain.subsidy blk.height + fees < txn.getValueOut) := by rw [h]; exact lt_irrefl _
  unfold postSubsidy
  split
  · split
    · simp [Res.failure]
    · dsimp only
      simp only [hnlt, if_false]
      cases hc : confirmCoinbase bc txn blk with
      | thrown f s =>
        have hf := confirmCoinbase_failure _ _ _ _ _ hc
        simp [Res.bind, Res.failure, hf, constraintFailed]
      | ok u s =>
        simp only [Res.bind]
        rename_i inp _ _
        cases ha : archiveCoinbase s inp blk (chain.subsidy blk.height + fees) with
        | thrown f s2 =>
          have hf := archiveCoinbase_failure _ _ _ _ _ _ ha
          simp [Res.failure, hf, constraintFailed]
        | ok u2 s2 =>
          simp only
          cases hi : issueOutputs (X.txHash txn) ⟨txn, -blk.count, blk.count⟩
              (decide (blk.ref.time > chain.timeStampBIP0030)) s2 txn.outputs 0 with
          | thrown f s3 =>
            rcases issueOutputs_failure _ _ _ _ _ _ _ _ hi with hf | hf
            · simp [Res.failure, hf, constraintFailed]
            · simp [Res.failure, hf]
          | ok u3 s3 =>
            simp only
            split <;> simp [Res.failure]
  · simp [Res.failure]

/-- The example engine `demoBase` is reached from the engine constructed over an
empty database by 101 calls of `append` that all return normally. -/
theorem demoBase_reachable :
    appendAll demoExt demoParams (demoFresh demoParams false)
      ((List.range' 1 101).map demoCoinbaseBlock) = some demoBase := by
  decide!

/-- With the enforced version 2, the `switch` of `append` throws for a block of
version 2 or more exactly when `checkHeightInCoinbase` returns true. -/
theorem checkVersionConstraints_two (X : Ext) (chain : Chain) (bc : BlockChain) (block : Block)
    (prev_height : Int) (h2 : getMinEnforcedBlockVersion X chain bc = 2) (hv : block.version ≥ 2) :
    (checkVersionConstraints X chain bc block prev_height).isSome =
      X.checkHeightInCoinbase block (prev_height + 1) := by
  unfold checkVersionConstraints
  simp only [h2]
  cases hc : X.checkHeightInCoinbase block (prev_height + 1) <;> simp [hv]

theorem BlockTree.single_trunk (work : BlockRef → Nat) (r : BlockRef) :
    BlockTree.trunk work ⟨[r]⟩ = [r] := by
  simp [BlockTree.trunk, BlockTree.bestRef, BlockTree.bestOf, BlockTree.path, BlockTree.chainBack]

theorem BlockTree.single_find (work : BlockRef → Nat) (r : BlockRef) :
    BlockTree.find work ⟨[r]⟩ r.hash = some ⟨r, 0⟩ := by
  simp [BlockTree.find, BlockTree.findRef, BlockTree.single_trunk, BlockTree.path,
    BlockTree.chainBack]

theorem BlockTree.single_best (work : BlockRef → Nat) (r : BlockRef) :
    BlockTree.best work ⟨[r]⟩ = some ⟨r, 0⟩ := by
  have h : BlockTree.bestRef work ⟨[r]⟩ = some r := by
    simp [BlockTree.bestRef, BlockTree.bestOf]
  simp only [BlockTree.best, h]
  exact BlockTree.single_find work r

theorem updateBestLocator_single (X : Ext) (chain : Chain) (bc : BlockChain) (r : BlockRef)
    (h : bc.tree = ⟨[r]⟩) :
    (updateBestLocator X chain bc).bestLocator = [r.hash, X.blockHash chain.genesisBlock] := by
  simp [updateBestLocator, BlockTree.height, BlockTree.atHeight, BlockTree.chainAt, h,
    BlockTree.single_trunk, locatorHeights]

/-- The constructor over a database without blocks: when it returns, the genesis
block has been attached, the tree is the genesis header alone, the locator was
computed on that tree, and the tries were loaded from the table `Unspents`. -/
theorem create_fresh (X : Ext) (chain : Chain) (db : Store) (vd0 : Nat) (s : BlockChain)
    (hdb : db.blocks = [])
    (h : BlockChain.create X chain db vd0 = .ok () s) :
    ∃ r s1, attach X chain (genesisEntered X chain db vd0) ⟨genesisRef X chain, 0⟩ [] [] = .ok r s1 ∧
      s.tree = ⟨[genesisRef X chain]⟩ ∧
      s.bestLocator = [X.blockHash chain.genesisBlock, X.blockHash chain.genesisBlock] ∧
      s.store = s1.store ∧
      (s1.store.unspentIndex = true → s.validation_depth = 0 ∧ s.spendables = s1.spendables ∧
        s.immature_coinbases = s1.immature_coinbases) ∧
      (s1.store.unspentIndex = false → s.validation_depth = chain.totalBlocksEstimate ∧
        s.spendables = (s1.store.unspents.filter (fun u => decide (u.count ≥ 99))).foldl
          (fun t u => t.insert u) s1.spendables ∧
        s.immature_coinbases = (s1.store.unspents.filter (fun u => decide (u.count < 99))).foldl
          (fun t u => t.insert u) s1.immature_coinbases) := by
  unfold BlockChain.create at h
  simp only [hdb, List.insertionSort, List.map_nil, List.nil_append] at h
  have hc : BlockTree.count X.work (BlockTree.assign []) = 0 := by
    simp [BlockTree.count, BlockTree.trunk, BlockTree.bestRef, BlockTree.bestOf, BlockTree.assign]
  rw [if_pos hc] at h
  have hf := BlockTree.single_find X.work (genesisRef X chain)
  simp only [BlockTree.assign] at h
  change (match BlockTree.find X.work ⟨[genesisRef X chain]⟩ (genesisRef X chain).hash with
    | none => _ | some blk => _ : Res BlockChain Unit).bind _ = _ at h
  rw [hf] at h
  dsimp only at h
  have hfr := attach_frame X chain (genesisEntered X chain db vd0) ⟨genesisRef X chain, 0⟩ [] []
  change (match attach X chain (genesisEntered X chain db vd0) ⟨genesisRef X chain, 0⟩ [] [] with
    | .thrown e s => _ | .ok _ s => _ : Res BlockChain Unit).bind _ = _ at h
  cases hatt : attach X chain (genesisEntered X chain db vd0) ⟨genesisRef X chain, 0⟩ [] [] with
  | thrown e s1 => rw [hatt] at h; simp [Res.bind] at h
  | ok r s1 =>
    rw [hatt] at h hfr
    have htree : s1.tree = ⟨[genesisRef X chain]⟩ := congrArg Prod.fst hfr
    have hcount : BlockTree.count X.work (⟨[genesisRef X chain]⟩ : BlockTree) = 1 := by
      simp [BlockTree.count, BlockTree.single_trunk]
    have hloc := updateBestLocator_single X chain
      { s1 with branches := [] } (genesisRef X chain) htree
    simp only [Res.bind] at h
    refine ⟨r, s1, rfl, ?_⟩
    by_cases hidx : s1.store.unspentIndex = true
    · have hidx2 : (updateBestLocator X chain { s1 with branches := [] }).store.unspentIndex = true := hidx
      rw [if_pos hidx2] at h
      injection h with _ h
      subst h
      refine ⟨htree, hloc, rfl, fun _ => ⟨rfl, rfl, rfl⟩, fun h0 => ?_⟩
      rw [h0] at hidx; exact absurd hidx (by decide)
    · have hidx2 : ¬ (updateBestLocator X chain { s1 with branches := [] }).store.unspentIndex = true := hidx
      rw [if_neg hidx2] at h
      injection h with _ h
      subst h
      refine ⟨htree, hloc, rfl, fun h0 => absurd h0 hidx, fun _ => ⟨rfl, ?_, ?_⟩⟩
      · show List.foldl _ _ (List.filter (fun u : Unspent => decide (u.count ≥ -(BlockTree.count X.work s1.tree - COINBASE_MATURITY))) _) = _
        rw [htree, hcount]; rfl
      · show List.foldl _ _ (List.filter (fun u : Unspent => decide (u.count < -(BlockTree.count X.work s1.tree - COINBASE_MATURITY))) _) = _
        rw [htree, hcount]; rfl

theorem coinSetInsert_mem (k x : Coin) (l : List Coin) :
    x ∈ coinSetInsert k l ↔ x = k ∨ x ∈ l := by
  induction l with
  | nil => simp [coinSetInsert]
  | cons a rest ih =>
    unfold coinSetInsert
    split
    · rename_i h; subst h; simp
    · split
      · simp
      · simp only [List.mem_cons, ih]
        tauto

theorem coinSetInsert_nodup (k : Coin) (l : List Coin) (hk : k ∉ l) (hl : l.Nodup) :
    (coinSetInsert k l).Nodup := by
  induction l with
  | nil => simp [coinSetInsert]
  | cons a rest ih =>
    have hka : k ≠ a := fun h => hk (h ▸ List.mem_cons_self _ _)
    have hkr : k ∉ rest := fun h => hk (List.mem_cons_of_mem _ h)
    have ha : a ∉ rest := (List.nodup_cons.mp hl).1
    have hr : rest.Nodup := (List.nodup_cons.mp hl).2
    unfold coinSetInsert
    rw [if_neg hka]
    split
    · exact List.nodup_cons.mpr ⟨hk, hl⟩
    · refine List.nodup_cons.mpr ⟨?_, ih hkr hr⟩
      rw [coinSetInsert_mem]
      rintro (h | h)
      · exact hka h.symm
      · exact ha h

/-- What the input loop of `try_claim` has established when it ends normally. -/
theorem claimInputs_ok (X : Ext) (bc : BlockChain) (txn : Transaction) (verify strict : Bool) :
    ∀ (ins : List Input) (in_idx : Nat) (sp : List Coin) (val : Int) (sp1 : List Coin) (val1 : Int),
      claimInputs X bc txn verify strict ins in_idx sp val = .ok (sp1, val1) → sp.Nodup →
        (∀ c, c ∈ sp1 ↔ c ∈ sp ∨ ∃ i ∈ ins, i.prevout = c) ∧ sp1.Nodup ∧
        (ins.map (fun i => i.prevout)).Nodup ∧
        (∀ i ∈ ins, i.prevout ∉ sp) ∧
        (∀ i ∈ ins, bc.claims.spent i.prevout = false) ∧
        ∃ outs, List.Forall₂ (Resolved X bc) ins outs ∧
          val1 = val + (outs.map (fun o => o.value)).sum := by
  intro ins
  induction ins with
  | nil =>
    intro in_idx sp val sp1 val1 h hsp
    simp only [claimInputs, Except.ok.injEq, Prod.mk.injEq] at h
    obtain ⟨h1, h2⟩ := h
    subst h1; subst h2
    exact ⟨by simp, hsp, by simp, by simp, by simp, [], List.Forall₂.nil, by simp⟩
  | cons input rest ih =>
    intro in_idx sp val sp1 val1 h hsp
    unfold claimInputs at h
    by_cases hspent : (bc.claims.spent input.prevout || sp.contains input.prevout) = true
    · rw [if_pos hspent] at h; cases h
    · rw [if_neg hspent] at h
      simp only [Bool.or_eq_true, not_or, Bool.not_eq_true] at hspent
      obtain ⟨hs1, hs2⟩ := hspent
      have hnotin : input.prevout ∉ sp := by
        intro hin
        have : sp.contains input.prevout = true := by simpa using hin
        rw [hs2] at this; cases this
      -- the coin found
      have key : ∃ coin : Unspent, Resolved X bc input coin.output ∧
          claimInputs X bc txn verify strict rest (in_idx + 1) (coinSetInsert input.prevout sp)
            (val + coin.output.value) = .ok (sp1, val1) := by
        dsimp only at h
        split at h
        · cases h
        · rename_i coin hfd
          refine ⟨coin, ⟨?_, ?_⟩, ?_⟩
          · split at hfd
            · rename_i output hp
              injection hfd with hfd
              subst hfd
              exact Or.inl hp
            · rename_i hp
              refine Or.inr ⟨hp, ?_⟩
              unfold committedCoin
              split at hfd
              · rename_i hv
                rw [if_pos hv]
                split at hfd
                · cases hfd
                · rename_i c hc
                  split at hfd
                  · cases hfd
                  · injection hfd with hfd
                    subst hfd
                    exact ⟨_, hc, rfl⟩
              · rename_i hv
                rw [if_neg hv]
                split at hfd
                · rename_i c hc
                  injection hfd with hfd
                  subst hfd
                  exact ⟨_, hc, rfl⟩
                · cases hfd
          · split at h
            · cases h
            · rename_i hm
              simpa using hm
          · split at h
            · cases h
            · split at h
              · cases h
              · exact h
      obtain ⟨coin, hres, hrec⟩ := key
      obtain ⟨h1, h2, h3, h4, h5, outs, h6, h7⟩ :=
        ih _ _ _ _ _ hrec (coinSetInsert_nodup _ _ hnotin hsp)
      refine ⟨?_, h2, ?_, ?_, ?_, coin.output :: outs, List.Forall₂.cons hres h6, ?_⟩
      · intro c
        rw [h1, coinSetInsert_mem]
        simp only [List.mem_cons, exists_eq_or_imp]
        constructor
        · rintro ((h | h) | h)
          · exact Or.inr (Or.inl h.symm)
          · exact Or.inl h
          · exact Or.inr (Or.inr h)
        · rintro (h | h | h)
          · exact Or.inl (Or.inr h)
          · exact Or.inl (Or.inl h.symm)
          · exact Or.inr h
      · simp only [List.map_cons]
        refine List.nodup_cons.mpr ⟨?_, h3⟩
        intro hin
        obtain ⟨i, hi, hie⟩ := List.mem_map.mp hin
        exact h4 i hi (by rw [hie, coinSetInsert_mem]; exact Or.inl rfl)
      · intro i hi
        rcases List.mem_cons.mp hi with h | h
        · subst h; exact hnotin
        · intro hin
          exact h4 i h (by rw [coinSetInsert_mem]; exact Or.inr hin)
      · intro i hi
        rcases List.mem_cons.mp hi with h | h
        · subst h; exact hs1
        · exact h5 i h
      · rw [h7]; simp only [List.map_cons, List.sum_cons]; ring


theorem claimInputs_append (X : Ext) (bc : BlockChain) (txn : Transaction) (verify strict : Bool)
    (post : List Input) :
    ∀ (pre : List Input) (in_idx : Nat) (sp : List Coin) (val : Int),
      claimInputs X bc txn verify strict (pre ++ post) in_idx sp val =
        match claimInputs X bc txn verify strict pre in_idx sp val with
        | .error f => .error f
        | .ok r => claimInputs X bc txn verify strict post (in_idx + pre.length) r.1 r.2 := by
  intro pre
  induction pre with
  | nil => intro in_idx sp val; simp [claimInputs]
  | cons input rest ih =>
    intro in_idx sp val
    have hlen : in_idx + 1 + rest.length = in_idx + (rest.length + 1) := by omega
    simp only [List.cons_append, List.length_cons, claimInputs]
    split
    · rfl
    · split
      · rfl
      · split
        · rfl
        · split
          · rfl
          · rw [← hlen]
            exact ih _ _ _

/-- The exception of `try_claim` is the one `claim` throws, with the engine as it was. -/
theorem claim_thrown (X : Ext) (chain : Chain) (bc : BlockChain) (txn : Transaction) (verify : Bool)
    (f : Failure) (h : try_claim X chain bc txn verify = .error f) :
    claim X chain bc txn verify = .thrown f bc := by
  unfold claim
  rw [h]

theorem mapFind_mapInsert {α : Type} (k : Nat) (v : α) (m : List (Nat × α)) :
    mapFind k (mapInsert k v m) = some v := by
  induction m with
  | nil => simp [mapInsert, mapFind]
  | cons e rest ih =>
    obtain ⟨k1, v1⟩ := e
    unfold mapInsert
    split
    · simp [mapFind]
    · rename_i hne
      split
      · simp [mapFind]
      · have hne2 : ¬ (k1 = k) := fun h => hne h.symm
        simp only [mapFind, List.find?_cons, hne2, decide_False] at ih ⊢
        exact ih

/-- A normal return of `append`: either no block is attached and only the tree and
the side map have changed, or the `try` block and the closing part have both
returned normally. -/
theorem append_ok_inv (X : Ext) (chain : Chain) (bc : BlockChain) (block : Block) (s : BlockChain)
    (h : append X chain bc block = .ok () s) :
    ∃ prev, bc.tree.find X.work block.prev = some prev ∧
      (((bc.tree.insert X.work
          ⟨block.version, X.blockHash block, prev.ref.hash, block.time, block.bits⟩).2.inserted = [] ∧
        s = { bc with
          tree := (bc.tree.insert X.work
            ⟨block.version, X.blockHash block, prev.ref.hash, block.time, block.bits⟩).1,
          branches := mapInsert (X.blockHash block) block bc.branches }) ∨
       ∃ r s1, (bc.tree.insert X.work
          ⟨block.version, X.blockHash block, prev.ref.hash, block.time, block.bits⟩).2.inserted ≠ [] ∧
        appendTry X chain
          { bc with
            tree := (bc.tree.insert X.work
              ⟨block.version, X.blockHash block, prev.ref.hash, block.time, block.bits⟩).1,
            branches := mapInsert (X.blockHash block) block bc.branches }
          block
          (bc.tree.insert X.work
            ⟨block.version, X.blockHash block, prev.ref.hash, block.time, block.bits⟩).2
          prev.height = .ok r s1 ∧
        appendCommitted X chain s1 r.1 r.2 = .ok () s) := by
  unfold append at h
  dsimp only at h
  split at h
  · cases h
  · split at h
    · cases h
    · split at h
      · cases h
      · rename_i prev hprev
        refine ⟨prev, hprev, ?_⟩
        split at h
        · cases h
        · split at h
          · cases h
          · split at h
            · cases h
            · split at h
              · rename_i hlen
                left
                injection h with _ h
                exact ⟨List.length_eq_zero.mp hlen, h.symm⟩
              · rename_i hlen
                right
                split at h
                · cases h
                · rename_i r s1 htry
                  exact ⟨r, s1, fun h0 => hlen (by rw [h0]; rfl), htry, h⟩

theorem branchAt_coins (bc : BlockChain) (hash : Nat) : coinsOf (branchAt bc hash).2 = coinsOf bc := by
  unfold branchAt
  split <;> rfl

theorem insertBlockHeader_coins (X : Ext) (bc : BlockChain) (count : Int) (block : Block) :
    coinsOf (insertBlockHeader X bc count block).state = coinsOf bc := by
  unfold insertBlockHeader Store.insertBlock
  split
  · rfl
  · rename_i st hst
    split at hst
    · cases hst
    · injection hst with hst; subst hst; rfl

theorem confirmTransaction_coins (bc : BlockChain) (txn : Transaction) (blk : BlockIterator)
    (idx : Int) : coinsOf (confirmTransaction bc txn blk idx).2 = coinsOf bc := by
  unfold confirmTransaction
  split <;> rfl

theorem archiveCoin_coins (bc : BlockChain) (coin : Unspent) (input : Input) (iconf : Confirmation) :
    coinsOf (archiveCoin bc coin input iconf).state = coinsOf bc := by
  unfold archiveCoin Store.insertSpending
  split
  · split
    · rfl
    · rename_i st hst
      split at hst
      · cases hst
      · injection hst with hst; subst hst; rfl
  · rfl

theorem confirmCoinbase_coins (bc : BlockChain) (txn : Transaction) (blk : BlockIterator) :
    coinsOf (confirmCoinbase bc txn blk).state = coinsOf bc := by
  unfold confirmCoinbase Store.insertConfirmationRow
  split
  · split
    · rfl
    · rename_i st hst
      split at hst
      · cases hst
      · injection hst with hst; subst hst; rfl
  · rfl

theorem archiveCoinbase_coins (bc : BlockChain) (input : Input) (blk : BlockIterator)
    (value_in : Int) : coinsOf (archiveCoinbase bc input blk value_in).state = coinsOf bc := by
  unfold archiveCoinbase Store.insertSpending
  split
  · split
    · rfl
    · rename_i st hst
      split at hst
      · cases hst
      · injection hst with hst; subst hst; rfl
  · rfl

theorem purgeOld_coins (bc : BlockChain) (blk : Option BlockIterator) :
    coinsOf (purgeOld bc blk) = coinsOf bc := by
  unfold purgeOld
  split
  · rfl
  · split <;> rfl

theorem claim_coins (X : Ext) (chain : Chain) (bc : BlockChain) (txn : Transaction) (verify : Bool) :
    coinsOf (claim X chain bc txn verify).state = coinsOf bc ∧
    (claim X chain bc txn verify).state.validation_depth = bc.validation_depth := by
  unfold claim
  split <;> exact ⟨rfl, rfl⟩

theorem claimAll_coins (X : Ext) (chain : Chain) :
    ∀ (txs : Txns) (bc : BlockChain),
      coinsOf (claimAll X chain bc txs).state = coinsOf bc ∧
      (claimAll X chain bc txs).state.validation_depth = bc.validation_depth := by
  intro txs
  induction txs with
  | nil => intro bc; exact ⟨rfl, rfl⟩
  | cons tx rest ih =>
    intro bc
    unfold claimAll
    have h1 := claim_coins X chain bc tx.2 false
    cases hc : claim X chain bc tx.2 false with
    | thrown e s => rw [hc] at h1; exact h1
    | ok u s =>
      rw [hc] at h1
      simp only [Res.bind]
      have h2 := ih s
      exact ⟨h2.1.trans h1.1, h2.2.trans h1.2⟩

theorem appendCommitted_coins (X : Ext) (chain : Chain) (bc : BlockChain) (unconfirmed : Txns)
    (confirmed : Hashes) :
    coinsOf (appendCommitted X chain bc unconfirmed confirmed).state = coinsOf bc ∧
    (appendCommitted X chain bc unconfirmed confirmed).state.validation_depth =
      bc.validation_depth := by
  unfold appendCommitted
  dsimp only
  split
  · exact claimAll_coins X chain unconfirmed _
  · exact claimAll_coins X chain unconfirmed _

/-- The statement `INSERT INTO Unspents` of `issue`, when it succeeds: the new row
has the next id and is the last row. -/
theorem insertUnspent_some (st st1 : Store) (replace : Bool) (key : Coin) (output : Output)
    (count cnf coin : Int) (h : st.insertUnspent replace key output count cnf = some (coin, st1)) :
    coin = st.unspentsSeq + 1 ∧ st1.unspentsSeq = st.unspentsSeq + 1 ∧
    (∃ rows, st1.unspents = rows ++ [⟨coin, key, output, count, cnf⟩] ∧
      (∀ u ∈ rows, u ∈ st.unspents) ∧
      (∀ u ∈ st.unspents, u.key ≠ key → u ∈ rows) ∧
      (replace = false → rows = st.unspents)) := by
  unfold Store.insertUnspent at h
  dsimp only at h
  split at h
  · cases h
  · rename_i hd
    injection h with h
    injection h with h1 h2
    subst h1; subst h2
    refine ⟨rfl, rfl, _, rfl, ?_, ?_, ?_⟩
    · intro u hu
      split at hu
      · exact (List.mem_filter.mp hu).1
      · exact hu
    · intro u hu hk
      split
      · exact List.mem_filter.mpr ⟨hu, by simpa using hk⟩
      · exact hu
    · intro hr
      subst hr
      simp only [Bool.not_false, Bool.and_true, Bool.not_eq_true] at hd
      simp [hd]

/-- A normal return of `issue`: the row inserted into `Unspents` and the trie that
has received it. -/
theorem issue_ok_inv (bc : BlockChain) (output : Output) (hash out_idx : Nat) (conf : Confirmation)
    (unique : Bool) (s : BlockChain) (h : issue bc output hash out_idx conf unique = .ok () s) :
    ∃ coin st,
      bc.store.insertUnspent (if bc.validation_depth = 0 then !unique else false) ⟨hash, out_idx⟩
        output (if conf.is_coinbase then -conf.count else conf.count) conf.cnf = some (coin, st) ∧
      s.store = st ∧ s.validation_depth = bc.validation_depth ∧
      (bc.validation_depth = 0 →
        s.spendables = bc.spendables ∧ s.immature_coinbases = bc.immature_coinbases) ∧
      (bc.validation_depth ≠ 0 → conf.is_coinbase = true →
        s.spendables = bc.spendables ∧
        s.immature_coinbases = bc.immature_coinbases.insert
          ⟨coin, ⟨hash, out_idx⟩, output, if conf.is_coinbase then -conf.count else conf.count,
           conf.cnf⟩) ∧
      (bc.validation_depth ≠ 0 → conf.is_coinbase = false →
        s.immature_coinbases = bc.immature_coinbases ∧
        s.spendables = bc.spendables.insert
          ⟨coin, ⟨hash, out_idx⟩, output, if conf.is_coinbase then -conf.count else conf.count,
           conf.cnf⟩) := by
  unfold issue at h
  dsimp only at h
  by_cases hv : bc.validation_depth = 0
  · rw [if_pos hv] at h
    split at h
    · cases h
    · rename_i coin st hst
      injection h with _ h
      subst h
      refine ⟨coin, st, ?_, rfl, rfl, fun _ => ⟨rfl, rfl⟩, fun h0 => absurd hv h0,
        fun h0 => absurd hv h0⟩
      rw [if_pos hv]; exact hst
  · rw [if_neg hv] at h
    split at h
    · cases h
    · rename_i coin st hst
      have hins : bc.store.insertUnspent (if bc.validation_depth = 0 then !unique else false)
          ⟨hash, out_idx⟩ output (if conf.is_coinbase then -conf.count else conf.count) conf.cnf =
            some (coin, st) := by
        rw [if_neg hv]; exact hst
      by_cases hcb : conf.is_coinbase = true
      · rw [if_pos hcb] at h
        split at h
        · cases h
        · split at h
          · cases h
          · injection h with _ h
            subst h
            refine ⟨coin, st, hins, rfl, rfl, fun h0 => absurd h0 hv,
              fun _ _ => ⟨rfl, by rw [if_pos hcb]⟩, fun _ h0 => ?_⟩
            rw [hcb] at h0; cases h0
      · rw [if_neg hcb] at h
        injection h with _ h
        subst h
        refine ⟨coin, st, hins, rfl, rfl, fun h0 => absurd h0 hv, fun _ h0 => absurd h0 hcb,
          fun _ _ => ⟨rfl, by rw [if_neg hcb]⟩⟩

/-- A normal return of `redeem`: the coin found, the rows of `Unspents` left and
the leaves of the tries. -/
theorem redeem_ok_inv (X : Ext) (bc : BlockChain) (input : Input) (iconf : Confirmation)
    (o : Output) (s : BlockChain) (h : redeem X bc input iconf = .ok o s) :
    ∃ coin : Unspent, o = coin.output ∧
      s.store.unspents = bc.store.unspents.filter (fun u => decide (u.coin ≠ coin.coin)) ∧
      s.store.unspentsSeq = bc.store.unspentsSeq ∧
      s.immature_coinbases.leaves = bc.immature_coinbases.leaves ∧
      (bc.validation_depth = 0 → s.spendables.leaves = bc.spendables.leaves ∧
        bc.store.unspents.find? (fun u => decide (u.key = input.prevout)) = some coin) ∧
      (bc.validation_depth ≠ 0 → bc.spendables.find input.prevout = some coin ∧
        s.spendables.leaves = (bc.spendables.remove input.prevout).leaves) := by
  unfold redeem at h
  cases hf : findCoin bc input iconf with
  | thrown e s1 => rw [hf] at h; cases h
  | ok coin bc1 =>
    rw [hf] at h
    simp only [Res.bind] at h
    split at h
    · cases h
    · have ha := archiveCoin_coins bc1 coin input iconf
      cases hac : archiveCoin bc1 coin input iconf with
      | thrown e s2 => rw [hac] at h; cases h
      | ok u bc2 =>
        rw [hac] at h ha
        simp only [Res.bind] at h
        injection h with h1 h2
        subst h1; subst h2
        simp only [Res.state, coinsOf, Prod.mk.injEq] at ha
        obtain ⟨ha1, ha2, ha3, ha4⟩ := ha
        refine ⟨coin, rfl, ?_⟩
        dsimp only
        rw [ha1, ha2, ha3, ha4]
        unfold findCoin at hf
        by_cases hv : bc.validation_depth = 0
        · rw [if_pos hv] at hf
          split at hf
          · cases hf
          · rename_i c hc
            split at hf
            · cases hf
            · injection hf with hf1 hf2
              subst hf1; subst hf2
              exact ⟨rfl, rfl, rfl, fun _ => ⟨rfl, hc⟩, fun h0 => absurd hv h0⟩
        · rw [if_neg hv] at hf
          split at hf
          · cases hf
          · rename_i c hc
            injection hf with hf1 hf2
            subst hf1; subst hf2
            exact ⟨rfl, rfl, rfl, fun h0 => absurd h0 hv, fun _ => ⟨hc, rfl⟩⟩

theorem redeem_ids (X : Ext) (bc : BlockChain) (input : Input) (iconf : Confirmation)
    (o : Output) (s : BlockChain) (h : redeem X bc input iconf = .ok o s) (hp : IdsAssigned bc) :
    IdsAssigned s := by
  obtain ⟨coin, _, hu, hs, _⟩ := redeem_ok_inv X bc input iconf o s h
  refine ⟨by rw [hs]; exact hp.1, ?_⟩
  intro u hu1
  rw [hu] at hu1
  exact hp.2 u (List.mem_filter.mp hu1).1

theorem redeemInputs_ids (X : Ext) (txn : Transaction) (conf : Confirmation) (verify strict : Bool) :
    ∀ (ins : List Input) (bc : BlockChain) (in_idx : Nat) (value_in v : Int) (s : BlockChain),
      redeemInputs X txn conf verify strict bc ins in_idx value_in = .ok v s →
        IdsAssigned bc → IdsAssigned s := by
  intro ins
  induction ins with
  | nil =>
    intro bc in_idx value_in v s h hp
    simp only [redeemInputs] at h
    injection h with _ h
    subst h; exact hp
  | cons input rest ih =>
    intro bc in_idx value_in v s h hp
    simp only [redeemInputs] at h
    cases hr : redeem X bc input conf with
    | thrown e s1 => rw [hr] at h; cases h
    | ok coin bc1 =>
      rw [hr] at h
      simp only [Res.bind] at h
      have hp1 := redeem_ids X bc input conf coin bc1 hr hp
      refine ih _ _ _ _ _ h ?_
      split
      · exact hp1
      · exact hp1

/-- A normal return of `issue` keeps the ids assigned, the new row carries the
outpoint issued, and every other outpoint that had a row still has one. -/
theorem issue_ids (bc : BlockChain) (output : Output) (hash out_idx : Nat) (conf : Confirmation)
    (unique : Bool) (s : BlockChain) (h : issue bc output hash out_idx conf unique = .ok () s)
    (hp : IdsAssigned bc) :
    IdsAssigned s ∧ (∃ u ∈ s.store.unspents, u.key = ⟨hash, out_idx⟩) ∧
    ∀ k : Coin, k ≠ ⟨hash, out_idx⟩ → (∃ u ∈ bc.store.unspents, u.key = k) →
      ∃ u ∈ s.store.unspents, u.key = k := by
  obtain ⟨coin, st, hins, hst, _⟩ := issue_ok_inv bc output hash out_idx conf unique s h
  subst hst
  obtain ⟨hc, hseq, rows, hrows, hsub, hkeep, _⟩ := insertUnspent_some _ _ _ _ _ _ _ _ hins
  refine ⟨⟨?_, ?_⟩, ?_, ?_⟩
  · rw [hseq]; have := hp.1; omega
  · intro u hu
    rw [hrows] at hu
    rcases List.mem_append.mp hu with h1 | h1
    · exact hp.2 u (hsub u h1)
    · simp only [List.mem_singleton] at h1
      subst h1
      show coin ≠ 0
      have := hp.1; omega
  · exact ⟨_, by rw [hrows]; exact List.mem_append_right _ (List.mem_singleton.mpr rfl), rfl⟩
  · intro k hk ⟨u, hu, huk⟩
    refine ⟨u, ?_, huk⟩
    rw [hrows]
    exact List.mem_append_left _ (hkeep u hu (by rw [huk]; exact hk))


theorem issueOutputs_ids (hash : Nat) (conf : Confirmation) (unique : Bool) :
    ∀ (outs : List Output) (bc : BlockChain) (i0 : Nat) (s : BlockChain),
      issueOutputs hash conf unique bc outs i0 = .ok () s → IdsAssigned bc →
        IdsAssigned s ∧
        (∀ j, j < outs.length → ∃ u ∈ s.store.unspents, u.key = ⟨hash, i0 + j⟩) ∧
        (∀ k : Coin, (k.hash = hash → k.index < i0) → (∃ u ∈ bc.store.unspents, u.key = k) →
          ∃ u ∈ s.store.unspents, u.key = k) := by
  intro outs
  induction outs with
  | nil =>
    intro bc i0 s h hp
    simp only [issueOutputs] at h
    injection h with _ h
    subst h
    exact ⟨hp, fun j hj => absurd hj (by simp), fun _ _ hk => hk⟩
  | cons o rest ih =>
    intro bc i0 s h hp
    simp only [issueOutputs] at h
    cases hi : issue bc o hash i0 conf unique with
    | thrown e s1 => rw [hi] at h; cases h
    | ok u bc1 =>
      rw [hi] at h
      simp only [Res.bind] at h
      obtain ⟨hp1, hnew, hkeep⟩ := issue_ids bc o hash i0 conf unique bc1 hi hp
      obtain ⟨hp2, hrows, hkeep2⟩ := ih bc1 (i0 + 1) s h hp1
      refine ⟨hp2, ?_, ?_⟩
      · intro j hj
        cases j with
        | zero => exact hkeep2 ⟨hash, i0⟩ (fun _ => Nat.lt_succ_self i0) hnew
        | succ j =>
          have := hrows j (by simpa using hj)
          rw [show i0 + (j + 1) = i0 + 1 + j by omega]
          exact this
      · intro k hk hex
        apply hkeep2 k (fun hh => Nat.lt_succ_of_lt (hk hh))
        apply hkeep k _ hex
        intro hke
        subst hke
        exact absurd (hk rfl) (lt_irrefl _)

theorem postTransaction_ids (X : Ext) (chain : Chain) (bc : BlockChain) (txn : Transaction)
    (fees min_fee : Int) (blk : BlockIterator) (idx : Int) (verify : Bool) (v : Int)
    (s : BlockChain)
    (h : postTransaction X chain bc txn fees min_fee blk idx verify = .ok v s)
    (hp : IdsAssigned bc) : IdsAssigned s := by
  unfold postTransaction at h
  dsimp only at h
  have hc := confirmTransaction_coins bc txn blk idx
  have hp0 : IdsAssigned (confirmTransaction bc txn blk idx).2 := by
    simp only [coinsOf, Prod.mk.injEq] at hc
    unfold IdsAssigned
    rw [hc.1, hc.2.1]
    exact hp
  cases hr : redeemInputs X txn ⟨txn, (confirmTransaction bc txn blk idx).1, blk.count⟩ verify
      (decide (blk.ref.time > chain.timeStampBIP0016)) (confirmTransaction bc txn blk idx).2
      txn.inputs 0 0 with
  | thrown e s1 => rw [hr] at h; cases h
  | ok value_in bc2 =>
    rw [hr] at h
    simp only [Res.bind] at h
    have hp2 := redeemInputs_ids X txn _ verify _ txn.inputs _ 0 0 value_in bc2 hr hp0
    split at h
    · cases h
    · split at h
      · cases h
      · split at h
        · cases h
        · cases hi : issueOutputs (X.txHash txn)
            ⟨txn, (confirmTransaction bc txn blk idx).1, blk.count⟩ true bc2 txn.outputs 0 with
          | thrown e s1 => rw [hi] at h; cases h
          | ok u bc3 =>
            rw [hi] at h
            simp only [Res.bind] at h
            injection h with _ h
            subst h
            exact (issueOutputs_ids _ _ _ txn.outputs bc2 0 bc3 hi hp2).1

theorem attachLoop_ids (X : Ext) (chain : Chain) (blk : BlockIterator) (min_fee : Int) :
    ∀ (txs : List Transaction) (bc : BlockChain) (idx fees : Int) (verify : Bool)
      (unconfirmed : Txns) (confirmed : Hashes) (r : Int × Txns × Hashes) (s : BlockChain),
      attachLoop X chain blk min_fee bc txs idx fees verify unconfirmed confirmed = .ok r s →
        IdsAssigned bc → IdsAssigned s := by
  intro txs
  induction txs with
  | nil =>
    intro bc idx fees verify unconfirmed confirmed r s h hp
    simp only [attachLoop] at h
    injection h with _ h
    subst h; exact hp
  | cons txn rest ih =>
    intro bc idx fees verify unconfirmed confirmed r s h hp
    simp only [attachLoop] at h
    generalize hv1 : (if ((mapFind (X.txHash txn) unconfirmed).isSome || bc.claims.have_ (X.txHash txn)) = true
      then false else verify) = verify1 at h
    cases hpt : postTransaction X chain bc txn fees min_fee blk idx verify1 with
    | thrown e s1 => rw [hpt] at h; cases h
    | ok fees1 bc1 =>
      rw [hpt] at h
      simp only [Res.bind] at h
      exact ih _ _ _ _ _ _ _ _ h (postTransaction_ids X chain bc txn fees min_fee blk idx verify1
        fees1 bc1 hpt hp)


theorem SameFrame.validation_depth {a b : BlockChain} (h : SameFrame a b) :
    b.validation_depth = a.validation_depth :=
  congrArg (fun t => t.2.2.2.2.1) h

theorem ids_of_coins {a b : BlockChain} (h : coinsOf b = coinsOf a) (hp : IdsAssigned a) :
    IdsAssigned b := by
  simp only [coinsOf, Prod.mk.injEq] at h
  unfold IdsAssigned
  rw [h.1, h.2.1]
  exact hp

/-- A normal return of `postSubsidy` when `_validation_depth` is 0: every output of
the coinbase has a row in `Unspents`. -/
theorem postSubsidy_rows (X : Ext) (chain : Chain) (bc : BlockChain) (txn : Transaction)
    (blk : BlockIterator) (fees : Int) (s : BlockChain)
    (h : postSubsidy X chain bc txn blk fees = .ok () s)
    (hv : bc.validation_depth = 0) (hp : IdsAssigned bc) :
    IdsAssigned s ∧
    ∀ j, j < txn.outputs.length → ∃ u ∈ s.store.unspents, u.key = ⟨X.txHash txn, j⟩ := by
  unfold postSubsidy at h
  split at h
  · rename_i input hin
    split at h
    · cases h
    · dsimp only at h
      have hc1 := confirmCoinbase_coins bc txn blk
      have hf1 := confirmCoinbase_frame bc txn blk
      cases hcc : confirmCoinbase bc txn blk with
      | thrown e s1 => rw [hcc] at h; cases h
      | ok u1 bc1 =>
        rw [hcc] at h hc1 hf1
        simp only [Res.bind] at h
        split at h
        · cases h
        · have hc2 := archiveCoinbase_coins bc1 input blk (chain.subsidy blk.height + fees)
          have hf2 := archiveCoinbase_frame bc1 input blk (chain.subsidy blk.height + fees)
          cases hac : archiveCoinbase bc1 input blk (chain.subsidy blk.height + fees) with
          | thrown e s2 => rw [hac] at h; cases h
          | ok u2 bc2 =>
            rw [hac] at h hc2 hf2
            simp only [Res.bind] at h
            have hp2 : IdsAssigned bc2 := ids_of_coins hc2 (ids_of_coins hc1 hp)
            have hv2 : bc2.validation_depth = 0 :=
              hf2.validation_depth.trans (hf1.validation_depth.trans hv)
            have hf3 := issueOutputs_frame (X.txHash txn) ⟨txn, -blk.count, blk.count⟩
              (decide (blk.ref.time > chain.timeStampBIP0030)) bc2 txn.outputs bc2 0 rfl
            cases hio : issueOutputs (X.txHash txn) ⟨txn, -blk.count, blk.count⟩
                (decide (blk.ref.time > chain.timeStampBIP0030)) bc2 txn.outputs 0 with
            | thrown e s3 => rw [hio] at h; cases h
            | ok u3 bc3 =>
              rw [hio] at h hf3
              simp only [Res.bind] at h
              have hv3 : bc3.validation_depth = 0 := hf3.validation_depth.trans hv2
              have hnot : ¬ (bc3.validation_depth > 0 ∧ blk.count > COINBASE_MATURITY) := by
                rw [hv3]; intro hh; exact absurd hh.1 (lt_irrefl 0)
              rw [if_neg hnot] at h
              injection h with _ h
              subst h
              obtain ⟨hp3, hrows, _⟩ := issueOutputs_ids _ _ _ txn.outputs bc2 0 bc3 hio hp2
              refine ⟨hp3, fun j hj => ?_⟩
              have := hrows j hj
              rw [Nat.zero_add] at this
              exact this
  · cases h


theorem branchAt_some (bc : BlockChain) (hash : Nat) (b : Block)
    (h : mapFind hash bc.branches = some b) : branchAt bc hash = (b, bc) := by
  unfold branchAt
  rw [h]

/-- A normal return of `attach` when `_validation_depth` is 0: every output of the
coinbase of the attached block has a row in `Unspents`. -/
theorem attach_rows (X : Ext) (chain : Chain) (bc : BlockChain) (blk : BlockIterator)
    (unconfirmed : Txns) (confirmed : Hashes) (r : Txns × Hashes) (s : BlockChain)
    (block : Block) (cb : Transaction) (rest : List Transaction)
    (h : attach X chain bc blk unconfirmed confirmed = .ok r s)
    (hb : mapFind blk.ref.hash bc.branches = some block) (htx : block.txs = cb :: rest)
    (hv : bc.validation_depth = 0) (hp : IdsAssigned bc) :
    IdsAssigned s ∧ s.validation_depth = 0 ∧
    ∀ j, j < cb.outputs.length → ∃ u ∈ s.store.unspents, u.key = ⟨X.txHash cb, j⟩ := by
  have hfr := attach_frame X chain bc blk unconfirmed confirmed
  rw [h] at hfr
  have hvs : s.validation_depth = 0 := hfr.validation_depth.trans hv
  unfold attach at h
  rw [branchAt_some bc _ block hb] at h
  dsimp only at h
  split at h
  · cases h
  · split at h
    · cases h
    · have hc1 := insertBlockHeader_coins X { bc with verifier := bc.verifier.reset } blk.count block
      have hf1 := insertBlockHeader_frame X { bc with verifier := bc.verifier.reset } blk.count block
      cases hih : insertBlockHeader X { bc with verifier := bc.verifier.reset } blk.count block with
      | thrown e s1 => rw [hih] at h; cases h
      | ok u1 bc2 =>
        rw [hih] at h hc1 hf1
        simp only [Res.bind] at h
        have hp2 : IdsAssigned bc2 := ids_of_coins (b := bc2) hc1 hp
        have hv2 : bc2.validation_depth = 0 := hf1.validation_depth.trans hv
        rw [htx] at h
        simp only [List.tail_cons, List.headD_cons] at h
        generalize hvf : (decide (bc2.verification_depth ≠ 0) &&
          decide (blk.height > (bc2.verification_depth : Int))) = vf at h
        have hf2 := attachLoop_frame X chain blk 0 bc2 rest bc2 1 0 vf unconfirmed confirmed rfl
        cases hal : attachLoop X chain blk 0 bc2 rest 1 0 vf unconfirmed confirmed with
        | thrown e s2 => rw [hal] at h; cases h
        | ok r3 bc3 =>
          rw [hal] at h hf2
          simp only [Res.bind] at h
          have hp3 := attachLoop_ids X chain blk 0 rest bc2 1 0 vf unconfirmed confirmed r3 bc3 hal hp2
          have hv3 : bc3.validation_depth = 0 := hf2.validation_depth.trans hv2
          cases hps : postSubsidy X chain bc3 cb blk r3.1 with
          | thrown e s3 => rw [hps] at h; cases h
          | ok u4 bc4 =>
            rw [hps] at h
            simp only [Res.bind] at h
            split at h
            · cases h
            · injection h with _ h
              subst h
              obtain ⟨hp4, hrows⟩ := postSubsidy_rows X chain bc3 cb blk r3.1 bc4 hps hv3 hp3
              exact ⟨hp4, hvs, hrows⟩


/-- The `try` block of `append` when the appended block alone is attached, on top
of the best tip: it returns normally only if `attach` of that block does, and the
rows of `Unspents`, the id counter and the leaves of the tries are then those left
by `attach`. -/
theorem appendTry_extend (X : Ext) (chain : Chain) (bc : BlockChain) (block : Block)
    (prev_height : Int) (r : Txns × Hashes) (s : BlockChain)
    (h : appendTry X chain bc block ⟨[], [X.blockHash block]⟩ prev_height = .ok r s) :
    ∃ blk r1 s1, bc.tree.find X.work (X.blockHash block) = some blk ∧
      attach X chain bc blk [] [] = .ok r1 s1 ∧ coinsOf s = coinsOf s1 ∧
      s.validation_depth = s1.validation_depth := by
  unfold appendTry at h
  simp only [detachAll, Res.bind, List.reverse_cons, List.reverse_nil, List.nil_append,
    attachAll] at h
  cases hf : bc.tree.find X.work (X.blockHash block) with
  | none => rw [hf] at h; cases h
  | some blk =>
    rw [hf] at h
    dsimp only at h
    cases ha : attach X chain bc blk [] [] with
    | thrown e s1 => rw [ha] at h; cases h
    | ok r1 s1 =>
      rw [ha] at h
      dsimp only at h
      refine ⟨blk, r1, s1, rfl, ha, ?_⟩
      split at h
      · cases h
      · injection h with _ h
        subst h
        exact ⟨purgeOld_coins s1 (some blk),
          ((updateBestLocator_frame X chain _).validation_depth).trans
            (purgeOld_frame s1 (some blk)).validation_depth⟩

theorem rowsOk_of_coins {a b : BlockChain} (h : coinsOf b = coinsOf a) (hr : RowsOk a) : RowsOk b := by
  simp only [coinsOf, Prod.mk.injEq] at h
  obtain ⟨h1, h2, _, _⟩ := h
  constructor
  · rw [h1]; exact hr.keys
  · rw [h1]; exact hr.ids
  · rw [h1, h2]; exact hr.bound

theorem covered_of_coins {a b : BlockChain} (h : coinsOf b = coinsOf a) (hc : Covered a) : Covered b := by
  simp only [coinsOf, Prod.mk.injEq] at h
  obtain ⟨h1, _, h3, h4⟩ := h
  constructor
  · rw [h1, h3, h4]; exact hc.cover
  · rw [h3, h4]; exact hc.disjoint

theorem trieInsert_mem (u y : Unspent) (l : List Unspent)
    (hc : ∀ x ∈ l, x.key = u.key → x = u) :
    y ∈ trieInsert u l ↔ y = u ∨ y ∈ l := by
  induction l with
  | nil => simp [trieInsert]
  | cons v rest ih =>
    unfold trieInsert
    split
    · rename_i hk
      have hv : v = u := hc v (List.mem_cons_self _ _) hk.symm
      subst hv
      simp
    · split
      · simp
      · have := ih (fun x hx => hc x (List.mem_cons_of_mem _ hx))
        simp only [List.mem_cons, this]
        tauto

theorem find_key (l : List Unspent) (k : Coin) (c : Unspent)
    (h : l.find? (fun u => decide (u.key = k)) = some c) : c ∈ l ∧ c.key = k := by
  refine ⟨List.mem_of_find?_eq_some h, ?_⟩
  have := List.find?_some h
  simpa using this

/-- A successful `INSERT INTO Unspents` of an outpoint that has no row: the table
gets the row with the next id at its end, and the rows stay told apart. -/
theorem issue_rows (bc : BlockChain) (output : Output) (hash out_idx : Nat) (conf : Confirmation)
    (unique : Bool) (s : BlockChain) (h : issue bc output hash out_idx conf unique = .ok () s)
    (hr : RowsOk bc) (hnew : ∀ u ∈ bc.store.unspents, u.key ≠ ⟨hash, out_idx⟩) :
    RowsOk s ∧
    s.store.unspents = bc.store.unspents ++
      [⟨bc.store.unspentsSeq + 1, ⟨hash, out_idx⟩, output,
        if conf.is_coinbase then -conf.count else conf.count, conf.cnf⟩] := by
  obtain ⟨coin, st, hins, hst, _⟩ := issue_ok_inv bc output hash out_idx conf unique s h
  subst hst
  unfold Store.insertUnspent at hins
  have hdup : (bc.store.unspentIndex &&
      bc.store.unspents.any (fun u => decide (u.key = ⟨hash, out_idx⟩))) = false := by
    have : bc.store.unspents.any (fun u => decide (u.key = ⟨hash, out_idx⟩)) = false := by
      rw [List.any_eq_false]
      intro u hu
      simpa using hnew u hu
    rw [this]; simp
  simp only [hdup, Bool.false_and, Bool.false_eq_true, if_false, Option.some.injEq,
    Prod.mk.injEq] at hins
  obtain ⟨hc, hst⟩ := hins
  have hU : s.store.unspents = bc.store.unspents ++
      [⟨bc.store.unspentsSeq + 1, ⟨hash, out_idx⟩, output,
        if conf.is_coinbase then -conf.count else conf.count, conf.cnf⟩] := by
    rw [← hst]
  have hS : s.store.unspentsSeq = bc.store.unspentsSeq + 1 := by rw [← hst]
  refine ⟨⟨?_, ?_, ?_⟩, hU⟩
  · intro u hu v hv huv
    rw [hU] at hu hv
    rcases List.mem_append.mp hu with hu | hu <;> rcases List.mem_append.mp hv with hv | hv
    · exact hr.keys u hu v hv huv
    · simp only [List.mem_singleton] at hv; subst hv
      exact absurd huv (hnew u hu)
    · simp only [List.mem_singleton] at hu; subst hu
      exact absurd huv.symm (hnew v hv)
    · simp only [List.mem_singleton] at hu hv; rw [hu, hv]
  · intro u hu v hv huv
    rw [hU] at hu hv
    rcases List.mem_append.mp hu with hu | hu <;> rcases List.mem_append.mp hv with hv | hv
    · exact hr.ids u hu v hv huv
    · simp only [List.mem_singleton] at hv; subst hv
      have := hr.bound u hu
      simp only at huv
      omega
    · simp only [List.mem_singleton] at hu; subst hu
      have := hr.bound v hv
      simp only at huv
      omega
    · simp only [List.mem_singleton] at hu hv; rw [hu, hv]
  · intro u hu
    rw [hU] at hu
    rw [hS]
    rcases List.mem_append.mp hu with hu | hu
    · have := hr.bound u hu; omega
    · simp only [List.mem_singleton] at hu; subst hu
      exact le_refl _


/-- In trie mode `issue` of an outpoint that has no row keeps the tries in step
with the table. -/
theorem issue_covered (bc : BlockChain) (output : Output) (hash out_idx : Nat) (conf : Confirmation)
    (unique : Bool) (s : BlockChain) (h : issue bc output hash out_idx conf unique = .ok () s)
    (hv : bc.validation_depth ≠ 0) (hc : Covered bc)
    (hnew : ∀ u ∈ bc.store.unspents, u.key ≠ ⟨hash, out_idx⟩)
    (hU : s.store.unspents = bc.store.unspents ++
      [⟨bc.store.unspentsSeq + 1, ⟨hash, out_idx⟩, output,
        if conf.is_coinbase then -conf.count else conf.count, conf.cnf⟩]) :
    Covered s := by
  obtain ⟨coin, st, hins, hst, _, _, hcb, hreg⟩ := issue_ok_inv bc output hash out_idx conf unique s h
  have hcoin : coin = bc.store.unspentsSeq + 1 := (insertUnspent_some _ _ _ _ _ _ _ _ hins).1
  subst hcoin
  have hrow : ∀ x, x ∈ bc.store.unspents →
      x ≠ ⟨bc.store.unspentsSeq + 1, ⟨hash, out_idx⟩, output,
        if conf.is_coinbase then -conf.count else conf.count, conf.cnf⟩ := by
    intro x hx hxe
    exact hnew x hx (by rw [hxe])
  by_cases hcbc : conf.is_coinbase = true
  · obtain ⟨hS, hM⟩ := hcb hv hcbc
    have hmem : ∀ y, y ∈ s.immature_coinbases.leaves ↔
        y = ⟨bc.store.unspentsSeq + 1, ⟨hash, out_idx⟩, output,
          if conf.is_coinbase then -conf.count else conf.count, conf.cnf⟩ ∨
        y ∈ bc.immature_coinbases.leaves := by
      intro y
      rw [hM]
      apply trieInsert_mem
      intro x hx hk
      exact absurd hk (hnew x ((hc.cover x).mpr (Or.inr hx)))
    constructor
    · intro u
      rw [hU, hS, hmem, List.mem_append, List.mem_singleton, hc.cover]
      tauto
    · intro u hu
      rw [hS] at hu
      rw [hmem]
      rintro (h1 | h1)
      · exact hrow u ((hc.cover u).mpr (Or.inl hu)) h1
      · exact hc.disjoint u hu h1
  · have hcbf : conf.is_coinbase = false := by simpa using hcbc
    obtain ⟨hM, hS⟩ := hreg hv hcbf
    have hmem : ∀ y, y ∈ s.spendables.leaves ↔
        y = ⟨bc.store.unspentsSeq + 1, ⟨hash, out_idx⟩, output,
          if conf.is_coinbase then -conf.count else conf.count, conf.cnf⟩ ∨
        y ∈ bc.spendables.leaves := by
      intro y
      rw [hS]
      apply trieInsert_mem
      intro x hx hk
      exact absurd hk (hnew x ((hc.cover x).mpr (Or.inl hx)))
    constructor
    · intro u
      rw [hU, hM, hmem, List.mem_append, List.mem_singleton, hc.cover]
      tauto
    · intro u hu
      rw [hM]
      rw [hmem] at hu
      rcases hu with h1 | h1
      · intro h2
        exact hrow u ((hc.cover u).mpr (Or.inr h2)) h1
      · exact hc.disjoint u h1

theorem redeem_rows (X : Ext) (bc : BlockChain) (input : Input) (iconf : Confirmation)
    (o : Output) (s : BlockChain) (h : redeem X bc input iconf = .ok o s) (hr : RowsOk bc) :
    RowsOk s ∧ ∀ u ∈ s.store.unspents, u ∈ bc.store.unspents := by
  obtain ⟨coin, _, hu, hs, _⟩ := redeem_ok_inv X bc input iconf o s h
  have hsub : ∀ u ∈ s.store.unspents, u ∈ bc.store.unspents := by
    intro u hu1
    rw [hu] at hu1
    exact (List.mem_filter.mp hu1).1
  refine ⟨⟨?_, ?_, ?_⟩, hsub⟩
  · intro u hu1 v hv1
    exact hr.keys u (hsub u hu1) v (hsub v hv1)
  · intro u hu1 v hv1
    exact hr.ids u (hsub u hu1) v (hsub v hv1)
  · intro u hu1
    rw [hs]
    exact hr.bound u (hsub u hu1)

/-- In trie mode `redeem` keeps the tries in step with the table. -/
theorem redeem_covered (X : Ext) (bc : BlockChain) (input : Input) (iconf : Confirmation)
    (o : Output) (s : BlockChain) (h : redeem X bc input iconf = .ok o s)
    (hv : bc.validation_depth ≠ 0) (hr : RowsOk bc) (hc : Covered bc) : Covered s := by
  obtain ⟨coin, _, hu, _, hM, _, htrie⟩ := redeem_ok_inv X bc input iconf o s h
  obtain ⟨hfind, hS⟩ := htrie hv
  obtain ⟨hcS, hck⟩ := find_key _ _ _ hfind
  have hcU : coin ∈ bc.store.unspents := (hc.cover coin).mpr (Or.inl hcS)
  have hSm : ∀ y, y ∈ s.spendables.leaves ↔ y ∈ bc.spendables.leaves ∧ y.key ≠ input.prevout := by
    intro y
    rw [hS]
    simp [Spendables.remove, List.mem_filter]
  have hUm : ∀ y, y ∈ s.store.unspents ↔ y ∈ bc.store.unspents ∧ y.coin ≠ coin.coin := by
    intro y
    rw [hu]
    simp [List.mem_filter]
  constructor
  · intro u
    rw [hUm, hSm, hM, hc.cover]
    constructor
    · rintro ⟨h1 | h1, h2⟩
      · left
        refine ⟨h1, fun hk => h2 ?_⟩
        have := hr.keys u ((hc.cover u).mpr (Or.inl h1)) coin hcU (by rw [hk, hck])
        rw [this]
      · exact Or.inr h1
    · rintro (⟨h1, h2⟩ | h1)
      · refine ⟨Or.inl h1, fun hk => h2 ?_⟩
        have := hr.ids u ((hc.cover u).mpr (Or.inl h1)) coin hcU hk
        rw [this]; exact hck
      · refine ⟨Or.inr h1, fun hk => ?_⟩
        have := hr.ids u ((hc.cover u).mpr (Or.inr h1)) coin hcU hk
        subst this
        exact hc.disjoint u hcS h1
  · intro u hu1
    rw [hM]
    exact hc.disjoint u ((hSm u).mp hu1).1

theorem maturateOne_covered (b : BlockChain) (cb : Unspent) (hcb : cb ∈ b.store.unspents)
    (hr : RowsOk b) (hc : Covered b) :
    Covered (maturateOne b cb) ∧ (maturateOne b cb).store = b.store := by
  have hSm : ∀ y, y ∈ (maturateOne b cb).spendables.leaves ↔ y = cb ∨ y ∈ b.spendables.leaves := by
    intro y
    apply trieInsert_mem
    intro x hx hk
    exact hr.keys x ((hc.cover x).mpr (Or.inl hx)) cb hcb hk
  have hMm : ∀ y, y ∈ (maturateOne b cb).immature_coinbases.leaves ↔
      y ∈ b.immature_coinbases.leaves ∧ y.key ≠ cb.key := by
    intro y
    simp [maturateOne, Spendables.remove, List.mem_filter]
  refine ⟨⟨?_, ?_⟩, rfl⟩
  · intro u
    rw [hSm, hMm]
    show u ∈ b.store.unspents ↔ _
    rw [hc.cover]
    constructor
    · rintro (h1 | h1)
      · exact Or.inl (Or.inr h1)
      · by_cases hk : u.key = cb.key
        · left; left
          exact hr.keys u ((hc.cover u).mpr (Or.inr h1)) cb hcb hk
        · exact Or.inr ⟨h1, hk⟩
    · rintro ((h1 | h1) | ⟨h1, _⟩)
      · subst h1; exact (hc.cover u).mp hcb
      · exact Or.inl h1
      · exact Or.inr h1
  · intro u hu
    rw [hSm] at hu
    rw [hMm]
    rintro ⟨h1, h2⟩
    rcases hu with h3 | h3
    · subst h3; exact h2 rfl
    · exact hc.disjoint u h3 h1

theorem maturate_covered (bc : BlockChain) (count : Int) (hr : RowsOk bc) (hc : Covered bc) :
    Covered (maturate bc count) ∧ RowsOk (maturate bc count) ∧
    (maturate bc count).store = bc.store := by
  unfold maturate
  split
  · exact ⟨hc, hr, rfl⟩
  · have key : ∀ (l : List Unspent) (b : BlockChain), (∀ u ∈ l, u ∈ bc.store.unspents) →
        b.store = bc.store → Covered b →
        Covered (l.foldl maturateOne b) ∧ (l.foldl maturateOne b).store = bc.store := by
      intro l
      induction l with
      | nil => intro b _ hs hcb; exact ⟨hcb, hs⟩
      | cons cb rest ih =>
        intro b hl hs hcb
        simp only [List.foldl_cons]
        have hrb : RowsOk b := ⟨by rw [hs]; exact hr.keys, by rw [hs]; exact hr.ids,
          by rw [hs]; exact hr.bound⟩
        have h1 := maturateOne_covered b cb (by rw [hs]; exact hl cb (List.mem_cons_self _ _)) hrb hcb
        exact ih _ (fun u hu => hl u (List.mem_cons_of_mem _ hu)) (h1.2.trans hs) h1.1
    have := key (bc.store.unspents.filter (fun u => decide (u.count = -count))) bc
      (fun u hu => (List.mem_filter.mp hu).1) rfl hc
    refine ⟨this.1, ?_, this.2⟩
    exact ⟨by rw [this.2]; exact hr.keys, by rw [this.2]; exact hr.ids,
      by rw [this.2]; exact hr.bound⟩


theorem redeemInputs_covered (X : Ext) (txn : Transaction) (conf : Confirmation)
    (verify strict : Bool) :
    ∀ (ins : List Input) (bc : BlockChain) (in_idx : Nat) (value_in v : Int) (s : BlockChain),
      redeemInputs X txn conf verify strict bc ins in_idx value_in = .ok v s →
        bc.validation_depth ≠ 0 → RowsOk bc → Covered bc →
          RowsOk s ∧ Covered s ∧ ∀ u ∈ s.store.unspents, u ∈ bc.store.unspents := by
  intro ins
  induction ins with
  | nil =>
    intro bc in_idx value_in v s h hv hr hc
    simp only [redeemInputs] at h
    injection h with _ h
    subst h
    exact ⟨hr, hc, fun _ hu => hu⟩
  | cons input rest ih =>
    intro bc in_idx value_in v s h hv hr hc
    simp only [redeemInputs] at h
    have hfr := redeem_frame X bc input conf
    cases hrd : redeem X bc input conf with
    | thrown e s1 => rw [hrd] at h; cases h
    | ok coin bc1 =>
      rw [hrd] at h hfr
      simp only [Res.bind] at h
      obtain ⟨hr1, hsub1⟩ := redeem_rows X bc input conf coin bc1 hrd hr
      have hc1 := redeem_covered X bc input conf coin bc1 hrd hv hr hc
      have hv1 : bc1.validation_depth ≠ 0 := by
        have := hfr.validation_depth
        simp only [Res.state] at this
        rw [this]; exact hv
      by_cases hver : verify = true
      · rw [if_pos hver] at h
        obtain ⟨h1, h2, h3⟩ := ih _ _ _ _ _ h hv1
          (rowsOk_of_coins (a := bc1) rfl hr1) (covered_of_coins (a := bc1) rfl hc1)
        exact ⟨h1, h2, fun u hu => hsub1 u (h3 u hu)⟩
      · rw [if_neg hver] at h
        obtain ⟨h1, h2, h3⟩ := ih _ _ _ _ _ h hv1 hr1 hc1
        exact ⟨h1, h2, fun u hu => hsub1 u (h3 u hu)⟩

theorem issueOutputs_covered (hash : Nat) (conf : Confirmation) (unique : Bool) :
    ∀ (outs : List Output) (bc : BlockChain) (i0 : Nat) (s : BlockChain),
      issueOutputs hash conf unique bc outs i0 = .ok () s →
        bc.validation_depth ≠ 0 → RowsOk bc → Covered bc →
        (∀ u ∈ bc.store.unspents, u.key.hash = hash → u.key.index < i0) →
          RowsOk s ∧ Covered s ∧
          ∀ u ∈ s.store.unspents, u ∈ bc.store.unspents ∨ u.key.hash = hash := by
  intro outs
  induction outs with
  | nil =>
    intro bc i0 s h hv hr hc _
    simp only [issueOutputs] at h
    injection h with _ h
    subst h
    exact ⟨hr, hc, fun _ hu => Or.inl hu⟩
  | cons o rest ih =>
    intro bc i0 s h hv hr hc hnew
    simp only [issueOutputs] at h
    have hfr := issue_frame bc o hash i0 conf unique
    cases hi : issue bc o hash i0 conf unique with
    | thrown e s1 => rw [hi] at h; cases h
    | ok u1 bc1 =>
      rw [hi] at h hfr
      simp only [Res.bind] at h
      have hn : ∀ u ∈ bc.store.unspents, u.key ≠ ⟨hash, i0⟩ := by
        intro u hu hk
        have := hnew u hu (by rw [hk])
        rw [hk] at this
        exact lt_irrefl _ this
      obtain ⟨hr1, hU⟩ := issue_rows bc o hash i0 conf unique bc1 hi hr hn
      have hc1 := issue_covered bc o hash i0 conf unique bc1 hi hv hc hn hU
      have hv1 : bc1.validation_depth ≠ 0 := by
        have := hfr.validation_depth
        simp only [Res.state] at this
        rw [this]; exact hv
      have hnew1 : ∀ u ∈ bc1.store.unspents, u.key.hash = hash → u.key.index < i0 + 1 := by
        intro u hu hk
        rw [hU] at hu
        rcases List.mem_append.mp hu with h1 | h1
        · exact Nat.lt_succ_of_lt (hnew u h1 hk)
        · simp only [List.mem_singleton] at h1
          subst h1
          exact Nat.lt_succ_self _
      obtain ⟨h1, h2, h3⟩ := ih bc1 (i0 + 1) s h hv1 hr1 hc1 hnew1
      refine ⟨h1, h2, fun u hu => ?_⟩
      rcases h3 u hu with h4 | h4
      · rw [hU] at h4
        rcases List.mem_append.mp h4 with h5 | h5
        · exact Or.inl h5
        · simp only [List.mem_singleton] at h5
          subst h5
          exact Or.inr rfl
      · exact Or.inr h4

theorem postTransaction_covered (X : Ext) (chain : Chain) (bc : BlockChain) (txn : Transaction)
    (fees min_fee : Int) (blk : BlockIterator) (idx : Int) (verify : Bool) (v : Int)
    (s : BlockChain)
    (h : postTransaction X chain bc txn fees min_fee blk idx verify = .ok v s)
    (hv : bc.validation_depth ≠ 0) (hr : RowsOk bc) (hc : Covered bc)
    (hnew : ∀ u ∈ bc.store.unspents, u.key.hash ≠ X.txHash txn) :
    RowsOk s ∧ Covered s ∧
    ∀ u ∈ s.store.unspents, u ∈ bc.store.unspents ∨ u.key.hash = X.txHash txn := by
  unfold postTransaction at h
  dsimp only at h
  have hc0 := confirmTransaction_coins bc txn blk idx
  have hf0 := confirmTransaction_frame bc txn blk idx
  have hU0 : (confirmTransaction bc txn blk idx).2.store.unspents = bc.store.unspents :=
    congrArg Prod.fst hc0
  have hfr := redeemInputs_frame X txn ⟨txn, (confirmTransaction bc txn blk idx).1, blk.count⟩ verify
      (decide (blk.ref.time > chain.timeStampBIP0016)) (confirmTransaction bc txn blk idx).2
      txn.inputs (confirmTransaction bc txn blk idx).2 0 0 rfl
  cases hrd : redeemInputs X txn ⟨txn, (confirmTransaction bc txn blk idx).1, blk.count⟩ verify
      (decide (blk.ref.time > chain.timeStampBIP0016)) (confirmTransaction bc txn blk idx).2
      txn.inputs 0 0 with
  | thrown e s1 => rw [hrd] at h; cases h
  | ok value_in bc2 =>
    rw [hrd] at h hfr
    simp only [Res.bind] at h
    have hv0 : (confirmTransaction bc txn blk idx).2.validation_depth ≠ 0 := by
      rw [hf0.validation_depth]; exact hv
    obtain ⟨hr2, hc2, hsub2⟩ := redeemInputs_covered X txn _ verify _ txn.inputs _ 0 0 value_in bc2
      hrd hv0 (rowsOk_of_coins hc0 hr) (covered_of_coins hc0 hc)
    have hv2 : bc2.validation_depth ≠ 0 := by
      have := hfr.validation_depth
      simp only [Res.state] at this
      rw [this]; exact hv0
    split at h
    · cases h
    · split at h
      · cases h
      · split at h
        · cases h
        · cases hi : issueOutputs (X.txHash txn)
            ⟨txn, (confirmTransaction bc txn blk idx).1, blk.count⟩ true bc2 txn.outputs 0 with
          | thrown e s1 => rw [hi] at h; cases h
          | ok u bc3 =>
            rw [hi] at h
            simp only [Res.bind] at h
            injection h with _ h
            subst h
            obtain ⟨h1, h2, h3⟩ := issueOutputs_covered _ _ _ txn.outputs bc2 0 bc3 hi hv2 hr2 hc2
              (fun u hu hk => absurd hk (hnew u (hU0 ▸ hsub2 u hu)))
            refine ⟨h1, h2, fun u hu => ?_⟩
            rcases h3 u hu with h4 | h4
            · exact Or.inl (hU0 ▸ hsub2 u h4)
            · exact Or.inr h4


theorem attachLoop_covered (X : Ext) (chain : Chain) (blk : BlockIterator) (min_fee : Int) :
    ∀ (txs : List Transaction) (bc : BlockChain) (idx fees : Int) (verify : Bool)
      (unconfirmed : Txns) (confirmed : Hashes) (r : Int × Txns × Hashes) (s : BlockChain),
      attachLoop X chain blk min_fee bc txs idx fees verify unconfirmed confirmed = .ok r s →
        bc.validation_depth ≠ 0 → RowsOk bc → Covered bc → (txs.map X.txHash).Nodup →
        (∀ tx ∈ txs, ∀ u ∈ bc.store.unspents, u.key.hash ≠ X.txHash tx) →
          RowsOk s ∧ Covered s ∧
          ∀ u ∈ s.store.unspents, u ∈ bc.store.unspents ∨ ∃ tx ∈ txs, u.key.hash = X.txHash tx := by
  intro txs
  induction txs with
  | nil =>
    intro bc idx fees verify unconfirmed confirmed r s h hv hr hc _ _
    simp only [attachLoop] at h
    injection h with _ h
    subst h
    exact ⟨hr, hc, fun _ hu => Or.inl hu⟩
  | cons txn rest ih =>
    intro bc idx fees verify unconfirmed confirmed r s h hv hr hc hnd hnew
    simp only [attachLoop] at h
    generalize hv1 : (if ((mapFind (X.txHash txn) unconfirmed).isSome || bc.claims.have_ (X.txHash txn)) = true
      then false else verify) = verify1 at h
    have hfr := postTransaction_frame X chain bc txn fees min_fee blk idx verify1
    cases hpt : postTransaction X chain bc txn fees min_fee blk idx verify1 with
    | thrown e s1 => rw [hpt] at h; cases h
    | ok fees1 bc1 =>
      rw [hpt] at h hfr
      simp only [Res.bind] at h
      obtain ⟨hr1, hc1, hsub1⟩ := postTransaction_covered X chain bc txn fees min_fee blk idx verify1
        fees1 bc1 hpt hv hr hc (hnew txn (List.mem_cons_self _ _))
      have hvd1 : bc1.validation_depth ≠ 0 := by
        have := hfr.validation_depth
        simp only [Res.state] at this
        rw [this]; exact hv
      simp only [List.map_cons, List.nodup_cons] at hnd
      obtain ⟨h1, h2, h3⟩ := ih bc1 _ _ _ _ _ r s h hvd1 hr1 hc1 hnd.2 (by
        intro tx htx u hu
        rcases hsub1 u hu with h4 | h4
        · exact hnew tx (List.mem_cons_of_mem _ htx) u h4
        · rw [h4]
          intro heq
          exact hnd.1 (List.mem_map.mpr ⟨tx, htx, heq.symm⟩))
      refine ⟨h1, h2, fun u hu => ?_⟩
      rcases h3 u hu with h4 | ⟨tx, htx, h4⟩
      · rcases hsub1 u h4 with h5 | h5
        · exact Or.inl h5
        · exact Or.inr ⟨txn, List.mem_cons_self _ _, h5⟩
      · exact Or.inr ⟨tx, List.mem_cons_of_mem _ htx, h4⟩

theorem postSubsidy_covered (X : Ext) (chain : Chain) (bc : BlockChain) (txn : Transaction)
    (blk : BlockIterator) (fees : Int) (s : BlockChain)
    (h : postSubsidy X chain bc txn blk fees = .ok () s)
    (hv : bc.validation_depth ≠ 0) (hr : RowsOk bc) (hc : Covered bc)
    (hnew : ∀ u ∈ bc.store.unspents, u.key.hash ≠ X.txHash txn) :
    RowsOk s ∧ Covered s := by
  unfold postSubsidy at h
  split at h
  · rename_i input hin
    split at h
    · cases h
    · dsimp only at h
      have hc1 := confirmCoinbase_coins bc txn blk
      have hf1 := confirmCoinbase_frame bc txn blk
      cases hcc : confirmCoinbase bc txn blk with
      | thrown e s1 => rw [hcc] at h; cases h
      | ok u1 bc1 =>
        rw [hcc] at h hc1 hf1
        simp only [Res.bind] at h
        split at h
        · cases h
        · have hc2 := archiveCoinbase_coins bc1 input blk (chain.subsidy blk.height + fees)
          have hf2 := archiveCoinbase_frame bc1 input blk (chain.subsidy blk.height + fees)
          cases hac : archiveCoinbase bc1 input blk (chain.subsidy blk.height + fees) with
          | thrown e s2 => rw [hac] at h; cases h
          | ok u2 bc2 =>
            rw [hac] at h hc2 hf2
            simp only [Res.bind] at h
            have hco : coinsOf bc2 = coinsOf bc := hc2.trans hc1
            have hv2 : bc2.validation_depth ≠ 0 := by
              have := hf2.validation_depth.trans hf1.validation_depth
              simp only [Res.state] at this
              rw [this]; exact hv
            have hU2 : bc2.store.unspents = bc.store.unspents := congrArg Prod.fst hco
            cases hio : issueOutputs (X.txHash txn) ⟨txn, -blk.count, blk.count⟩
                (decide (blk.ref.time > chain.timeStampBIP0030)) bc2 txn.outputs 0 with
            | thrown e s3 => rw [hio] at h; cases h
            | ok u3 bc3 =>
              rw [hio] at h
              simp only [Res.bind] at h
              obtain ⟨hr3, hc3, _⟩ := issueOutputs_covered _ _ _ txn.outputs bc2 0 bc3 hio hv2
                (rowsOk_of_coins hco hr) (covered_of_coins hco hc)
                (fun u hu hk => absurd hk (hnew u (hU2 ▸ hu)))
              split at h
              · injection h with _ h
                subst h
                have := maturate_covered bc3 (blk.count - COINBASE_MATURITY) hr3 hc3
                exact ⟨this.2.1, this.1⟩
              · injection h with _ h
                subst h
                exact ⟨hr3, hc3⟩
  · cases h

/-- In trie mode a normal return of `attach` keeps the tries in step with the
table, when no transaction of the block has the hash of an unspent outpoint or of
another transaction of the block. -/
theorem attach_covered (X : Ext) (chain : Chain) (bc : BlockChain) (blk : BlockIterator)
    (unconfirmed : Txns) (confirmed : Hashes) (r : Txns × Hashes) (s : BlockChain)
    (block : Block)
    (h : attach X chain bc blk unconfirmed confirmed = .ok r s)
    (hb : mapFind blk.ref.hash bc.branches = some block)
    (hv : bc.validation_depth ≠ 0) (hr : RowsOk bc) (hc : Covered bc)
    (hnd : (block.txs.map X.txHash).Nodup)
    (hnew : ∀ tx ∈ block.txs, ∀ u ∈ bc.store.unspents, u.key.hash ≠ X.txHash tx) :
    RowsOk s ∧ Covered s := by
  unfold attach at h
  rw [branchAt_some bc _ block hb] at h
  dsimp only at h
  split at h
  · cases h
  · split at h
    · cases h
    · have hc1 := insertBlockHeader_coins X { bc with verifier := bc.verifier.reset } blk.count block
      have hf1 := insertBlockHeader_frame X { bc with verifier := bc.verifier.reset } blk.count block
      cases hih : insertBlockHeader X { bc with verifier := bc.verifier.reset } blk.count block with
      | thrown e s1 => rw [hih] at h; cases h
      | ok u1 bc2 =>
        rw [hih] at h hc1 hf1
        simp only [Res.bind] at h
        have hco : coinsOf bc2 = coinsOf bc := hc1
        have hU2 : bc2.store.unspents = bc.store.unspents := congrArg Prod.fst hco
        have hv2 : bc2.validation_depth ≠ 0 := by
          have := hf1.validation_depth
          simp only [Res.state] at this
          rw [this]; exact hv
        generalize hvf : (decide (bc2.verification_depth ≠ 0) &&
          decide (blk.height > (bc2.verification_depth : Int))) = vf at h
        have hf2 := attachLoop_frame X chain blk 0 bc2 block.txs.tail bc2 1 0 vf unconfirmed
          confirmed rfl
        cases hal : attachLoop X chain blk 0 bc2 block.txs.tail 1 0 vf unconfirmed confirmed with
        | thrown e s2 => rw [hal] at h; cases h
        | ok r3 bc3 =>
          rw [hal] at h hf2
          simp only [Res.bind] at h
          have hv3 : bc3.validation_depth ≠ 0 := by
            have := hf2.validation_depth
            simp only [Res.state] at this
            rw [this]; exact hv2
          cases hps : postSubsidy X chain bc3 (block.txs.headD ⟨1, 0, [], []⟩) blk r3.1 with
          | thrown e s3 => rw [hps] at h; cases h
          | ok u4 bc4 =>
            rw [hps] at h
            simp only [Res.bind] at h
            split at h
            · cases h
            · injection h with _ h
              subst h
              cases htxs : block.txs with
              | nil =>
                rw [htxs] at hps
                simp [postSubsidy] at hps
              | cons cb rest =>
                rw [htxs] at hps hal hnd hnew
                simp only [List.tail_cons] at hal
                simp only [List.headD_cons] at hps
                simp only [List.map_cons, List.nodup_cons] at hnd
                obtain ⟨hr3, hc3, hsub3⟩ := attachLoop_covered X chain blk 0 rest bc2 1 0 vf
                  unconfirmed confirmed r3 bc3 hal hv2 (rowsOk_of_coins hco hr)
                  (covered_of_coins hco hc) hnd.2
                  (fun tx htx u hu => hnew tx (List.mem_cons_of_mem _ htx) u (hU2 ▸ hu))
                refine postSubsidy_covered X chain bc3 cb blk r3.1 _ hps hv3 hr3 hc3 ?_
                intro u hu
                rcases hsub3 u hu with h4 | ⟨tx, htx, h4⟩
                · exact hnew cb (List.mem_cons_self _ _) u (hU2 ▸ h4)
                · rw [h4]
                  intro heq
                  exact hnd.1 (List.mem_map.mpr ⟨tx, htx, heq⟩)


theorem trieInsert_sub (u y : Unspent) (l : List Unspent) (h : y ∈ trieInsert u l) :
    y = u ∨ y ∈ l := by
  induction l with
  | nil => simpa [trieInsert] using h
  | cons v rest ih =>
    unfold trieInsert at h
    split at h
    · rcases List.mem_cons.mp h with h1 | h1
      · exact Or.inl h1
      · exact Or.inr (List.mem_cons_of_mem _ h1)
    · split at h
      · rcases List.mem_cons.mp h with h1 | h1
        · exact Or.inl h1
        · exact Or.inr h1
      · rcases List.mem_cons.mp h with h1 | h1
        · exact Or.inr (h1 ▸ List.mem_cons_self _ _)
        · rcases ih h1 with h2 | h2
          · exact Or.inl h2
          · exact Or.inr (List.mem_cons_of_mem _ h2)

/-- Loading rows into a trie: the leaves are the former leaves and the rows, when
leaves and rows with the same outpoint are equal. -/
theorem foldl_insert_mem (y : Unspent) :
    ∀ (l : List Unspent) (t : Spendables),
      (∀ a ∈ t.leaves ++ l, ∀ b ∈ t.leaves ++ l, a.key = b.key → a = b) →
        (y ∈ (l.foldl (fun t u => t.insert u) t).leaves ↔ y ∈ t.leaves ∨ y ∈ l) := by
  intro l
  induction l with
  | nil => intro t _; simp
  | cons u rest ih =>
    intro t hc
    simp only [List.foldl_cons]
    have hm : ∀ z, z ∈ (t.insert u).leaves ↔ z = u ∨ z ∈ t.leaves := by
      intro z
      apply trieInsert_mem
      intro x hx hk
      exact hc x (List.mem_append_left _ hx) u
        (List.mem_append_right _ (List.mem_cons_self _ _)) hk
    rw [ih (t.insert u) ?_, hm, List.mem_cons]
    · tauto
    · intro a ha b hb hab
      have conv : ∀ z, z ∈ (t.insert u).leaves ++ rest → z ∈ t.leaves ++ u :: rest := by
        intro z hz
        rcases List.mem_append.mp hz with h1 | h1
        · rcases (hm z).mp h1 with h2 | h2
          · exact List.mem_append_right _ (h2 ▸ List.mem_cons_self _ _)
          · exact List.mem_append_left _ h2
        · exact List.mem_append_right _ (List.mem_cons_of_mem _ h1)
      exact hc a (conv a ha) b (conv b hb) hab

/-- A normal return of `postSubsidy`: the confirmation and the archive row leave
the coins alone, then the outputs are issued, then `maturate` may run. -/
theorem postSubsidy_ok_inv (X : Ext) (chain : Chain) (bc : BlockChain) (txn : Transaction)
    (blk : BlockIterator) (fees : Int) (s : BlockChain)
    (h : postSubsidy X chain bc txn blk fees = .ok () s) :
    ∃ bc2 bc3, coinsOf bc2 = coinsOf bc ∧ bc2.validation_depth = bc.validation_depth ∧
      issueOutputs (X.txHash txn) ⟨txn, -blk.count, blk.count⟩
        (decide (blk.ref.time > chain.timeStampBIP0030)) bc2 txn.outputs 0 = .ok () bc3 ∧
      (s = bc3 ∨ (blk.count > COINBASE_MATURITY ∧ s = maturate bc3 (blk.count - COINBASE_MATURITY))) := by
  unfold postSubsidy at h
  split at h
  · rename_i input hin
    split at h
    · cases h
    · dsimp only at h
      have hc1 := confirmCoinbase_coins bc txn blk
      have hf1 := confirmCoinbase_frame bc txn blk
      cases hcc : confirmCoinbase bc txn blk with
      | thrown e s1 => rw [hcc] at h; cases h
      | ok u1 bc1 =>
        rw [hcc] at h hc1 hf1
        simp only [Res.bind] at h
        split at h
        · cases h
        · have hc2 := archiveCoinbase_coins bc1 input blk (chain.subsidy blk.height + fees)
          have hf2 := archiveCoinbase_frame bc1 input blk (chain.subsidy blk.height + fees)
          cases hac : archiveCoinbase bc1 input blk (chain.subsidy blk.height + fees) with
          | thrown e s2 => rw [hac] at h; cases h
          | ok u2 bc2 =>
            rw [hac] at h hc2 hf2
            simp only [Res.bind] at h
            cases hio : issueOutputs (X.txHash txn) ⟨txn, -blk.count, blk.count⟩
                (decide (blk.ref.time > chain.timeStampBIP0030)) bc2 txn.outputs 0 with
            | thrown e s3 => rw [hio] at h; cases h
            | ok u3 bc3 =>
              rw [hio] at h
              simp only [Res.bind] at h
              refine ⟨bc2, bc3, hc2.trans hc1, hf2.validation_depth.trans hf1.validation_depth,
                hio, ?_⟩
              split at h
              · rename_i hm
                injection h with _ h
                exact Or.inr ⟨hm.2, h.symm⟩
              · injection h with _ h
                exact Or.inl h.symm
  · cases h

/-- A normal return of `attach`: the header row leaves the coins alone, then the
transaction loop and `postSubsidy` have returned normally. -/
theorem attach_ok_inv (X : Ext) (chain : Chain) (bc : BlockChain) (blk : BlockIterator)
    (unconfirmed : Txns) (confirmed : Hashes) (r : Txns × Hashes) (s : BlockChain) (block : Block)
    (h : attach X chain bc blk unconfirmed confirmed = .ok r s)
    (hb : mapFind blk.ref.hash bc.branches = some block) :
    ∃ bc2 vf r3 bc3, coinsOf bc2 = coinsOf bc ∧ bc2.validation_depth = bc.validation_depth ∧
      attachLoop X chain blk 0 bc2 block.txs.tail 1 0 vf unconfirmed confirmed = .ok r3 bc3 ∧
      postSubsidy X chain bc3 (block.txs.headD ⟨1, 0, [], []⟩) blk r3.1 = .ok () s := by
  unfold attach at h
  rw [branchAt_some bc _ block hb] at h
  dsimp only at h
  split at h
  · cases h
  · split at h
    · cases h
    · have hc1 := insertBlockHeader_coins X { bc with verifier := bc.verifier.reset } blk.count block
      have hf1 := insertBlockHeader_frame X { bc with verifier := bc.verifier.reset } blk.count block
      cases hih : insertBlockHeader X { bc with verifier := bc.verifier.reset } blk.count block with
      | thrown e s1 => rw [hih] at h; cases h
      | ok u1 bc2 =>
        rw [hih] at h hc1 hf1
        simp only [Res.bind] at h
        generalize hvf : (decide (bc2.verification_depth ≠ 0) &&
          decide (blk.height > (bc2.verification_depth : Int))) = vf at h
        cases hal : attachLoop X chain blk 0 bc2 block.txs.tail 1 0 vf unconfirmed confirmed with
        | thrown e s2 => rw [hal] at h; cases h
        | ok r3 bc3 =>
          rw [hal] at h
          simp only [Res.bind] at h
          cases hps : postSubsidy X chain bc3 (block.txs.headD ⟨1, 0, [], []⟩) blk r3.1 with
          | thrown e s3 => rw [hps] at h; cases h
          | ok u4 bc4 =>
            rw [hps] at h
            simp only [Res.bind] at h
            split at h
            · cases h
            · injection h with _ h
              subst h
              exact ⟨bc2, vf, r3, bc3, hc1, hf1.validation_depth, hal, hps⟩


/-- The outputs of a coinbase issued into a state whose spendables trie is empty,
under either value of `_validation_depth`: the spendables trie stays empty, the
leaves of the trie of immature coinbases are rows of `Unspents`, and the rows keep
a count below the bound. -/
theorem issueOutputs_genesis (hash : Nat) (conf : Confirmation) (unique : Bool) (c : Int)
    (hcb : conf.is_coinbase = true) (hcount : -conf.count < c) :
    ∀ (outs : List Output) (bc : BlockChain) (i0 : Nat) (s : BlockChain),
      issueOutputs hash conf unique bc outs i0 = .ok () s →
        RowsOk bc → bc.spendables.leaves = [] →
        (∀ u ∈ bc.immature_coinbases.leaves, u ∈ bc.store.unspents) →
        (∀ u ∈ bc.store.unspents, u.count < c) →
        (∀ u ∈ bc.store.unspents, u.key.hash = hash → u.key.index < i0) →
          RowsOk s ∧ s.spendables.leaves = [] ∧
          (∀ u ∈ s.immature_coinbases.leaves, u ∈ s.store.unspents) ∧
          (∀ u ∈ s.store.unspents, u.count < c) := by
  intro outs
  induction outs with
  | nil =>
    intro bc i0 s h hr hS hM hC _
    simp only [issueOutputs] at h
    injection h with _ h
    subst h
    exact ⟨hr, hS, hM, hC⟩
  | cons o rest ih =>
    intro bc i0 s h hr hS hM hC hnew
    simp only [issueOutputs] at h
    cases hi : issue bc o hash i0 conf unique with
    | thrown e s1 => rw [hi] at h; cases h
    | ok u1 bc1 =>
      rw [hi] at h
      simp only [Res.bind] at h
      have hn : ∀ u ∈ bc.store.unspents, u.key ≠ ⟨hash, i0⟩ := by
        intro u hu hk
        have := hnew u hu (by rw [hk])
        rw [hk] at this
        exact lt_irrefl _ this
      obtain ⟨hr1, hU⟩ := issue_rows bc o hash i0 conf unique bc1 hi hr hn
      obtain ⟨coin, st, hins, hst, _, h0, h1, _⟩ := issue_ok_inv bc o hash i0 conf unique bc1 hi
      have hcoin : coin = bc.store.unspentsSeq + 1 := (insertUnspent_some _ _ _ _ _ _ _ _ hins).1
      subst hcoin
      have htries : bc1.spendables.leaves = [] ∧
          ∀ u ∈ bc1.immature_coinbases.leaves, u ∈ bc1.store.unspents := by
        by_cases hv : bc.validation_depth = 0
        · obtain ⟨hs1, hm1⟩ := h0 hv
          rw [hs1, hm1, hU]
          exact ⟨hS, fun u hu => List.mem_append_left _ (hM u hu)⟩
        · obtain ⟨hs1, hm1⟩ := h1 hv hcb
          rw [hs1, hm1, hU]
          refine ⟨hS, fun u hu => ?_⟩
          rcases trieInsert_sub _ _ _ hu with h2 | h2
          · rw [h2]; exact List.mem_append_right _ (List.mem_singleton.mpr rfl)
          · exact List.mem_append_left _ (hM u h2)
      have hC1 : ∀ u ∈ bc1.store.unspents, u.count < c := by
        intro u hu
        rw [hU] at hu
        rcases List.mem_append.mp hu with h2 | h2
        · exact hC u h2
        · simp only [List.mem_singleton] at h2
          subst h2
          simp only [hcb, if_true]
          exact hcount
      have hnew1 : ∀ u ∈ bc1.store.unspents, u.key.hash = hash → u.key.index < i0 + 1 := by
        intro u hu hk
        rw [hU] at hu
        rcases List.mem_append.mp hu with h2 | h2
        · exact Nat.lt_succ_of_lt (hnew u h2 hk)
        · simp only [List.mem_singleton] at h2
          subst h2
          exact Nat.lt_succ_self _
      exact ih bc1 (i0 + 1) s h hr1 htries.1 htries.2 hC1 hnew1

/-- The engine constructed over the empty database, for a genesis block that
holds one transaction: in trie mode the rows of `Unspents` are the leaves of the
two tries. -/
theorem create_covered (X : Ext) (chain : Chain) (unspentIndex : Bool) (vd0 : Nat)
    (cb : Transaction) (s : BlockChain)
    (hg : chain.genesisBlock.txs = [cb])
    (h : BlockChain.create X chain (Store.empty unspentIndex) vd0 = .ok () s)
    (hv : 0 < s.validation_depth) : RowsOk s ∧ Covered s := by
  obtain ⟨r, s1, hatt, _, _, hstore, hidx, hnoidx⟩ :=
    create_fresh X chain (Store.empty unspentIndex) vd0 s rfl h
  have hi : s1.store.unspentIndex = false := by
    by_cases hi : s1.store.unspentIndex = true
    · have := (hidx hi).1
      rw [this] at hv
      exact absurd hv (lt_irrefl 0)
    · simpa using hi
  obtain ⟨_, hS, hM⟩ := hnoidx hi
  obtain ⟨bc2, vf, r3, bc3, hco2, _, hal, hps⟩ := attach_ok_inv X chain _ _ [] [] r s1
    chain.genesisBlock hatt (mapFind_mapInsert _ _ _)
  rw [hg] at hal hps
  simp only [List.tail_cons, attachLoop] at hal
  injection hal with _ hal
  subst hal
  simp only [List.headD_cons] at hps
  obtain ⟨bc4, bc5, hco4, _, hio, hfin⟩ := postSubsidy_ok_inv X chain bc2 cb _ r3.1 s1 hps
  have hcount : BlockIterator.count ⟨genesisRef X chain, 0⟩ = 1 := by
    simp [BlockIterator.count]
  have hs1 : s1 = bc5 := by
    rcases hfin with h1 | ⟨h1, _⟩
    · exact h1
    · rw [hcount] at h1
      exact absurd h1 (by decide)
  subst hs1
  have hco : coinsOf bc4 = coinsOf (genesisEntered X chain (Store.empty unspentIndex) vd0) :=
    hco4.trans hco2
  simp only [coinsOf, genesisEntered, Store.empty, Spendables.empty, Prod.mk.injEq] at hco
  obtain ⟨hU4, hq4, hS4, hM4⟩ := hco
  have hr4 : RowsOk bc4 := by
    constructor <;> rw [hU4] <;> intro u hu <;> cases hu
  obtain ⟨hr5, hS5, hM5, hC5⟩ := issueOutputs_genesis (X.txHash cb)
    ⟨cb, -BlockIterator.count ⟨genesisRef X chain, 0⟩, BlockIterator.count ⟨genesisRef X chain, 0⟩⟩
    _ 99 (by rw [hcount]; simp [Confirmation.is_coinbase])
    (by rw [hcount]; show (-1 : Int) < 99; decide) cb.outputs bc4 0 s1 hio hr4 hS4
    (by rw [hM4]; intro u hu; cases hu) (by rw [hU4]; intro u hu; cases hu)
    (by rw [hU4]; intro u hu; cases hu)
  have hge : s1.store.unspents.filter (fun u => decide (u.count ≥ 99)) = [] := by
    rw [List.filter_eq_nil_iff]
    intro u hu
    have := hC5 u hu
    simp only [ge_iff_le, decide_eq_true_eq, not_le]
    exact this
  have hlt : s1.store.unspents.filter (fun u => decide (u.count < 99)) = s1.store.unspents := by
    rw [List.filter_eq_self]
    intro u hu
    simpa using hC5 u hu
  rw [hge] at hS
  rw [hlt] at hM
  simp only [List.foldl_nil] at hS
  have hrs : RowsOk s := ⟨by rw [hstore]; exact hr5.keys, by rw [hstore]; exact hr5.ids,
    by rw [hstore]; exact hr5.bound⟩
  refine ⟨hrs, ⟨?_, ?_⟩⟩
  · intro u
    rw [hS, hS5, hM, hstore]
    rw [foldl_insert_mem u s1.store.unspents s1.immature_coinbases ?_]
    · constructor
      · intro hu; exact Or.inr (Or.inr hu)
      · rintro (h1 | h1 | h1)
        · cases h1
        · exact hM5 u h1
        · exact h1
    · intro a ha b hb hab
      have conv : ∀ z, z ∈ s1.immature_coinbases.leaves ++ s1.store.unspents →
          z ∈ s1.store.unspents := by
        intro z hz
        rcases List.mem_append.mp hz with h1 | h1
        · exact hM5 z h1
        · exact h1
      exact hr5.keys a (conv a ha) b (conv b hb) hab
  · intro u hu
    rw [hS, hS5] at hu
    cases hu


theorem append_ok_validation_depth (X : Ext) (chain : Chain) (bc : BlockChain) (block : Block)
    (s : BlockChain) (h : append X chain bc block = .ok () s) :
    s.validation_depth = bc.validation_depth := by
  obtain ⟨prev, _, hcase⟩ := append_ok_inv X chain bc block s h
  rcases hcase with ⟨_, hs⟩ | ⟨r, s1, _, htry, hcom⟩
  · rw [hs]
  · have h1 : SameFrame _ (Res.ok r s1).state := htry ▸ appendTry_frame X chain _ block _ prev.height
    have h2 := (appendCommitted_coins X chain s1 r.1 r.2).2
    rw [hcom] at h2
    exact h2.trans h1.validation_depth

/-- In trie mode a successful `append` that detaches no block and issues only new
outpoints keeps the tries in step with the table. -/
theorem append_covered (X : Ext) (chain : Chain) (bc : BlockChain) (block : Block)
    (s : BlockChain) (h : append X chain bc block = .ok () s)
    (ht : ExtendsTip X bc block) (hn : NewOutpoints X bc block)
    (hv : bc.validation_depth ≠ 0) (hr : RowsOk bc) (hc : Covered bc) :
    RowsOk s ∧ Covered s := by
  obtain ⟨prev, hprev, hcase⟩ := append_ok_inv X chain bc block s h
  rcases hcase with ⟨_, hs⟩ | ⟨r, s1, hne, htry, hcom⟩
  · rw [hs]
    exact ⟨rowsOk_of_coins (a := bc) rfl hr, covered_of_coins (a := bc) rfl hc⟩
  · obtain ⟨hdel, hins⟩ := ht prev hprev
    have hins1 := hins.resolve_left hne
    have hch : (bc.tree.insert X.work
        ⟨block.version, X.blockHash block, prev.ref.hash, block.time, block.bits⟩).2 =
          ⟨[], [X.blockHash block]⟩ :=
      calc (bc.tree.insert X.work
              ⟨block.version, X.blockHash block, prev.ref.hash, block.time, block.bits⟩).2
          = ⟨(bc.tree.insert X.work
              ⟨block.version, X.blockHash block, prev.ref.hash, block.time, block.bits⟩).2.deleted,
             (bc.tree.insert X.work
              ⟨block.version, X.blockHash block, prev.ref.hash, block.time, block.bits⟩).2.inserted⟩ := rfl
        _ = ⟨[], [X.blockHash block]⟩ := by rw [hdel, hins1]
    rw [hch] at htry
    obtain ⟨blk, r1, s2, hfind, hatt, hcoins, _⟩ := appendTry_extend X chain _ block _ r s1 htry
    have hhash := (BlockTree.find_some_ref X.work _ _ blk hfind).2
    obtain ⟨hr2, hc2⟩ := attach_covered X chain _ blk [] [] r1 s2 block hatt
      (by rw [hhash]; exact mapFind_mapInsert _ _ _) hv
      (rowsOk_of_coins (a := bc) rfl hr) (covered_of_coins (a := bc) rfl hc) hn.1 hn.2
    have h3 := (appendCommitted_coins X chain s1 r.1 r.2).1
    rw [hcom] at h3
    exact ⟨rowsOk_of_coins (h3.trans hcoins) hr2, covered_of_coins (h3.trans hcoins) hc2⟩

theorem Extended.covered (X : Ext) (chain : Chain) (s : BlockChain) (h : Extended X chain s) :
    0 < s.validation_depth → RowsOk s ∧ Covered s := by
  induction h with
  | fresh unspentIndex vd0 cb s hg hc => exact create_covered X chain unspentIndex vd0 cb s hg hc
  | step s block s1 _ ht hn hok ih =>
    intro hv
    have hvd := append_ok_validation_depth X chain s block s1 hok
    rw [hvd] at hv
    obtain ⟨hr, hc⟩ := ih hv
    exact append_covered X chain s block s1 hok ht hn (Nat.pos_iff_ne_zero.mp hv) hr hc

theorem getLastD_eq_getD (l : List Int) (hl : l ≠ []) :
    l.getLastD 0 = l.getD (l.length - 1) 0 := by
  induction l with
  | nil => exact absurd rfl hl
  | cons a rest ih =>
    cases rest with
    | nil => rfl
    | cons b rest2 =>
      have := ih (by simp)
      simp only [List.getLastD_cons, List.length_cons, Nat.add_sub_cancel, List.getD_cons_succ] at this ⊢
      simpa using this

theorem LocatorInv.push (l : List Int) (step : Int) (hl : l ≠ [])
    (hstep : step = 2 ^ (l.length - 10)) (hinv : LocatorInv l)
    (hgo : ¬ l.getLastD 0 - step ≤ 0) :
    LocatorInv (l ++ [l.getLastD 0 - step]) := by
  obtain ⟨hp, hlast, hpos, hgap⟩ := hinv
  have hs : (0 : Int) < step := by rw [hstep]; positivity
  refine ⟨?_, ?_, ?_, ?_⟩
  · rw [List.pairwise_append]
    refine ⟨hp, List.pairwise_singleton _ _, ?_⟩
    intro a ha b hb
    simp only [List.mem_singleton] at hb
    subst hb
    have := hlast a ha
    show a > _
    omega
  · intro a ha
    rw [List.getLastD_concat]
    rcases List.mem_append.mp ha with h1 | h1
    · have := hlast a h1; omega
    · simp only [List.mem_singleton] at h1
      omega
  · intro a ha
    cases l with
    | nil => exact absurd rfl hl
    | cons x rest =>
      simp only [List.cons_append, List.tail_cons, List.mem_append, List.mem_singleton] at ha
      rcases ha with h1 | h1
      · exact hpos a h1
      · omega
  · intro i hi
    simp only [List.length_append, List.length_singleton] at hi
    by_cases h1 : i + 1 < l.length
    · rw [List.getD_append _ _ _ _ (by omega), List.getD_append _ _ _ _ h1]
      exact hgap i h1
    · have hi1 : i + 1 = l.length := by omega
      rw [List.getD_append _ _ _ _ (by omega), List.getD_append_right _ _ _ _ (by omega)]
      have h2 : i + 1 - l.length = 0 := by omega
      rw [h2, getLastD_eq_getD l hl]
      have h3 : l.length - 1 = i := by omega
      rw [h3, hstep]
      have h4 : l.length - 10 = i - 9 := by omega
      rw [h4]
      simp

theorem locatorHeights_inv :
    ∀ (fuel : Nat) (heights : List Int) (step : Int),
      heights ≠ [] → step = 2 ^ (heights.length - 10) → LocatorInv heights →
      (heights.getLastD 0).toNat < fuel →
      LocatorInv (locatorHeights fuel heights step) ∧
      (locatorHeights fuel heights step).head? = heights.head? ∧
      (locatorHeights fuel heights step).getLastD 0 -
        2 ^ ((locatorHeights fuel heights step).length - 10) ≤ 0 ∧
      ∀ fuel1, fuel ≤ fuel1 →
        locatorHeights fuel1 heights step = locatorHeights fuel heights step := by
  intro fuel
  induction fuel with
  | zero => intro heights step _ _ _ hf; exact absurd hf (Nat.not_lt_zero _)
  | succ fuel ih =>
    intro heights step hne hstep hinv hf
    by_cases hstop : heights.getLastD 0 - step ≤ 0
    · have hR : locatorHeights (fuel + 1) heights step = heights := by
        simp only [locatorHeights]; rw [if_pos hstop]
      rw [hR]
      refine ⟨hinv, rfl, ?_, ?_⟩
      · rw [← hstep]; exact hstop
      · intro fuel1 hle
        cases fuel1 with
        | zero => exact absurd hle (by omega)
        | succ f1 => simp only [locatorHeights]; rw [if_pos hstop]
    · have hs : (0 : Int) < step := by rw [hstep]; positivity
      have hstep1 : (if (heights ++ [heights.getLastD 0 - step]).length > 10 then step * 2 else step) =
          2 ^ ((heights ++ [heights.getLastD 0 - step]).length - 10) := by
        simp only [List.length_append, List.length_singleton]
        split
        · rename_i hgt
          have h4 : heights.length + 1 - 10 = (heights.length - 10) + 1 := by omega
          rw [h4, pow_succ, hstep]
        · rename_i hgt
          have h4 : heights.length + 1 - 10 = heights.length - 10 := by omega
          rw [h4, hstep]
      have hR : ∀ f, locatorHeights (f + 1) heights step =
          locatorHeights f (heights ++ [heights.getLastD 0 - step])
            (if (heights ++ [heights.getLastD 0 - step]).length > 10 then step * 2 else step) := by
        intro f
        simp only [locatorHeights]; rw [if_neg hstop]
      have hfuel : ((heights ++ [heights.getLastD 0 - step]).getLastD 0).toNat < fuel := by
        rw [List.getLastD_concat]
        omega
      obtain ⟨h1, h2, h3, h4⟩ := ih (heights ++ [heights.getLastD 0 - step]) _ (by simp) hstep1
        (LocatorInv.push heights step hne hstep hinv hstop) hfuel
      rw [hR fuel]
      refine ⟨h1, ?_, h3, ?_⟩
      · rw [h2]
        cases heights with
        | nil => exact absurd rfl hne
        | cons x rest => rfl
      · intro fuel1 hle
        cases fuel1 with
        | zero => exact absurd hle (by omega)
        | succ f1 => rw [hR f1]; exact h4 f1 (by omega)



theorem Res.bind_loc {α β : Type} (a : BlockChain) (r : Res BlockChain α)
    (f : α → BlockChain → Res BlockChain β)
    (hr : SameLocator a r.state) (hf : ∀ x s, SameLocator a s → SameLocator a (f x s).state) :
    SameLocator a (r.bind f).state := by
  cases r with
  | ok x s => exact hf x s hr
  | thrown e s => exact hr

theorem findCoin_loc (bc : BlockChain) (input : Input) (iconf : Confirmation) :
    SameLocator bc (findCoin bc input iconf).state := by
  unfold findCoin
  repeat (first | rfl | split)

theorem archiveCoin_loc (bc : BlockChain) (coin : Unspent) (input : Input) (iconf : Confirmation) :
    SameLocator bc (archiveCoin bc coin input iconf).state := by
  unfold archiveCoin
  repeat (first | rfl | split)

theorem redeem_loc (X : Ext) (bc : BlockChain) (input : Input) (iconf : Confirmation) :
    SameLocator bc (redeem X bc input iconf).state := by
  unfold redeem
  apply Res.bind_loc
  · exact findCoin_loc bc input iconf
  · intro coin s hs
    split
    · exact hs
    · apply Res.bind_loc
      · exact (archiveCoin_loc s coin input iconf).trans hs
      · intro _ s2 hs2
        exact hs2

theorem issue_loc (bc : BlockChain) (output : Output) (hash out_idx : Nat) (conf : Confirmation)
    (unique : Bool) : SameLocator bc (issue bc output hash out_idx conf unique).state := by
  unfold issue
  dsimp only
  repeat (first | rfl | split)

theorem maturate_loc (bc : BlockChain) (count : Int) : SameLocator bc (maturate bc count) := by
  unfold maturate
  split
  · rfl
  · generalize bc.store.unspents.filter _ = l
    have : ∀ (l : List Unspent) (b : BlockChain), SameLocator bc b →
        SameLocator bc (l.foldl maturateOne b) := by
      intro l
      induction l with
      | nil => intro b hb; exact hb
      | cons u rest ih => intro b hb; exact ih _ hb
    exact this l bc rfl

theorem insertBlockHeader_loc (X : Ext) (bc : BlockChain) (count : Int) (block : Block) :
    SameLocator bc (insertBlockHeader X bc count block).state := by
  unfold insertBlockHeader
  repeat (first | rfl | split)

theorem redeemInputs_loc (X : Ext) (txn : Transaction) (conf : Confirmation) (verify strict : Bool)
    (a : BlockChain) :
    ∀ (inputs : List Input) (bc : BlockChain) (in_idx : Nat) (value_in : Int), SameLocator a bc →
      SameLocator a (redeemInputs X txn conf verify strict bc inputs in_idx value_in).state := by
  intro inputs
  induction inputs with
  | nil => intro bc _ _ h; exact h
  | cons input rest ih =>
    intro bc in_idx value_in h
    unfold redeemInputs
    apply Res.bind_loc
    · exact (redeem_loc X bc input conf).trans h
    · intro coin s hs
      apply ih
      split
      · exact hs
      · exact hs

theorem issueOutputs_loc (hash : Nat) (conf : Confirmation) (unique : Bool) (a : BlockChain) :
    ∀ (outputs : List Output) (bc : BlockChain) (out_idx : Nat), SameLocator a bc →
      SameLocator a (issueOutputs hash conf unique bc outputs out_idx).state := by
  intro outputs
  induction outputs with
  | nil => intro bc _ h; exact h
  | cons o rest ih =>
    intro bc out_idx h
    unfold issueOutputs
    apply Res.bind_loc
    · exact (issue_loc bc o hash out_idx conf unique).trans h
    · intro _ s hs
      exact ih s _ hs


theorem confirmTransaction_loc (bc : BlockChain) (txn : Transaction) (blk : BlockIterator)
    (idx : Int) : SameLocator bc (confirmTransaction bc txn blk idx).2 := by
  unfold confirmTransaction
  split <;> rfl

theorem postTransaction_loc (X : Ext) (chain : Chain) (bc : BlockChain) (txn : Transaction)
    (fees min_fee : Int) (blk : BlockIterator) (idx : Int) (verify : Bool) :
    SameLocator bc (postTransaction X chain bc txn fees min_fee blk idx verify).state := by
  unfold postTransaction
  dsimp only
  apply Res.bind_loc
  · exact redeemInputs_loc _ _ _ _ _ bc _ _ _ _ (confirmTransaction_loc bc txn blk idx)
  · intro value_in s hs
    split
    · exact hs
    · split
      · exact hs
      · split
        · exact hs
        · apply Res.bind_loc
          · exact issueOutputs_loc _ _ _ bc _ s _ hs
          · intro _ s2 hs2
            exact hs2

theorem confirmCoinbase_loc (bc : BlockChain) (txn : Transaction) (blk : BlockIterator) :
    SameLocator bc (confirmCoinbase bc txn blk).state := by
  unfold confirmCoinbase
  repeat (first | rfl | split)

theorem archiveCoinbase_loc (bc : BlockChain) (input : Input) (blk : BlockIterator)
    (value_in : Int) : SameLocator bc (archiveCoinbase bc input blk value_in).state := by
  unfold archiveCoinbase
  repeat (first | rfl | split)

theorem postSubsidy_loc (X : Ext) (chain : Chain) (bc : BlockChain) (txn : Transaction)
    (blk : BlockIterator) (fees : Int) :
    SameLocator bc (postSubsidy X chain bc txn blk fees).state := by
  unfold postSubsidy
  split
  · split
    · rfl
    · dsimp only
      apply Res.bind_loc
      · exact confirmCoinbase_loc bc txn blk
      · intro _ s hs
        split
        · exact hs
        · apply Res.bind_loc
          · exact (archiveCoinbase_loc s _ blk _).trans hs
          · intro _ s2 hs2
            apply Res.bind_loc
            · exact issueOutputs_loc _ _ _ bc _ s2 _ hs2
            · intro _ s3 hs3
              split
              · exact (maturate_loc s3 _).trans hs3
              · exact hs3
  · rfl

theorem rollbackConfirmation_loc (bc : BlockChain) (cnf : Int) :
    SameLocator bc (rollbackConfirmation bc cnf).state := by
  unfold rollbackConfirmation
  dsimp only
  split
  · split <;> rfl
  · split <;> rfl

theorem rollbackConfirmations_loc (a : BlockChain) :
    ∀ (cnfs : List Int) (bc : BlockChain), SameLocator a bc →
      SameLocator a (rollbackConfirmations bc cnfs).state := by
  intro cnfs
  induction cnfs with
  | nil => intro bc h; exact h
  | cons c rest ih =>
    intro bc h
    unfold rollbackConfirmations
    apply Res.bind_loc
    · exact (rollbackConfirmation_loc bc c).trans h
    · intro _ s hs
      exact ih s hs

theorem rollbackBlock_loc (bc : BlockChain) (count : Int) :
    SameLocator bc (rollbackBlock bc count).state := by
  unfold rollbackBlock
  dsimp only
  apply Res.bind_loc
  · exact rollbackConfirmations_loc bc _ bc rfl
  · intro _ s hs
    exact hs

theorem detach_loc (X : Ext) (bc : BlockChain) (blk : BlockIterator) (unconfirmed : Txns) :
    SameLocator bc (detach X bc blk unconfirmed).state := by
  unfold detach
  dsimp only
  apply Res.bind_loc
  · exact rollbackBlock_loc bc _
  · intro _ s hs
    exact hs

theorem attachLoop_loc (X : Ext) (chain : Chain) (blk : BlockIterator) (min_fee : Int)
    (a : BlockChain) :
    ∀ (txs : List Transaction) (bc : BlockChain) (idx fees : Int) (verify : Bool)
      (unconfirmed : Txns) (confirmed : Hashes), SameLocator a bc →
      SameLocator a (attachLoop X chain blk min_fee bc txs idx fees verify unconfirmed confirmed).state := by
  intro txs
  induction txs with
  | nil => intro bc _ _ _ _ _ h; exact h
  | cons txn rest ih =>
    intro bc idx fees verify unconfirmed confirmed h
    unfold attachLoop
    dsimp only
    apply Res.bind_loc
    · exact (postTransaction_loc X chain bc txn _ _ blk _ _).trans h
    · intro _ s hs
      exact ih s _ _ _ _ _ hs

theorem branchAt_loc (bc : BlockChain) (hash : Nat) : SameLocator bc (branchAt bc hash).2 := by
  unfold branchAt
  split <;> rfl

theorem attach_loc (X : Ext) (chain : Chain) (bc : BlockChain) (blk : BlockIterator)
    (unconfirmed : Txns) (confirmed : Hashes) :
    SameLocator bc (attach X chain bc blk unconfirmed confirmed).state := by
  unfold attach
  dsimp only
  have h0 := branchAt_loc bc blk.ref.hash
  split
  · exact h0
  · split
    · exact h0
    · apply Res.bind_loc
      · exact (insertBlockHeader_loc X _ _ _).trans h0
      · intro _ s hs
        apply Res.bind_loc
        · exact attachLoop_loc X chain blk 0 bc _ s _ _ _ _ _ hs
        · intro r s2 hs2
          apply Res.bind_loc
          · exact (postSubsidy_loc X chain s2 _ blk _).trans hs2
          · intro _ s3 hs3
            split <;> exact hs3

theorem detachAll_loc (X : Ext) (a : BlockChain) :
    ∀ (hs : List Nat) (bc : BlockChain) (unconfirmed : Txns), SameLocator a bc →
      SameLocator a (detachAll X bc hs unconfirmed).state := by
  intro l
  induction l with
  | nil => intro bc _ h; exact h
  | cons x rest ih =>
    intro bc unconfirmed h
    unfold detachAll
    split
    · exact h
    · apply Res.bind_loc
      · exact (detach_loc X bc _ _).trans h
      · intro _ s hs
        exact ih s _ hs

theorem attachAll_loc (X : Ext) (chain : Chain) (a : BlockChain) :
    ∀ (hs : List Nat) (bc : BlockChain) (blk : Option BlockIterator) (unconfirmed : Txns)
      (confirmed : Hashes), SameLocator a bc →
      SameLocator a (attachAll X chain bc hs blk unconfirmed confirmed).state := by
  intro l
  induction l with
  | nil => intro bc _ _ _ h; exact h
  | cons x rest ih =>
    intro bc blk unconfirmed confirmed h
    unfold attachAll
    split
    · exact h
    · apply Res.bind_loc
      · exact (attach_loc X chain bc _ _ _).trans h
      · intro _ s hs
        exact ih s _ _ _ hs

theorem purgeOld_loc (bc : BlockChain) (blk : Option BlockIterator) :
    SameLocator bc (purgeOld bc blk) := by
  unfold purgeOld
  split
  · rfl
  · split <;> rfl


/-- When the `try` block of `append` throws, the best locator is the one of
before: `updateBestLocator` is its last statement. -/
theorem appendTry_thrown_loc (X : Ext) (chain : Chain) (bc : BlockChain) (block : Block)
    (changes : Changes) (prev_height : Int) (e : Failure) (s : BlockChain)
    (h : appendTry X chain bc block changes prev_height = .thrown e s) :
    s.bestLocator = bc.bestLocator := by
  unfold appendTry at h
  have hd := detachAll_loc X bc changes.deleted bc [] rfl
  cases hdd : detachAll X bc changes.deleted [] with
  | thrown e1 s1 =>
    rw [hdd] at h hd
    simp only [Res.bind] at h
    injection h with _ h
    subst h
    exact hd
  | ok u s1 =>
    rw [hdd] at h hd
    simp only [Res.bind] at h
    have ha := attachAll_loc X chain bc changes.inserted.reverse s1 none u [] hd
    cases haa : attachAll X chain s1 changes.inserted.reverse none u [] with
    | thrown e2 s2 =>
      rw [haa] at h ha
      injection h with _ h
      subst h
      exact ha
    | ok r2 s2 =>
      rw [haa] at h ha
      dsimp only at h
      split at h
      · injection h with _ h
        subst h
        exact (purgeOld_loc s2 r2.1).trans ha
      · cases h

theorem BlockTree.bestOf_some (work : BlockRef → Nat) :
    ∀ (l : List BlockRef) (acc : List (BlockRef × Nat)) (best : Option (BlockRef × Nat)),
      (l ≠ [] ∨ best.isSome = true) →
      ∃ b, bestOf work l acc best = some b ∧ (b.1 ∈ l ∨ best = some b) := by
  intro l
  induction l with
  | nil =>
    intro acc best h
    rcases h with h | h
    · exact absurd rfl h
    · cases best with
      | none => simp at h
      | some b => exact ⟨b, rfl, Or.inr rfl⟩
  | cons r rest ih =>
    intro acc best _
    simp only [bestOf]
    cases best with
    | none =>
      dsimp only
      obtain ⟨b, hb, hm⟩ := ih ((r, ((acc.find? (fun e => decide (e.1.hash = r.prev))).map
        (fun e => e.2)).getD 0 + work r) :: acc) (some (r, ((acc.find?
          (fun e => decide (e.1.hash = r.prev))).map (fun e => e.2)).getD 0 + work r)) (Or.inr rfl)
      refine ⟨b, hb, Or.inl ?_⟩
      rcases hm with hm | hm
      · exact List.mem_cons_of_mem _ hm
      · injection hm with hm
        subst hm
        exact List.mem_cons_self _ _
    | some b0 =>
      dsimp only
      split
      · obtain ⟨b, hb, hm⟩ := ih ((r, ((acc.find? (fun e => decide (e.1.hash = r.prev))).map
          (fun e => e.2)).getD 0 + work r) :: acc) (some (r, ((acc.find?
            (fun e => decide (e.1.hash = r.prev))).map (fun e => e.2)).getD 0 + work r)) (Or.inr rfl)
        refine ⟨b, hb, Or.inl ?_⟩
        rcases hm with hm | hm
        · exact List.mem_cons_of_mem _ hm
        · injection hm with hm
          subst hm
          exact List.mem_cons_self _ _
      · obtain ⟨b, hb, hm⟩ := ih ((r, ((acc.find? (fun e => decide (e.1.hash = r.prev))).map
          (fun e => e.2)).getD 0 + work r) :: acc) (some b0) (Or.inr rfl)
        refine ⟨b, hb, ?_⟩
        rcases hm with hm | hm
        · exact Or.inl (List.mem_cons_of_mem _ hm)
        · exact Or.inr hm

theorem BlockTree.chainBack_head :
    ∀ (l : List BlockRef) (h : Nat), (∃ r ∈ l, r.hash = h) →
      ∃ b rest, chainBack l h = b :: rest ∧ b ∈ l ∧ b.hash = h := by
  intro l
  induction l with
  | nil => intro h hex; obtain ⟨r, hr, _⟩ := hex; simp at hr
  | cons a rest ih =>
    intro h hex
    simp only [chainBack]
    by_cases ha : a.hash = h
    · rw [if_pos ha]
      exact ⟨a, _, rfl, List.mem_cons_self _ _, ha⟩
    · rw [if_neg ha]
      obtain ⟨r, hr, hh⟩ := hex
      rcases List.mem_cons.mp hr with h1 | h1
      · subst h1; exact absurd hh ha
      · obtain ⟨b, more, hb, hm, hbh⟩ := ih h ⟨r, h1, hh⟩
        exact ⟨b, more, hb, List.mem_cons_of_mem _ hm, hbh⟩

theorem BlockTree.findRef_isSome (t : BlockTree) (h : Nat) :
    (t.findRef h).isSome = true ↔ ∃ r ∈ t.nodes, r.hash = h := by
  unfold findRef
  rw [List.find?_isSome]
  simp

/-- The main chain of a tree that holds a node is not empty, and its tip is a
node of the tree. -/
theorem BlockTree.trunk_head_known (work : BlockRef → Nat) (t : BlockTree)
    (hne : t.nodes ≠ []) :
    ∃ b rest, trunk work t = b :: rest ∧ (t.findRef b.hash).isSome = true := by
  obtain ⟨b0, hb0, hm⟩ := bestOf_some work t.nodes [] none (Or.inl hne)
  have hmem : b0.1 ∈ t.nodes := by
    rcases hm with hm | hm
    · exact hm
    · cases hm
  unfold trunk bestRef
  rw [hb0]
  dsimp only [Option.map]
  unfold path
  obtain ⟨b, rest, hb, hbm, hbh⟩ := chainBack_head t.nodes.reverse b0.1.hash
    ⟨b0.1, List.mem_reverse.mpr hmem, rfl⟩
  refine ⟨b, rest, hb, ?_⟩
  rw [findRef_isSome]
  exact ⟨b, List.mem_reverse.mp hbm, rfl⟩

theorem locatorHeights_prefix :
    ∀ (fuel : Nat) (heights : List Int) (step : Int),
      ∃ more, locatorHeights fuel heights step = heights ++ more := by
  intro fuel
  induction fuel with
  | zero => intro heights step; exact ⟨[], by simp [locatorHeights]⟩
  | succ fuel ih =>
    intro heights step
    simp only [locatorHeights]
    split
    · exact ⟨[], by simp⟩
    · obtain ⟨more, hm⟩ := ih (heights ++ [heights.getLastD 0 - step])
        (if (heights ++ [heights.getLastD 0 - step]).length > 10 then step * 2 else step)
      rw [hm]
      exact ⟨(heights.getLastD 0 - step) :: more, by rw [List.append_assoc]; rfl⟩

/-- After `updateBestLocator` on a tree that holds a node, the first hash of the
locator is the hash of the tip of the main chain, a node of the tree. -/
theorem updateBestLocator_known (X : Ext) (chain : Chain) (bc : BlockChain)
    (hne : bc.tree.nodes ≠ []) : LocatorKnown (updateBestLocator X chain bc) := by
  obtain ⟨b, rest, htr, hk⟩ := BlockTree.trunk_head_known X.work bc.tree hne
  obtain ⟨more, hm⟩ := locatorHeights_prefix ((bc.tree.height X.work).toNat + 1)
    [bc.tree.height X.work] 1
  have hat : bc.tree.atHeight X.work (bc.tree.height X.work) = some b := by
    unfold BlockTree.atHeight BlockTree.height BlockTree.chainAt
    rw [htr]
    have h1 : ¬ ((((b :: rest).length : Int) - 1 < 0) ∨
        ((b :: rest).length : Int) ≤ ((b :: rest).length : Int) - 1) := by
      simp only [List.length_cons]; push_cast; omega
    rw [if_neg h1]
    have h2 : (b :: rest).length - 1 - (((b :: rest).length : Int) - 1).toNat = 0 := by
      simp only [List.length_cons]; push_cast; omega
    rw [h2]
    rfl
  have hloc : (updateBestLocator X chain bc).bestLocator =
      (locatorHeights ((bc.tree.height X.work).toNat + 1) [bc.tree.height X.work] 1).map
        (fun k => ((bc.tree.atHeight X.work k).map (fun r => r.hash)).getD 0) ++
      [X.blockHash chain.genesisBlock] := rfl
  rw [hm] at hloc
  simp only [List.singleton_append, List.map_cons, List.cons_append, hat, Option.map_some',
    Option.getD_some] at hloc
  exact ⟨b.hash, _, hloc, hk⟩

theorem getDistanceBack_known (X : Ext) (bc : BlockChain) (hash : Nat) (rest : List Nat)
    (hk : (bc.tree.findRef hash).isSome = true) :
    getDistanceBack X bc (hash :: rest) = 0 := by
  unfold getDistanceBack
  simp only [distanceBack]
  have : (bc.tree.find X.work hash).isSome = true := by
    cases hf : bc.tree.find X.work hash with
    | none =>
      rw [(BlockTree.find_eq_none X.work bc.tree hash).mp hf] at hk
      simp at hk
    | some x => rfl
  rw [if_pos this]

theorem BlockTree.insert_known (work : BlockRef → Nat) (t : BlockTree) (r : BlockRef) (h : Nat)
    (hk : (t.findRef h).isSome = true) : ((t.insert work r).1.findRef h).isSome = true := by
  unfold insert
  split
  · exact hk
  · rw [findRef_isSome] at hk ⊢
    obtain ⟨x, hx, hh⟩ := hk
    exact ⟨x, List.mem_append_left _ hx, hh⟩

theorem BlockTree.known_ne_nil (t : BlockTree) (h : Nat)
    (hk : (t.findRef h).isSome = true) : t.nodes ≠ [] := by
  intro hn
  rw [findRef_isSome, hn] at hk
  obtain ⟨x, hx, _⟩ := hk
  simp at hx

theorem claim_locator (X : Ext) (chain : Chain) (bc : BlockChain) (txn : Transaction) (verify : Bool) :
    (claim X chain bc txn verify).state.tree = bc.tree ∧
    (claim X chain bc txn verify).state.bestLocator = bc.bestLocator := by
  unfold claim
  split <;> exact ⟨rfl, rfl⟩

theorem claimAll_locator (X : Ext) (chain : Chain) :
    ∀ (txs : Txns) (bc : BlockChain),
      (claimAll X chain bc txs).state.tree = bc.tree ∧
      (claimAll X chain bc txs).state.bestLocator = bc.bestLocator := by
  intro txs
  induction txs with
  | nil => intro bc; exact ⟨rfl, rfl⟩
  | cons tx rest ih =>
    intro bc
    unfold claimAll
    have h1 := claim_locator X chain bc tx.2 false
    cases hc : claim X chain bc tx.2 false with
    | thrown e s => rw [hc] at h1; exact h1
    | ok u s =>
      rw [hc] at h1
      have h2 := ih s
      exact ⟨h2.1.trans h1.1, h2.2.trans h1.2⟩

theorem appendCommitted_locator (X : Ext) (chain : Chain) (bc : BlockChain) (unconfirmed : Txns)
    (confirmed : Hashes) :
    (appendCommitted X chain bc unconfirmed confirmed).state.tree = bc.tree ∧
    (appendCommitted X chain bc unconfirmed confirmed).state.bestLocator = bc.bestLocator := by
  unfold appendCommitted
  dsimp only
  split
  · exact claimAll_locator X chain unconfirmed _
  · exact claimAll_locator X chain unconfirmed _

theorem appendTry_ok_updated (X : Ext) (chain : Chain) (bc : BlockChain) (block : Block)
    (changes : Changes) (prev_height : Int) (r : Txns × Hashes) (s : BlockChain)
    (h : appendTry X chain bc block changes prev_height = .ok r s) :
    ∃ b4, s = updateBestLocator X chain b4 := by
  unfold appendTry at h
  cases hd : detachAll X bc changes.deleted [] with
  | thrown e s1 => rw [hd] at h; cases h
  | ok u s1 =>
    rw [hd] at h
    simp only [Res.bind] at h
    cases ha : attachAll X chain s1 changes.inserted.reverse none u [] with
    | thrown e s2 => rw [ha] at h; cases h
    | ok r2 s2 =>
      rw [ha] at h
      dsimp only at h
      split at h
      · cases h
      · injection h with _ h
        exact ⟨_, h.symm⟩

/-- A call of `append`, whether it returns or throws, keeps every hash of the tree
known, and keeps the first hash of the best locator among the hashes of the
tree. -/
theorem append_keeps_known (X : Ext) (chain : Chain) (bc : BlockChain) (block : Block) :
    (∀ hash, (bc.tree.findRef hash).isSome = true →
      ((append X chain bc block).state.tree.findRef hash).isSome = true) ∧
    (LocatorKnown bc → LocatorKnown (append X chain bc block).state) := by
  have hins : ∀ (r : BlockRef) (b : BlockChain), b.bestLocator = bc.bestLocator →
      b.tree = (bc.tree.insert X.work r).1 →
      (∀ hash, (bc.tree.findRef hash).isSome = true → (b.tree.findRef hash).isSome = true) ∧
      (LocatorKnown bc → LocatorKnown b) := by
    intro r b hl ht
    refine ⟨fun hash hk => ht ▸ BlockTree.insert_known X.work bc.tree r hash hk, ?_⟩
    rintro ⟨hash, rest, hl1, hk⟩
    exact ⟨hash, rest, hl.trans hl1, ht ▸ BlockTree.insert_known X.work bc.tree r hash hk⟩
  unfold append
  dsimp only
  split
  · exact ⟨fun _ h => h, fun h => h⟩
  · rename_i hnew
    split
    · exact ⟨fun _ h => h, fun h => h⟩
    · split
      · exact ⟨fun _ h => h, fun h => h⟩
      · rename_i prev hprev
        have hpr := BlockTree.find_some_ref X.work bc.tree block.prev prev hprev
        have hpk : (bc.tree.findRef prev.ref.hash).isSome = true := by
          rw [hpr.2, hpr.1]; rfl
        have hnew1 : bc.tree.findRef (X.blockHash block) = none := by
          apply (BlockTree.find_eq_none X.work bc.tree _).mp
          cases hf : bc.tree.find X.work (X.blockHash block) with
          | none => rfl
          | some x => rw [hf] at hnew; exact absurd rfl hnew
        split
        · exact ⟨fun _ h => h, fun h => h⟩
        · split
          · exact ⟨fun _ h => h, fun h => h⟩
          · split
            · exact hins _ _ rfl rfl
            · split
              · exact hins _ _ rfl rfl
              · split
                · rename_i e s htry
                  have hfr : SameFrame _ (Res.thrown e s).state :=
                    htry ▸ appendTry_frame X chain _ block _ prev.height
                  have ht : s.tree = (bc.tree.insert X.work
                      ⟨block.version, X.blockHash block, prev.ref.hash, block.time, block.bits⟩).1 :=
                    congrArg Prod.fst hfr
                  have hpop : s.tree.pop_back = bc.tree := by
                    rw [ht]
                    exact BlockTree.pop_back_insert X.work bc.tree _ hnew1 hpk
                  have hl := appendTry_thrown_loc X chain _ block _ prev.height e s htry
                  simp only [Res.state]
                  refine ⟨fun hash hk => ?_, ?_⟩
                  · show (s.tree.pop_back.findRef hash).isSome = true
                    rw [hpop]; exact hk
                  · rintro ⟨hash, rest, hl1, hk⟩
                    refine ⟨hash, rest, hl.trans hl1, ?_⟩
                    show (s.tree.pop_back.findRef hash).isSome = true
                    rw [hpop]; exact hk
                · rename_i r s1 htry
                  have hfr : SameFrame _ (Res.ok r s1).state :=
                    htry ▸ appendTry_frame X chain _ block _ prev.height
                  have ht1 : s1.tree = (bc.tree.insert X.work
                      ⟨block.version, X.blockHash block, prev.ref.hash, block.time, block.bits⟩).1 :=
                    congrArg Prod.fst hfr
                  have hc := appendCommitted_locator X chain s1 r.1 r.2
                  obtain ⟨b4, hb4⟩ := appendTry_ok_updated X chain _ block _ prev.height r s1 htry
                  have hne : b4.tree.nodes ≠ [] := by
                    have : b4.tree = s1.tree := by rw [hb4]; rfl
                    rw [this, ht1]
                    exact BlockTree.known_ne_nil _ prev.ref.hash
                      (BlockTree.insert_known X.work bc.tree _ _ hpk)
                  have hk1 : LocatorKnown s1 := hb4 ▸ updateBestLocator_known X chain b4 hne
                  constructor
                  · intro hash hk
                    rw [hc.1, ht1]
                    exact BlockTree.insert_known X.work bc.tree _ hash hk
                  · intro _
                    obtain ⟨hash, rest, hl, hk⟩ := hk1
                    exact ⟨hash, rest, hc.2.trans hl, by rw [hc.1]; exact hk⟩

theorem Res.bind_ok_inv {σ α β : Type} (r : Res σ α) (f : α → σ → Res σ β) (b : β) (s : σ)
    (h : r.bind f = .ok b s) : ∃ a s1, r = .ok a s1 ∧ f a s1 = .ok b s := by
  cases r with
  | thrown e s1 => cases h
  | ok a s1 => exact ⟨a, s1, rfl, h⟩

theorem BlockTree.count_ne_zero (work : BlockRef → Nat) (t : BlockTree)
    (h : t.count work ≠ 0) : t.nodes ≠ [] := by
  intro hn
  apply h
  have : t = ⟨[]⟩ := by cases t; simp only at hn; rw [hn]
  rw [this]
  simp [BlockTree.count, BlockTree.trunk, BlockTree.bestRef, BlockTree.bestOf]

/-- When the constructor returns normally, the first hash of the best locator is
the hash of a node of the tree. -/
theorem create_known (X : Ext) (chain : Chain) (db : Store) (vd0 : Nat) (s : BlockChain)
    (h : BlockChain.create X chain db vd0 = .ok () s) : LocatorKnown s := by
  unfold BlockChain.create at h
  dsimp only at h
  obtain ⟨u, bc2, hst, hfin⟩ := Res.bind_ok_inv _ _ _ _ h
  have hne : bc2.tree.nodes ≠ [] := by
    split at hst
    · split at hst
      · cases hst
      · rename_i blk hblk
        split at hst
        · cases hst
        · rename_i a s1 hatt
          have hfr : SameFrame _ (Res.ok a s1).state := hatt ▸ attach_frame X chain _ blk [] []
          have ht : s1.tree = _ := congrArg Prod.fst hfr
          injection hst with _ hst
          subst hst
          show s1.tree.nodes ≠ []
          rw [ht]
          simp [BlockTree.assign, frameOf]
    · rename_i hc
      injection hst with _ hst
      subst hst
      exact BlockTree.count_ne_zero X.work _ hc
  obtain ⟨hash, rest, hl, hk⟩ := updateBestLocator_known X chain bc2 hne
  split at hfin
  · injection hfin with _ hfin
    subst hfin
    exact ⟨hash, rest, hl, hk⟩
  · injection hfin with _ hfin
    subst hfin
    exact ⟨hash, rest, hl, hk⟩

theorem reached_locator_known (X : Ext) (chain : Chain) (s : BlockChain) (h : Reached X chain s) :
    LocatorKnown s := by
  induction h with
  | init db vd0 s hc => exact create_known X chain db vd0 s hc
  | appended s block _ ih => exact (append_keeps_known X chain s block).2 ih
  | claimed s txn verify _ ih =>
    obtain ⟨hash, rest, hl, hk⟩ := ih
    have hc := claim_locator X chain s txn verify
    exact ⟨hash, rest, hc.2.trans hl, by rw [hc.1]; exact hk⟩

theorem later_keeps_known (X : Ext) (chain : Chain) (s0 s : BlockChain) (h : Later X chain s0 s)
    (hash : Nat) (hk : (s0.tree.findRef hash).isSome = true) :
    (s.tree.findRef hash).isSome = true := by
  induction h with
  | now => exact hk
  | appended s block _ ih => exact (append_keeps_known X chain s block).1 hash ih
  | claimed s txn verify _ ih => rw [(claim_locator X chain s txn verify).1]; exact ih

/-- A call of `postTransaction` that returns normally: `redeem` has returned one
output per input, the fee is not negative, and the new value of `fees` is the old
one plus the fee and lies in the money range. -/
theorem postTransaction_fee (X : Ext) (chain : Chain) (bc : BlockChain) (txn : Transaction)
    (fees min_fee : Int) (blk : BlockIterator) (idx : Int) (verify : Bool) (fees1 : Int)
    (s : BlockChain)
    (h : postTransaction X chain bc txn fees min_fee blk idx verify = .ok fees1 s) :
    (redeemedOutputs X txn ⟨txn, (confirmTransaction bc txn blk idx).1, blk.count⟩ verify
      (decide (blk.ref.time > chain.timeStampBIP0016)) (confirmTransaction bc txn blk idx).2
      txn.inputs 0).length = txn.inputs.length ∧
    0 ≤ feeOf txn (redeemedOutputs X txn ⟨txn, (confirmTransaction bc txn blk idx).1, blk.count⟩
      verify (decide (blk.ref.time > chain.timeStampBIP0016)) (confirmTransaction bc txn blk idx).2
      txn.inputs 0) ∧
    fees1 = fees + feeOf txn (redeemedOutputs X txn
      ⟨txn, (confirmTransaction bc txn blk idx).1, blk.count⟩ verify
      (decide (blk.ref.time > chain.timeStampBIP0016)) (confirmTransaction bc txn blk idx).2
      txn.inputs 0) ∧
    X.MoneyRange fees1 = true := by
  unfold postTransaction at h
  dsimp only at h
  cases hr : redeemInputs X txn ⟨txn, (confirmTransaction bc txn blk idx).1, blk.count⟩ verify
      (decide (blk.ref.time > chain.timeStampBIP0016)) (confirmTransaction bc txn blk idx).2
      txn.inputs 0 0 with
  | thrown f s1 => rw [hr] at h; simp [Res.bind] at h
  | ok vin s1 =>
    rw [hr] at h
    simp only [Res.bind] at h
    have hv := redeemInputs_value X txn _ verify _ _ _ _ _ _ _ hr
    have hfee : feeOf txn (redeemedOutputs X txn
        ⟨txn, (confirmTransaction bc txn blk idx).1, blk.count⟩ verify
        (decide (blk.ref.time > chain.timeStampBIP0016)) (confirmTransaction bc txn blk idx).2
        txn.inputs 0) = vin - txn.getValueOut := by
      unfold feeOf
      rw [hv.1]; ring
    rw [hfee]
    split at h
    · simp at h
    · rename_i hneg
      split at h
      · simp at h
      · split at h
        · simp at h
        · rename_i hmr
          cases hi : issueOutputs (X.txHash txn)
              ⟨txn, (confirmTransaction bc txn blk idx).1, blk.count⟩ true s1 txn.outputs 0 with
          | thrown f s2 => rw [hi] at h; simp at h
          | ok u s2 =>
            rw [hi] at h
            simp only [Res.ok.injEq] at h
            refine ⟨hv.2, not_lt.mp hneg, h.1.symm, ?_⟩
            rw [← h.1]; simpa using hmr

/-- The transaction loop of `attach`, when it returns normally: every transaction
redeemed one output per input and has a fee that is not negative, and `fees` has
grown by the sum of the fees and lies in the money range. -/
theorem attachLoop_fees (X : Ext) (chain : Chain) (blk : BlockIterator) (min_fee : Int) :
    ∀ (txs : List Transaction) (bc : BlockChain) (idx fees : Int) (verify : Bool)
      (unconfirmed : Txns) (confirmed : Hashes) (r : Int × Txns × Hashes) (s : BlockChain),
      attachLoop X chain blk min_fee bc txs idx fees verify unconfirmed confirmed = .ok r s →
      List.Forall₂ (fun tx os => os.length = tx.inputs.length ∧ 0 ≤ feeOf tx os) txs
        (loopRedeemed X chain blk min_fee bc txs idx fees verify unconfirmed) ∧
      r.1 = fees + (List.zipWith feeOf txs
        (loopRedeemed X chain blk min_fee bc txs idx fees verify unconfirmed)).sum ∧
      (txs ≠ [] → X.MoneyRange r.1 = true) := by
  intro txs
  induction txs with
  | nil =>
    intro bc idx fees verify unconfirmed confirmed r s h
    simp only [attachLoop, Res.ok.injEq] at h
    refine ⟨List.Forall₂.nil, ?_, fun h0 => absurd rfl h0⟩
    rw [← h.1]; simp [loopRedeemed]
  | cons txn rest ih =>
    intro bc idx fees verify unconfirmed confirmed r s h
    unfold attachLoop at h
    dsimp only at h
    simp only [loopRedeemed]
    cases hp : postTransaction X chain bc txn fees min_fee blk idx
        (if ((mapFind (X.txHash txn) unconfirmed).isSome || bc.claims.have_ (X.txHash txn)) = true
          then false else verify) with
    | thrown f s1 => rw [hp] at h; simp [Res.bind] at h
    | ok fees1 s1 =>
      rw [hp] at h
      simp only [Res.bind] at h
      obtain ⟨hlen, hpos, hsum1, hmr⟩ :=
        postTransaction_fee X chain bc txn fees min_fee blk idx _ fees1 s1 hp
      obtain ⟨hfs, hsum, hrange⟩ := ih _ _ _ _ _ _ _ _ h
      refine ⟨List.Forall₂.cons ⟨hlen, hpos⟩ hfs, ?_, ?_⟩
      · rw [hsum, hsum1]; simp only [List.zipWith_cons_cons, List.sum_cons]; ring
      · intro _
        cases rest with
        | nil =>
          simp only [attachLoop, Res.ok.injEq] at h
          rw [← h.1]; exact hmr
        | cons t rest2 => exact hrange (List.cons_ne_nil _ _)

/-- The member `attach` is its statements up to the end of the transaction loop,
followed by `postSubsidy` with the fees of the loop and the test of the verifier. -/
theorem attach_eq (X : Ext) (chain : Chain) (bc : BlockChain) (blk : BlockIterator)
    (unconfirmed : Txns) (confirmed : Hashes) :
    attach X chain bc blk unconfirmed confirmed =
      (attachTransactions X chain bc blk unconfirmed confirmed).bind fun r bc3 =>
        (postSubsidy X chain bc3 ((branchAt bc blk.ref.hash).1.txs.headD ⟨1, 0, [], []⟩) blk r.1).bind
          fun _ bc4 =>
            if !bc4.verifier.yield_success X then
              .thrown (.Error ("Verify Signature failed with: " ++ bc4.verifier.reason)) bc4
            else .ok (r.2.1, r.2.2) bc4 := by
  unfold attach attachTransactions
  dsimp only
  split
  · rfl
  · split
    · rfl
    · cases insertBlockHeader X
          { (branchAt bc blk.ref.hash).2 with verifier := (branchAt bc blk.ref.hash).2.verifier.reset }
          blk.count (branchAt bc blk.ref.hash).1 with
      | thrown f s1 => rfl
      | ok u s1 => rfl

theorem verify_failed_ne (w : String) :
    Failure.Error ("Verify Signature failed with: " ++ w) ≠ Failure.Error "value in < value out" := by
  intro h
  injection h with h
  have := congrArg String.data h
  simp [String.data_append] at this

/-! ## Claims -/

/-- C1: when a statement of the `try` block of `append` throws (a detach, an
attach, the purge or the coinbase-commitment check), `append` throws an `Error`
and the store, the spendables trie and the block tree are those of before the
call. -/
theorem C1_append_rollback (X : Ext) (chain : Chain) (bc : BlockChain) (block : Block)
    (prev : BlockIterator)
    (hnew : bc.tree.find X.work (X.blockHash block) = none)
    (hver : ¬ block.version < getMinAcceptedBlockVersion X chain bc)
    (hprev : bc.tree.find X.work block.prev = some prev)
    (hbits : block.bits = chain.nextWorkRequired bc.tree prev)
    (htime : ¬ (block.time : Int) ≤ getMedianTimePast bc prev)
    (hins : (bc.tree.insert X.work
      ⟨block.version, X.blockHash block, prev.ref.hash, block.time, block.bits⟩).2.inserted ≠ [])
    (e : Failure) (s : BlockChain)
    (hthrow : appendTry X chain
        { bc with
          tree := (bc.tree.insert X.work
            ⟨block.version, X.blockHash block, prev.ref.hash, block.time, block.bits⟩).1,
          branches := mapInsert (X.blockHash block) block bc.branches }
        block
        (bc.tree.insert X.work
          ⟨block.version, X.blockHash block, prev.ref.hash, block.time, block.bits⟩).2
        prev.height = .thrown e s) :
    ∃ s1, append X chain bc block = .thrown (.Error ("append(Block): " ++ e.what)) s1 ∧
      s1.store = bc.store ∧ s1.spendables = bc.spendables ∧ s1.tree = bc.tree := by
  have hk : ¬ ((bc.tree.find X.work (X.blockHash block)).isSome = true) := by rw [hnew]; simp
  have hlen : ¬ ((bc.tree.insert X.work
      ⟨block.version, X.blockHash block, prev.ref.hash, block.time, block.bits⟩).2.inserted.length = 0) := by
    intro h0
    exact hins (List.length_eq_zero.mp h0)
  have hfr := appendTry_frame X chain
        { bc with
          tree := (bc.tree.insert X.work
            ⟨block.version, X.blockHash block, prev.ref.hash, block.time, block.bits⟩).1,
          branches := mapInsert (X.blockHash block) block bc.branches }
        block
        (bc.tree.insert X.work
          ⟨block.version, X.blockHash block, prev.ref.hash, block.time, block.bits⟩).2
        prev.height
  rw [hthrow] at hfr
  have htree : s.tree = (bc.tree.insert X.work
      ⟨block.version, X.blockHash block, prev.ref.hash, block.time, block.bits⟩).1 :=
    congrArg Prod.fst hfr
  have hpop : s.tree.pop_back = bc.tree := by
    rw [htree]
    apply BlockTree.pop_back_insert
    · exact (BlockTree.find_eq_none X.work bc.tree _).mp hnew
    · have := BlockTree.find_some_ref X.work bc.tree _ prev hprev
      show (bc.tree.findRef prev.ref.hash).isSome = true
      rw [this.2, this.1]; rfl
  refine ⟨{ s with store := bc.store, tree := s.tree.pop_back,
                   branches := (bc.tree.insert X.work
                     ⟨block.version, X.blockHash block, prev.ref.hash, block.time, block.bits⟩).2.deleted.foldl
                       (fun b h => mapErase h b) s.branches,
                   spendables := bc.spendables }, ?_, rfl, rfl, hpop⟩
  · unfold append
    rw [if_neg hk, if_neg hver]
    simp only [hprev]
    rw [if_neg (not_not.mpr hbits), if_neg htime]
    have hand : ¬ (prev.height < (chain.totalBlocksEstimate : Int) ∧ (bc.tree.insert X.work
      ⟨block.version, X.blockHash block, prev.ref.hash, block.time, block.bits⟩).2.inserted.length = 0) :=
      fun h => hlen h.2
    rw [if_neg hand, if_neg hlen]
    simp only [hthrow]

theorem C1_append_rollback_witness :
    ∃ s1, append demoExt demoParams (demoFresh demoParams false)
          (demoBlock 1 101 100 20 [demoCoinbase 2 [] 60]) =
        .thrown (.Error ("append(Block): " ++ (Failure.Error "value in < value out").what)) s1 ∧
      s1.store = (demoFresh demoParams false).store ∧
      s1.spendables = (demoFresh demoParams false).spendables ∧
      s1.tree = (demoFresh demoParams false).tree :=
  C1_append_rollback demoExt demoParams (demoFresh demoParams false)
    (demoBlock 1 101 100 20 [demoCoinbase 2 [] 60]) ⟨⟨1, 100, 0, 10, 5⟩, 0⟩
    (by decide) (by decide) (by decide) (by decide) (by decide) (by decide)
    (.Error "value in < value out")
    (appendTry demoExt demoParams
      { demoFresh demoParams false with
        tree := ((demoFresh demoParams false).tree.insert demoExt.work ⟨1, 101, 100, 20, 5⟩).1,
        branches := mapInsert 101 (demoBlock 1 101 100 20 [demoCoinbase 2 [] 60])
          (demoFresh demoParams false).branches }
      (demoBlock 1 101 100 20 [demoCoinbase 2 [] 60])
      ((demoFresh demoParams false).tree.insert demoExt.work ⟨1, 101, 100, 20, 5⟩).2 0).state
    (by decide)

/-- C2 (the code at a failing input): in trie mode the block 202 holds a
transaction whose signature the verifier refuses, so `attach` throws after
`postSubsidy` has issued the coinbase 103 and `maturate` has run. After the
failed `append` the immature-coinbase trie still holds the output (103, 0), has
lost the output (3, 0) that `maturate` moved, and so differs from its content
before the call; the same block offered again is refused as a duplicate
coinbase. -/
theorem C2_immature_coinbases_not_restored :
    (append demoExt demoParams demoBase (demoSpendBlock [6])).failure =
      some (.Error "append(Block): Verify Signature failed with: signature check failed") ∧
    demoBase.immature_coinbases.find ⟨103, 0⟩ = none ∧
    ((append demoExt demoParams demoBase (demoSpendBlock [6])).state.immature_coinbases.find
      ⟨103, 0⟩).isSome = true ∧
    (demoBase.immature_coinbases.find ⟨3, 0⟩).isSome = true ∧
    (append demoExt demoParams demoBase (demoSpendBlock [6])).state.immature_coinbases.find
      ⟨3, 0⟩ = none ∧
    (append demoExt demoParams demoBase (demoSpendBlock [6])).state.immature_coinbases ≠
      demoBase.immature_coinbases ∧
    (append demoExt demoParams
      (append demoExt demoParams demoBase (demoSpendBlock [6])).state (demoSpendBlock [6])).failure =
      some (.Error "append(Block): Attempting to insert dublicate coinbase") := by
  decide!

/-- C3: a block that fails one of the checks made before the tree insertion (known
hash, version below the accepted floor, unknown previous block, wrong bits, time
not after the median time past) makes `append` throw an `Error` in the unchanged
engine state: tree, side map, store, both tries and claim pool are as before. -/
theorem C3_pre_insert_checks (X : Ext) (chain : Chain) (bc : BlockChain) (block : Block)
    (h : (bc.tree.find X.work (X.blockHash block)).isSome = true ∨
         block.version < getMinAcceptedBlockVersion X chain bc ∨
         bc.tree.find X.work block.prev = none ∨
         ∃ prev, bc.tree.find X.work block.prev = some prev ∧
           (block.bits ≠ chain.nextWorkRequired bc.tree prev ∨
            (block.time : Int) ≤ getMedianTimePast bc prev)) :
    ∃ msg, append X chain bc block = .thrown (.Error msg) bc := by
  by_cases hk : (bc.tree.find X.work (X.blockHash block)).isSome = true
  · exact ⟨_, append_known X chain bc block hk⟩
  by_cases hv : block.version < getMinAcceptedBlockVersion X chain bc
  · exact append_old_version X chain bc block hv
  rcases h with h | h | h | ⟨prev, hp, h⟩
  · exact absurd h hk
  · exact absurd h hv
  · exact ⟨_, by unfold append; rw [if_neg hk, if_neg hv]; simp only [h]; rfl⟩
  · by_cases hb : block.bits = chain.nextWorkRequired bc.tree prev
    · rcases h with h | h
      · exact absurd hb h
      · exact ⟨_, by unfold append; rw [if_neg hk, if_neg hv]; simp only [hp]; rw [if_neg (not_not.mpr hb), if_pos h]⟩
    · exact ⟨_, by unfold append; rw [if_neg hk, if_neg hv]; simp only [hp]; rw [if_pos hb]⟩

theorem C3_pre_insert_checks_witness :
    ∃ msg, append demoExt demoParams (demoFresh demoParams false) demoParams.genesisBlock =
      .thrown (.Error msg) (demoFresh demoParams false) :=
  C3_pre_insert_checks demoExt demoParams (demoFresh demoParams false) demoParams.genesisBlock
    (Or.inl (by decide))

/-- C4 (the code at a failing input): on the chain genesis, 101, the block 102 with
previous block genesis (height 0, below the checkpoint estimate 1) causes no
reorganisation; `append` throws the `Error` about branching, and the tree after
the throw is not the tree before the call: it holds the header of block 102. -/
theorem C4_rejected_header_stays :
    (append demoExt demoParams (demoFresh demoParams false) (demoCoinbaseBlock 1)).isOk = true ∧
    (append demoExt demoParams
      (append demoExt demoParams (demoFresh demoParams false) (demoCoinbaseBlock 1)).state
      (demoBlock 1 102 100 20 [demoCoinbase 3 [] 50])).failure
        = some (.Error "Branching disallowed before last checkpoint at: 1") ∧
    (append demoExt demoParams
      (append demoExt demoParams (demoFresh demoParams false) (demoCoinbaseBlock 1)).state
      (demoBlock 1 102 100 20 [demoCoinbase 3 [] 50])).state.tree ≠
      (append demoExt demoParams (demoFresh demoParams false) (demoCoinbaseBlock 1)).state.tree ∧
    ((append demoExt demoParams
      (append demoExt demoParams (demoFresh demoParams false) (demoCoinbaseBlock 1)).state
      (demoBlock 1 102 100 20 [demoCoinbase 3 [] 50])).state.tree.find demoExt.work 102).isSome
        = true := by
  decide

/-- C5 (the code at a failing input): in trie mode the coinbase of count 2 has
matured in `demoBase`. A reorganisation detaches the blocks of counts 102 and
101 and attaches `demoForkA` at count 101; `detach` does not take the coinbase
out of the spendables trie again, and `redeem` returns its output to a
confirmation of count 101 although 101 - 2 is less than `COINBASE_MATURITY`. -/
theorem C5_immature_coinbase_redeemed :
    (demoBase.store.unspents.find? (fun u => decide (u.key = ⟨2, 0⟩))).map (fun u => (u.count, u.cnf))
      = some (-2, -2) ∧
    0 < demoBase.validation_depth ∧
    (append demoExt demoParams demoBase demoForkA).isOk = true ∧
    ((append demoExt demoParams demoBase demoForkA).state.tree.insert demoExt.work
      ⟨1, 301, 300, 1020, 6⟩).2 = ⟨[201, 200], [301, 300]⟩ ∧
    (detachAll demoExt demoReorgEntered [201, 200] []).isOk = true ∧
    ((detachAll demoExt demoReorgEntered [201, 200] []).state.tree.find demoExt.work 300).map
      (fun blk => blk.count) = some 101 ∧
    redeem demoExt (detachAll demoExt demoReorgEntered [201, 200] []).state
        ⟨⟨2, 0⟩, [7], 4294967295⟩ ⟨demoSpend 500 2 [7] 50, 1, 101⟩ =
      .ok ⟨50, [7]⟩ (redeem demoExt (detachAll demoExt demoReorgEntered [201, 200] []).state
        ⟨⟨2, 0⟩, [7], 4294967295⟩ ⟨demoSpend 500 2 [7] 50, 1, 101⟩).state ∧
    (101 : Int) - 2 < COINBASE_MATURITY := by
  decide!

/-- C6: when `attach` accepts a block, its transaction loop has returned the
fees `F`; for every transaction after the coinbase `redeem` has returned one
output per input, in the state the loop had reached, and the fee of the
transaction, the value of these outputs less the value of its own outputs, is
not negative; `F` is the sum of these fees and lies in the money range; and the
outputs of the coinbase do not exceed `subsidy(height) + F`. When the loop has
returned the fees `F` and the outputs of the coinbase exceed `subsidy(height) + F`,
`attach` throws: the `Error` of the value test of `postSubsidy`, or the exception
of a statement that precedes the test (which `append` rethrows as an `Error`).
When they equal `subsidy(height) + F`, `attach` does not throw the `Error` of the
value test. -/
theorem C6_attach_fees (X : Ext) (chain : Chain) (bc : BlockChain) (blk : BlockIterator)
    (unconfirmed : Txns) (confirmed : Hashes) :
    (∀ r s, attach X chain bc blk unconfirmed confirmed = .ok r s →
      ∃ F u1 c1 s2,
        attachTransactions X chain bc blk unconfirmed confirmed = .ok (F, u1, c1) s2 ∧
        List.Forall₂ (fun tx os => os.length = tx.inputs.length ∧ 0 ≤ feeOf tx os)
          (branchAt bc blk.ref.hash).1.txs.tail (attachRedeemed X chain bc blk unconfirmed) ∧
        F = (List.zipWith feeOf (branchAt bc blk.ref.hash).1.txs.tail
          (attachRedeemed X chain bc blk unconfirmed)).sum ∧
        X.MoneyRange F = true ∧
        ((branchAt bc blk.ref.hash).1.txs.headD ⟨1, 0, [], []⟩).getValueOut
          ≤ chain.subsidy blk.height + F) ∧
    (∀ F u1 c1 s2,
      attachTransactions X chain bc blk unconfirmed confirmed = .ok (F, u1, c1) s2 →
      chain.subsidy blk.height + F <
        ((branchAt bc blk.ref.hash).1.txs.headD ⟨1, 0, [], []⟩).getValueOut →
      ∃ f s, attach X chain bc blk unconfirmed confirmed = .thrown f s ∧
        (f = .Error "value in < value out" ∨
         f = .Error "postSubsidy only valid for coinbase transactions." ∨
         f = constraintFailed)) ∧
    (∀ F u1 c1 s2,
      attachTransactions X chain bc blk unconfirmed confirmed = .ok (F, u1, c1) s2 →
      ((branchAt bc blk.ref.hash).1.txs.headD ⟨1, 0, [], []⟩).getValueOut =
        chain.subsidy blk.height + F →
      (attach X chain bc blk unconfirmed confirmed).failure ≠
        some (.Error "value in < value out")) := by
  have heq := attach_eq X chain bc blk unconfirmed confirmed
  refine ⟨?_, ?_, ?_⟩
  · intro r s h
    rw [heq] at h
    cases ht : attachTransactions X chain bc blk unconfirmed confirmed with
    | thrown f s1 => rw [ht] at h; cases h
    | ok r2 s2 =>
      rw [ht] at h
      simp only [Res.bind] at h
      cases hp : postSubsidy X chain s2
          ((branchAt bc blk.ref.hash).1.txs.headD ⟨1, 0, [], []⟩) blk r2.1 with
      | thrown f s3 => rw [hp] at h; cases h
      | ok u3 s3 =>
        have hle := postSubsidy_ok X chain s2 _ blk r2.1 s3 hp
        refine ⟨r2.1, r2.2.1, r2.2.2, s2, rfl, ?_⟩
        unfold attachTransactions at ht
        dsimp only at ht
        split at ht
        · cases ht
        · split at ht
          · cases ht
          · cases hh : insertBlockHeader X
                { (branchAt bc blk.ref.hash).2 with
                  verifier := (branchAt bc blk.ref.hash).2.verifier.reset }
                blk.count (branchAt bc blk.ref.hash).1 with
            | thrown f s1 => rw [hh] at ht; cases ht
            | ok u s1 =>
              rw [hh] at ht
              simp only [Res.bind] at ht
              obtain ⟨hfs, hsum, hrange⟩ := attachLoop_fees X chain blk 0 _ _ _ _ _ _ _ _ _ ht
              have hred : attachRedeemed X chain bc blk unconfirmed =
                  loopRedeemed X chain blk 0 s1 (branchAt bc blk.ref.hash).1.txs.tail 1 0
                    (decide (s1.verification_depth ≠ 0) &&
                      decide (blk.height > (s1.verification_depth : Int))) unconfirmed := by
                unfold attachRedeemed
                dsimp only
                rw [hh]
                rfl
              rw [hred]
              have hF : r2.1 = (List.zipWith feeOf (branchAt bc blk.ref.hash).1.txs.tail
                  (loopRedeemed X chain blk 0 s1 (branchAt bc blk.ref.hash).1.txs.tail 1 0
                    (decide (s1.verification_depth ≠ 0) &&
                      decide (blk.height > (s1.verification_depth : Int))) unconfirmed)).sum := by
                rw [hsum]; ring
              refine ⟨hfs, hF, ?_, hle⟩
              by_cases hne : (branchAt bc blk.ref.hash).1.txs.tail = []
              · rw [hF, hne]
                simp [Ext.MoneyRange]
              · exact hrange hne
  · intro F u1 c1 s2 ht hex
    rw [heq, ht]
    simp only [Res.bind]
    obtain ⟨f, s, hp, hf⟩ := postSubsidy_exceeds X chain s2
      ((branchAt bc blk.ref.hash).1.txs.headD ⟨1, 0, [], []⟩) blk F hex
    rw [hp]
    exact ⟨f, s, rfl, hf⟩
  · intro F u1 c1 s2 ht heqv
    rw [heq, ht]
    simp only [Res.bind]
    have hp := postSubsidy_equal X chain s2
      ((branchAt bc blk.ref.hash).1.txs.headD ⟨1, 0, [], []⟩) blk F heqv
    cases hps : postSubsidy X chain s2
        ((branchAt bc blk.ref.hash).1.txs.headD ⟨1, 0, [], []⟩) blk F with
    | thrown f s3 =>
      rw [hps] at hp
      exact hp
    | ok u3 s3 =>
      dsimp only
      split
      · intro h
        simp only [Res.failure, Option.some.injEq] at h
        exact verify_failed_ne _ h
      · simp [Res.failure]

theorem C6_attach_fees_witness :
    (∃ F u1 c1 s2,
      attachTransactions demoExt demoParams (demoEntered (demoFeeBlock 55)) demoTip [] [] =
        .ok (F, u1, c1) s2 ∧
      List.Forall₂ (fun tx os => os.length = tx.inputs.length ∧ 0 ≤ feeOf tx os)
        (branchAt (demoEntered (demoFeeBlock 55)) demoTip.ref.hash).1.txs.tail
        (attachRedeemed demoExt demoParams (demoEntered (demoFeeBlock 55)) demoTip []) ∧
      F = (List.zipWith feeOf (branchAt (demoEntered (demoFeeBlock 55)) demoTip.ref.hash).1.txs.tail
        (attachRedeemed demoExt demoParams (demoEntered (demoFeeBlock 55)) demoTip [])).sum ∧
      demoExt.MoneyRange F = true ∧
      ((branchAt (demoEntered (demoFeeBlock 55)) demoTip.ref.hash).1.txs.headD
        ⟨1, 0, [], []⟩).getValueOut ≤ demoParams.subsidy demoTip.height + F) ∧
    (∃ f s, attach demoExt demoParams (demoEntered (demoFeeBlock 56)) demoTip [] [] = .thrown f s ∧
      (f = .Error "value in < value out" ∨
       f = .Error "postSubsidy only valid for coinbase transactions." ∨
       f = constraintFailed)) ∧
    (attach demoExt demoParams (demoEntered (demoFeeBlock 55)) demoTip [] []).failure ≠
      some (.Error "value in < value out") :=
  ⟨(C6_attach_fees demoExt demoParams (demoEntered (demoFeeBlock 55)) demoTip [] []).1 ([], [500])
      (attach demoExt demoParams (demoEntered (demoFeeBlock 55)) demoTip [] []).state (by decide!),
    (C6_attach_fees demoExt demoParams (demoEntered (demoFeeBlock 56)) demoTip [] []).2.1 5 [] [500]
      (attachTransactions demoExt demoParams (demoEntered (demoFeeBlock 56)) demoTip [] []).state
      (by decide!) (by decide),
    (C6_attach_fees demoExt demoParams (demoEntered (demoFeeBlock 55)) demoTip [] []).2.2 5 [] [500]
      (attachTransactions demoExt demoParams (demoEntered (demoFeeBlock 55)) demoTip [] []).state
      (by decide!) (by decide)⟩

/-- C7 (the code at a failing input): block 202 (count 103, not below the purge
depth) spends the coinbase of count 1; `attach` accepts it and `detach` rolls it
back. Afterwards the `Unspents` row of outpoint (1, 0) carries the count 103
instead of -1, the spendables trie differs from the one before the attach, and
the immature-coinbase trie still holds the coinbase output (103, 0). -/
theorem C7_detach_does_not_undo_attach :
    (demoEntered (demoSpendBlock [7])).tree.find demoExt.work 202 = some demoTip ∧
    (demoTip.count ≥ (demoEntered (demoSpendBlock [7])).purge_depth) ∧
    (attach demoExt demoParams (demoEntered (demoSpendBlock [7])) demoTip [] []).isOk = true ∧
    (detach demoExt (attach demoExt demoParams (demoEntered (demoSpendBlock [7])) demoTip [] []).state demoTip []).isOk
      = true ∧
    ((demoEntered (demoSpendBlock [7])).store.unspents.find? (fun u => decide (u.key = ⟨1, 0⟩))).map (fun u => u.count)
      = some (-1) ∧
    ((detach demoExt (attach demoExt demoParams (demoEntered (demoSpendBlock [7])) demoTip [] []).state demoTip
      []).state.store.unspents.find? (fun u => decide (u.key = ⟨1, 0⟩))).map (fun u => u.count)
      = some 103 ∧
    (detach demoExt (attach demoExt demoParams (demoEntered (demoSpendBlock [7])) demoTip [] []).state demoTip
      []).state.spendables ≠ (demoEntered (demoSpendBlock [7])).spendables ∧
    (demoEntered (demoSpendBlock [7])).immature_coinbases.find ⟨103, 0⟩ = none ∧
    ((detach demoExt (attach demoExt demoParams (demoEntered (demoSpendBlock [7])) demoTip [] []).state demoTip
      []).state.immature_coinbases.find ⟨103, 0⟩).isSome = true := by
  decide!

/-- C8 (the code at a failing input): height 102 is above the verification depth
1, transaction 500 is in the claim pool and transaction 501 is not, and the
verifier refuses the input of 501. Because `verify` is cleared for 500 and never
set again, no input of 501 is handed to the verifier and `append` accepts the
block; without the claim the same block is rejected. -/
theorem C8_verification_skipped :
    (claim demoExt demoParams demoBase (demoSpend 500 1 [7] 50) true).isOk = true ∧
    demoClaimed.claims.have_ 500 = true ∧
    demoClaimed.claims.have_ 501 = false ∧
    0 < demoClaimed.verification_depth ∧
    (102 : Int) > demoClaimed.verification_depth ∧
    demoExt.VerifySignature ⟨50, [7]⟩ (demoSpend 501 2 [6] 50) 0 true 0 = false ∧
    (append demoExt demoParams demoClaimed demoUnverifiedBlock).isOk = true ∧
    (append demoExt demoParams demoClaimed demoUnverifiedBlock).state.verifier.queue = [] ∧
    ((append demoExt demoParams demoClaimed demoUnverifiedBlock).state.tree.best demoExt.work).map
      (fun blk => blk.ref.hash) = some 202 ∧
    (append demoExt demoParams demoBase demoUnverifiedBlock).failure =
      some (.Error "append(Block): Verify Signature failed with: signature check failed") := by
  decide!

/-- C9 (the code at a failing input): with the enforced version 2, a block of
version 2 whose coinbase script holds the height of the block is rejected by
`append` and one without the height is committed; with the enforced version 3, a
block of version 3 whose coinbase holds the height and the trie root is rejected
and one that holds neither is committed. -/
theorem C9_commitment_checks_inverted :
    demoExt.checkHeightInCoinbase (demoBlock 2 101 100 20 [demoCoinbase 2 [1] 50]) (0 + 1) = true ∧
    (append demoExt demoParams (demoFresh demoParams false)
      (demoBlock 2 101 100 20 [demoCoinbase 2 [1] 50])).failure = some (.Error
        "append(Block): Version 2(or more) block with wrong or missing height in coinbase rejected!") ∧
    demoExt.checkHeightInCoinbase (demoBlock 2 101 100 20 [demoCoinbase 2 [] 50]) (0 + 1) = false ∧
    (append demoExt demoParams (demoFresh demoParams false)
      (demoBlock 2 101 100 20 [demoCoinbase 2 [] 50])).isOk = true ∧
    getMinEnforcedBlockVersion demoExt demoParams
      (append demoExt demoParams (demoFresh demoParams false)
        (demoBlock 2 101 100 20 [demoCoinbase 2 [] 50])).state = 2 ∧
    (append demoExt demoParams (demoFresh demoParams false)
      (demoBlock 3 101 100 20 [demoCoinbase 2 [1, 0] 50])).failure = some (.Error
        "append(Block): Version 3(or more) block with wrong or missing Spendable Root hash in coinbase rejected!") ∧
    (append demoExt demoParams (demoFresh demoParams false)
      (demoBlock 3 101 100 20 [demoCoinbase 2 [9, 9] 50])).isOk = true := by
  decide!

/-- C10: if a version is carried by more than `accept_majority` of the
`accept_quorum` most recent main-chain blocks and no other version is, then
`getMinAcceptedBlockVersion` returns it and `append` throws an `Error` for every
block of a lower version; if the chain has at most `accept_majority` and at most
`accept_quorum` blocks, `getMinAcceptedBlockVersion` returns 1. -/
theorem C10_min_accepted_version (X : Ext) (chain : Chain) (bc : BlockChain) (V : Int) :
    ((chain.accept_majority <
          (((bc.tree.trunk X.work).map (fun r => r.version)).take chain.accept_quorum).count V ∧
        ∀ W, W ≠ V →
          (((bc.tree.trunk X.work).map (fun r => r.version)).take chain.accept_quorum).count W
            ≤ chain.accept_majority) →
      getMinAcceptedBlockVersion X chain bc = V ∧
      ∀ block : Block, block.version < V →
        ∃ msg, append X chain bc block = .thrown (.Error msg) bc) ∧
    (((bc.tree.trunk X.work).length ≤ chain.accept_majority ∧
        (bc.tree.trunk X.work).length ≤ chain.accept_quorum) →
      getMinAcceptedBlockVersion X chain bc = 1) := by
  constructor
  · rintro ⟨hV, ho⟩
    have hmin : getMinAcceptedBlockVersion X chain bc = V := by
      unfold getMinAcceptedBlockVersion
      apply minVersionLoop_majority _ _ V _ [] 0 List.Pairwise.nil
      · simp [binsGet]
      · simpa [binsGet] using hV
      · intro W hW
        simpa [binsGet] using ho W hW
    refine ⟨hmin, ?_⟩
    intro block hb
    exact append_old_version X chain bc block (by rw [hmin]; exact hb)
  · rintro ⟨h1, h2⟩
    unfold getMinAcceptedBlockVersion
    apply minVersionLoop_short _ _ _ [] 0 List.Pairwise.nil
    · intro W; simpa [binsGet] using h1
    · simpa using h2

theorem C10_min_accepted_version_witness :
    getMinAcceptedBlockVersion demoExt (demoChain 0 3 1)
        (demoEngine [⟨1, 100, 0, 10, 5⟩, ⟨2, 101, 100, 20, 5⟩, ⟨2, 102, 101, 30, 5⟩]) = 2 ∧
      ∀ block : Block, block.version < 2 →
        ∃ msg, append demoExt (demoChain 0 3 1)
          (demoEngine [⟨1, 100, 0, 10, 5⟩, ⟨2, 101, 100, 20, 5⟩, ⟨2, 102, 101, 30, 5⟩]) block =
            .thrown (.Error msg)
              (demoEngine [⟨1, 100, 0, 10, 5⟩, ⟨2, 101, 100, 20, 5⟩, ⟨2, 102, 101, 30, 5⟩]) := by
  have hl : ((demoEngine [⟨1, 100, 0, 10, 5⟩, ⟨2, 101, 100, 20, 5⟩, ⟨2, 102, 101, 30, 5⟩]).tree.trunk
      demoExt.work).map (fun r => r.version) = [2, 2, 1] := by decide
  refine (C10_min_accepted_version demoExt (demoChain 0 3 1) _ 2).1 ⟨?_, ?_⟩
  · rw [hl]; decide
  · intro W hW
    rw [hl]
    show List.count W (List.take 3 [2, 2, 1]) ≤ 1
    have h2 : ¬ ((2 : Int) = W) := fun h => hW h.symm
    by_cases h1 : (1 : Int) = W
    · subst h1; decide
    · simp [List.count_cons, h2, h1]

/-- C11 (amended): when the claim pool holds a claim that spends the outpoint of an
input of a transaction that is not in the pool, or when an earlier input of the
transaction has the same outpoint, `claim` fails and leaves the engine as it was.
Unless the input loop has already failed at an earlier input, the failure is of
kind `Error` (not `Reject`) and its message is
"claim(Transaction): Coin already spent!". -/
theorem C11_double_spend_is_error (X : Ext) (chain : Chain) (bc : BlockChain) (txn : Transaction)
    (verify : Bool) (pre post : List Input) (j : Input)
    (hnew : bc.claims.have_ (X.txHash txn) = false)
    (hin : txn.inputs = pre ++ j :: post)
    (hsp : bc.claims.spent j.prevout = true ∨ ∃ i ∈ pre, i.prevout = j.prevout) :
    ∃ f, claim X chain bc txn verify = .thrown f bc ∧
      ((∃ r, claimInputs X bc txn verify (decide (X.GetTime > (chain.timeStampBIP0016 : Int)))
          pre 0 [] 0 = .ok r) →
        f = .Error "claim(Transaction): Coin already spent!") := by
  have hbody : ∀ r, claimInputs X bc txn verify (decide (X.GetTime > (chain.timeStampBIP0016 : Int)))
      pre 0 [] 0 = .ok r →
      claimInputs X bc txn verify (decide (X.GetTime > (chain.timeStampBIP0016 : Int)))
        txn.inputs 0 [] 0 = .error (.Error "Coin already spent!") := by
    intro r hr
    rw [hin, claimInputs_append, hr]
    dsimp only
    unfold claimInputs
    have hc : (bc.claims.spent j.prevout || r.1.contains j.prevout) = true := by
      rcases hsp with h | ⟨i, hi, hie⟩
      · rw [h]; rfl
      · have := (claimInputs_ok X bc txn verify _ pre 0 [] 0 r.1 r.2 hr List.nodup_nil).1 j.prevout
        have hmem : j.prevout ∈ r.1 := this.mpr (Or.inr ⟨i, hi, hie⟩)
        have : r.1.contains j.prevout = true := by simpa using hmem
        rw [this]; simp
    rw [if_pos hc]
  cases hpre : claimInputs X bc txn verify (decide (X.GetTime > (chain.timeStampBIP0016 : Int)))
      pre 0 [] 0 with
  | ok r =>
    refine ⟨.Error "claim(Transaction): Coin already spent!", ?_, fun _ => rfl⟩
    apply claim_thrown
    unfold try_claim
    simp only [hnew, Bool.false_eq_true, if_false, hbody r hpre]
    rfl
  | error f0 =>
    have hall : claimInputs X bc txn verify (decide (X.GetTime > (chain.timeStampBIP0016 : Int)))
        txn.inputs 0 [] 0 = .error f0 := by
      rw [hin, claimInputs_append, hpre]
    cases f0 with
    | Reject w =>
      refine ⟨.Reject ("claim(Transaction): " ++ w), ?_, fun h => ?_⟩
      · apply claim_thrown
        unfold try_claim
        simp only [hnew, Bool.false_eq_true, if_false, hall]
      · obtain ⟨r, hr⟩ := h; cases hr
    | Error w =>
      refine ⟨.Error ("claim(Transaction): " ++ w), ?_, fun h => ?_⟩
      · apply claim_thrown
        unfold try_claim
        simp only [hnew, Bool.false_eq_true, if_false, hall]
        rfl
      · obtain ⟨r, hr⟩ := h; cases hr
    | Database w =>
      refine ⟨.Error ("claim(Transaction): " ++ w), ?_, fun h => ?_⟩
      · apply claim_thrown
        unfold try_claim
        simp only [hnew, Bool.false_eq_true, if_false, hall]
        rfl
      · obtain ⟨r, hr⟩ := h; cases hr

theorem C11_double_spend_is_error_witness :
    ∃ f, claim demoExt demoParams demoClaimed (demoSpend 501 1 [7] 50) true = .thrown f demoClaimed ∧
      ((∃ r, claimInputs demoExt demoClaimed (demoSpend 501 1 [7] 50) true
          (decide (demoExt.GetTime > (demoParams.timeStampBIP0016 : Int))) [] 0 [] 0 = .ok r) →
        f = .Error "claim(Transaction): Coin already spent!") :=
  C11_double_spend_is_error demoExt demoParams demoClaimed (demoSpend 501 1 [7] 50) true [] []
    ⟨⟨1, 0⟩, [7], 4294967295⟩ (by decide) rfl (Or.inl (by decide))

/-- C11 (the claim as stated fails): the pool of `demoClaimed` holds transaction
500, which spends the outpoint (1, 0); transaction 501 is not in the pool and
spends the same outpoint. `claim` fails with an `Error`, so the failure is not of
kind `Reject`. -/
theorem C11_double_spend_not_reject :
    demoClaimed.claims.have_ 500 = true ∧
    demoClaimed.claims.spent ⟨1, 0⟩ = true ∧
    demoClaimed.claims.have_ (demoExt.txHash (demoSpend 501 1 [7] 50)) = false ∧
    claim demoExt demoParams demoClaimed (demoSpend 501 1 [7] 50) true =
      .thrown (.Error "claim(Transaction): Coin already spent!") demoClaimed ∧
    ∀ w, (claim demoExt demoParams demoClaimed (demoSpend 501 1 [7] 50) true).failure ≠
      some (.Reject w) := by
  have h : claim demoExt demoParams demoClaimed (demoSpend 501 1 [7] 50) true =
      .thrown (.Error "claim(Transaction): Coin already spent!") demoClaimed := by decide
  refine ⟨by decide, by decide, by decide, h, ?_⟩
  intro w hw
  rw [h] at hw
  cases hw

/-- C12 (amended): when `try_claim` throws for a transaction, `claim` throws the same
exception and leaves the engine as it was: every claim of the pool is still a
member, the set of spent outpoints is the same, the store tables and both tries
are unchanged. The transaction is a member afterwards only if it was one before
(this is the case of the failure "Transaction already exists!"); if it was not in
the pool it is not a member afterwards. -/
theorem C12_failed_claim_frame (X : Ext) (chain : Chain) (bc : BlockChain) (txn : Transaction)
    (verify : Bool) (f : Failure) (h : try_claim X chain bc txn verify = .error f) :
    claim X chain bc txn verify = .thrown f bc ∧
    (claim X chain bc txn verify).state.claims = bc.claims ∧
    (∀ hash, bc.claims.have_ hash = true →
      (claim X chain bc txn verify).state.claims.have_ hash = true) ∧
    (bc.claims.have_ (X.txHash txn) = false →
      (claim X chain bc txn verify).state.claims.have_ (X.txHash txn) = false) ∧
    (bc.claims.have_ (X.txHash txn) = true → f = .Error "Transaction already exists!") ∧
    (∀ k, (claim X chain bc txn verify).state.claims.spent k = bc.claims.spent k) ∧
    (claim X chain bc txn verify).state.store = bc.store ∧
    (claim X chain bc txn verify).state.spendables = bc.spendables ∧
    (claim X chain bc txn verify).state.immature_coinbases = bc.immature_coinbases := by
  have hc := claim_thrown X chain bc txn verify f h
  rw [hc]
  refine ⟨rfl, rfl, fun _ hh => hh, fun hh => hh, ?_, fun _ => rfl, rfl, rfl, rfl⟩
  intro hh
  unfold try_claim at h
  simp only [hh, if_true] at h
  injection h with h
  exact h.symm

theorem C12_failed_claim_frame_witness :
    claim demoExt demoParams demoClaimed (demoSpend 501 1 [7] 50) true =
      .thrown (.Error "claim(Transaction): Coin already spent!") demoClaimed ∧
    (claim demoExt demoParams demoClaimed (demoSpend 501 1 [7] 50) true).state.claims =
      demoClaimed.claims ∧
    (∀ hash, demoClaimed.claims.have_ hash = true →
      (claim demoExt demoParams demoClaimed (demoSpend 501 1 [7] 50) true).state.claims.have_ hash
        = true) ∧
    (demoClaimed.claims.have_ (demoExt.txHash (demoSpend 501 1 [7] 50)) = false →
      (claim demoExt demoParams demoClaimed (demoSpend 501 1 [7] 50) true).state.claims.have_
        (demoExt.txHash (demoSpend 501 1 [7] 50)) = false) ∧
    (demoClaimed.claims.have_ (demoExt.txHash (demoSpend 501 1 [7] 50)) = true →
      Failure.Error "claim(Transaction): Coin already spent!" =
        .Error "Transaction already exists!") ∧
    (∀ k, (claim demoExt demoParams demoClaimed (demoSpend 501 1 [7] 50) true).state.claims.spent k
      = demoClaimed.claims.spent k) ∧
    (claim demoExt demoParams demoClaimed (demoSpend 501 1 [7] 50) true).state.store =
      demoClaimed.store ∧
    (claim demoExt demoParams demoClaimed (demoSpend 501 1 [7] 50) true).state.spendables =
      demoClaimed.spendables ∧
    (claim demoExt demoParams demoClaimed (demoSpend 501 1 [7] 50) true).state.immature_coinbases =
      demoClaimed.immature_coinbases :=
  C12_failed_claim_frame demoExt demoParams demoClaimed (demoSpend 501 1 [7] 50) true
    (.Error "claim(Transaction): Coin already spent!") (by rfl)

/-- C12 (the claim as stated fails): transaction 500 is in the pool of
`demoClaimed`; `try_claim` throws for it ("Transaction already exists!"), the pool
is unchanged, and so the transaction is a member of the pool after the failed
`claim`. -/
theorem C12_rejected_duplicate_is_member :
    try_claim demoExt demoParams demoClaimed (demoSpend 500 1 [7] 50) true =
      .error (.Error "Transaction already exists!") ∧
    (claim demoExt demoParams demoClaimed (demoSpend 500 1 [7] 50) true).state.claims =
      demoClaimed.claims ∧
    (claim demoExt demoParams demoClaimed (demoSpend 500 1 [7] 50) true).state.claims.have_
      (demoExt.txHash (demoSpend 500 1 [7] 50)) = true := by
  refine ⟨by rfl, by decide, by decide⟩

/-- C13: when `try_claim` returns normally, the returned set of spent outpoints is
exactly the set of the outpoints of the inputs (and has no repetition), these
outpoints are pairwise distinct, none of them is spent by a claim of the pool,
every input is resolved to the output of an earlier claim or of a committed
unspent coin, with a value in the money range, and the returned fee is the sum of
the resolved values less `getValueOut()` and is not negative. -/
theorem C13_try_claim_result (X : Ext) (chain : Chain) (bc : BlockChain) (txn : Transaction)
    (verify : Bool) (spents : List Coin) (fee : Int)
    (h : try_claim X chain bc txn verify = .ok (spents, fee)) :
    (∀ c, c ∈ spents ↔ ∃ i ∈ txn.inputs, i.prevout = c) ∧ spents.Nodup ∧
    (txn.inputs.map (fun i => i.prevout)).Nodup ∧
    (∀ i ∈ txn.inputs, bc.claims.spent i.prevout = false) ∧
    ∃ outs, List.Forall₂ (Resolved X bc) txn.inputs outs ∧
      fee = (outs.map (fun o => o.value)).sum - txn.getValueOut ∧ 0 ≤ fee := by
  unfold try_claim at h
  dsimp only at h
  split at h
  · cases h
  · cases hci : claimInputs X bc txn verify (decide (X.GetTime > (chain.timeStampBIP0016 : Int)))
        txn.inputs 0 [] 0 with
    | error f0 =>
      rw [hci] at h
      cases f0 <;> cases h
    | ok r =>
      obtain ⟨sp, val⟩ := r
      rw [hci] at h
      dsimp only at h
      by_cases hneg : val - txn.getValueOut < 0
      · rw [if_pos hneg] at h; cases h
      · rw [if_neg hneg, if_neg hneg] at h
        dsimp only at h
        injection h with h
        injection h with h1 h2
        subst h1; subst h2
        obtain ⟨h1, h2, h3, _, h5, outs, h6, h7⟩ :=
          claimInputs_ok X bc txn verify _ txn.inputs 0 [] 0 sp val hci List.nodup_nil
        refine ⟨?_, h2, h3, h5, outs, h6, ?_, not_lt.mp hneg⟩
        · intro c
          rw [h1]
          simp
        · rw [h7]; ring

theorem C13_try_claim_result_witness :
    (∀ c, c ∈ [(⟨1, 0⟩ : Coin)] ↔ ∃ i ∈ (demoSpend 500 1 [7] 40).inputs, i.prevout = c) ∧
    [(⟨1, 0⟩ : Coin)].Nodup ∧
    ((demoSpend 500 1 [7] 40).inputs.map (fun i => i.prevout)).Nodup ∧
    (∀ i ∈ (demoSpend 500 1 [7] 40).inputs, demoBase.claims.spent i.prevout = false) ∧
    ∃ outs, List.Forall₂ (Resolved demoExt demoBase) (demoSpend 500 1 [7] 40).inputs outs ∧
      (10 : Int) = (outs.map (fun o => o.value)).sum - (demoSpend 500 1 [7] 40).getValueOut ∧
      (0 : Int) ≤ 10 :=
  C13_try_claim_result demoExt demoParams demoBase (demoSpend 500 1 [7] 40) true [⟨1, 0⟩] 10
    (by rfl)


/-- C14 (the code at a failing input): the engine over the empty database of
`demoOpen` validates against the table `Unspents`. For the block
`demoMissingCoinBlock`, `redeem` throws the `Reject` "Spent coin not found !" for
the input of transaction 500; `append` throws an `Error`, not a `Reject`, whose
message is the original message behind the prefix "append(Block): ". -/
theorem C14_reject_becomes_error :
    (demoFresh demoOpen false).validation_depth = 0 ∧
    (redeem demoExt (demoFresh demoOpen false) ⟨⟨77, 0⟩, [7], 4294967295⟩
      ⟨demoSpend 500 77 [7] 50, 1, 2⟩).failure = some (.Reject "Spent coin not found !") ∧
    (append demoExt demoOpen (demoFresh demoOpen false) demoMissingCoinBlock).failure =
      some (.Error "append(Block): Spent coin not found !") ∧
    ∀ w, (append demoExt demoOpen (demoFresh demoOpen false) demoMissingCoinBlock).failure ≠
      some (.Reject w) := by
  have h : (append demoExt demoOpen (demoFresh demoOpen false) demoMissingCoinBlock).failure =
      some (.Error "append(Block): Spent coin not found !") := by decide
  refine ⟨by decide, by decide, h, ?_⟩
  intro w hw
  rw [h] at hw
  cases hw

/-- C15 (the code at a failing input): for the payees [7] and [8] with the reward
fractions [2, 2] and no fee fractions, on the engine over the empty database
(block count 1, subsidy 50, empty claim pool, so a total fee of 0), the coinbase
outputs of the block template are 27 and 25: they sum to 52, not to 50. With the
fractions [1, 1] they are 25 and 25. -/
theorem C15_template_overpays :
    (demoFresh demoParams false).tree.count demoExt.work = 1 ∧
    demoParams.subsidy 1 = 50 ∧
    (demoFresh demoParams false).claims.transactions = ([], 0) ∧
    ((getBlockTemplate demoExt demoParams (demoFresh demoParams false) [[7], [8]] [2, 2] []).toOption.map
      (fun b => (b.txs.headD ⟨1, 0, [], []⟩).outputs)) = some [⟨27, [7]⟩, ⟨25, [8]⟩] ∧
    ((27 : Int) + 25 ≠ demoParams.subsidy 1 + 0) ∧
    ((getBlockTemplate demoExt demoParams (demoFresh demoParams false) [[7], [8]] [1, 1] []).toOption.map
      (fun b => (b.txs.headD ⟨1, 0, [], []⟩).outputs)) = some [⟨25, [7]⟩, ⟨25, [8]⟩] := by
  decide

/-- C16 (the code at a failing input): on the engine over the empty database
(purge depth 1) the block `demoCoinbaseBlock 1` is appended at count 2; its
coinbase has one input, with the null outpoint. `getBlock(2)` returns a block
whose coinbase has no input. On `demoBase`, after the attach of block 202 at count
103, which holds transaction 500 with one input and one output, the transaction
500 of the block returned by `getBlock(103)` has two inputs and three outputs. -/
theorem C16_getBlock_not_the_block :
    (demoFresh demoParams false).purge_depth = 1 ∧
    (append demoExt demoParams (demoFresh demoParams false) (demoCoinbaseBlock 1)).isOk = true ∧
    (demoCoinbaseBlock 1).txs = [demoCoinbase 2 [] 50] ∧
    (demoCoinbase 2 [] 50).inputs = [⟨⟨0, 4294967295⟩, [], 4294967295⟩] ∧
    (getBlock (append demoExt demoParams (demoFresh demoParams false) (demoCoinbaseBlock 1)).state
      2).txs = [{ demoCoinbase 2 [] 50 with inputs := [] }] ∧
    (attach demoExt demoParams (demoEntered (demoSpendBlock [7])) demoTip [] []).isOk = true ∧
    ((getBlock (attach demoExt demoParams (demoEntered (demoSpendBlock [7])) demoTip [] []).state
      103).txs.map (fun t => (t.version, t.inputs.length, t.outputs.length))) =
      [(103, 0, 1), (500, 2, 3)] ∧
    ((demoSpendBlock [7]).txs.map (fun t => (t.version, t.inputs.length, t.outputs.length))) =
      [(103, 1, 1), (500, 1, 1)] := by
  decide

/-- C19 (the code at a failing input): on `demoForked` the block `demoSideB` commits
a reorganisation: `demoMainA` is detached, `demoSideA` and `demoSideB` are attached
and the `try` block of `append` ends normally. The transactions returned by
`detach` include the coinbase of `demoMainA`, rebuilt from the store without its
input; the closing loop of `append` claims it first, `claim` throws, and `append`
throws after the commit. The transactions 10 and 11 of the detached block are in
none of the attached blocks and have no input, and they are not in the claim
pool. -/
theorem C19_reorg_append_throws :
    (demoForked.tree.insert demoExt.work ⟨1, 302, 301, 30, 6⟩).2 = ⟨[101], [302, 301]⟩ ∧
    (appendTry demoExt demoOpen demoForkedEntered demoSideB ⟨[101], [302, 301]⟩ (-1)).isOk = true ∧
    (detachAll demoExt demoForkedEntered [101] []).isOk = true ∧
    ((detachAll demoExt demoForkedEntered [101] []).state.branches.map
      (fun e => (e.1, e.2.txs.map (fun t => (t.version, t.inputs.length))))) =
        [(101, [(2, 0), (10, 1), (11, 1)]), (301, [(3, 1)]), (302, [(4, 1)])] ∧
    append demoExt demoOpen demoForked demoSideB =
      .thrown (.Error "claim(Transaction): fee < 0")
        (append demoExt demoOpen demoForked demoSideB).state ∧
    ((append demoExt demoOpen demoForked demoSideB).state.tree.best demoExt.work).map
      (fun b => b.ref.hash) = some 302 ∧
    (append demoExt demoOpen demoForked demoSideB).state.store.blocks.map (fun b => b.hash) =
      [100, 301, 302] ∧
    (append demoExt demoOpen demoForked demoSideB).state.claims.have_ 10 = false ∧
    (append demoExt demoOpen demoForked demoSideB).state.claims.have_ 11 = false := by
  decide

/-- The store-mode path of `isSpent`: when `_validation_depth` is 0 (validation
against the table `Unspents`) and the ids of the rows are assigned (not 0), after
a successful `append` that attaches the appended block alone, on top of the best
tip, `isSpent` is false for every output of the coinbase of the appended block. -/
theorem isSpent_coinbase_store_mode (X : Ext) (chain : Chain) (bc : BlockChain)
    (block : Block) (prev : BlockIterator) (s : BlockChain) (cb : Transaction)
    (rest : List Transaction)
    (hv : bc.validation_depth = 0) (hp : IdsAssigned bc) (htx : block.txs = cb :: rest)
    (hprev : bc.tree.find X.work block.prev = some prev)
    (hins : (bc.tree.insert X.work
      ⟨block.version, X.blockHash block, prev.ref.hash, block.time, block.bits⟩).2 =
        ⟨[], [X.blockHash block]⟩)
    (hok : append X chain bc block = .ok () s) :
    ∀ j, j < cb.outputs.length → isSpent s ⟨X.txHash cb, j⟩ = false := by
  obtain ⟨prev1, hprev1, hcase⟩ := append_ok_inv X chain bc block s hok
  rw [hprev] at hprev1
  injection hprev1 with hprev1
  subst hprev1
  rw [hins] at hcase
  rcases hcase with ⟨h0, _⟩ | ⟨r, s1, _, htry, hcom⟩
  · cases h0
  · obtain ⟨blk, r1, s2, hfind, hatt, hcoins, hvd⟩ := appendTry_extend X chain _ block _ r s1 htry
    have hhash := (BlockTree.find_some_ref X.work _ _ blk hfind).2
    obtain ⟨hp2, hv2, hrows⟩ := attach_rows X chain _ blk [] [] r1 s2 block cb rest hatt
      (by rw [hhash]; exact mapFind_mapInsert _ _ _) htx hv hp
    have hc := appendCommitted_coins X chain s1 r.1 r.2
    rw [hcom] at hc
    have hun : s.store.unspents = s2.store.unspents := by
      have h1 := congrArg Prod.fst hc.1
      have h2 := congrArg Prod.fst hcoins
      exact h1.trans h2
    have hvs : s.validation_depth = 0 := (hc.2.trans hvd).trans hv2
    intro j hj
    obtain ⟨u, hu, hk⟩ := hrows j hj
    unfold isSpent
    rw [if_pos hvs, hun]
    cases hfd : s2.store.unspents.find? (fun u => decide (u.key = ⟨X.txHash cb, j⟩)) with
    | none =>
      have := List.find?_eq_none.mp hfd u hu
      simp [hk] at this
    | some v =>
      have hv0 := hp2.2 v (List.mem_of_find?_eq_some hfd)
      simp [hv0]


theorem isSpent_coinbase_store_mode_example :
    isSpent (append demoExt demoOpen (demoFresh demoOpen false) (demoCoinbaseBlock 1)).state
      ⟨demoExt.txHash (demoCoinbase 2 [] 50), 0⟩ = false :=
  isSpent_coinbase_store_mode demoExt demoOpen (demoFresh demoOpen false) (demoCoinbaseBlock 1)
    ⟨⟨1, 100, 0, 10, 5⟩, 0⟩
    (append demoExt demoOpen (demoFresh demoOpen false) (demoCoinbaseBlock 1)).state
    (demoCoinbase 2 [] 50) []
    (by decide) (by unfold IdsAssigned; decide) rfl (by decide) (by decide) (by decide)
    0 (by decide)

/-- C17 (the code at a failing input): the engine constructed over the empty
database of the example chain validates against the trie (`_validation_depth` 1).
After the successful append of block 101, whose only transaction is the coinbase 2
with one output, the table `Unspents` holds the row of the outpoint (2, 0), yet
`isSpent` is true for it: the spendables trie has no leaf at all, the output is a
leaf of the trie of immature coinbases, which `isSpent` does not consult. Over the
empty database of the chain without checkpoints (`_validation_depth` 0) the same
append leaves `isSpent` false for the same outpoint. -/
theorem C17_fresh_coinbase_reported_spent :
    (demoFresh demoParams false).validation_depth = 1 ∧
    (demoCoinbaseBlock 1).txs = [demoCoinbase 2 [] 50] ∧
    (append demoExt demoParams (demoFresh demoParams false) (demoCoinbaseBlock 1)).isOk = true ∧
    ((append demoExt demoParams (demoFresh demoParams false)
      (demoCoinbaseBlock 1)).state.store.unspents.find?
        (fun u => decide (u.key = ⟨demoExt.txHash (demoCoinbase 2 [] 50), 0⟩))).isSome = true ∧
    isSpent (append demoExt demoParams (demoFresh demoParams false) (demoCoinbaseBlock 1)).state
      ⟨demoExt.txHash (demoCoinbase 2 [] 50), 0⟩ = true ∧
    (append demoExt demoParams (demoFresh demoParams false)
      (demoCoinbaseBlock 1)).state.spendables.leaves = [] ∧
    ((append demoExt demoParams (demoFresh demoParams false)
      (demoCoinbaseBlock 1)).state.immature_coinbases.find
        ⟨demoExt.txHash (demoCoinbase 2 [] 50), 0⟩).isSome = true ∧
    (demoFresh demoOpen false).validation_depth = 0 ∧
    (append demoExt demoOpen (demoFresh demoOpen false) (demoCoinbaseBlock 1)).isOk = true ∧
    isSpent (append demoExt demoOpen (demoFresh demoOpen false) (demoCoinbaseBlock 1)).state
      ⟨demoExt.txHash (demoCoinbase 2 [] 50), 0⟩ = false := by
  decide

/-- C18 (amended): in every state reached from an engine constructed over the empty
database (genesis block with one transaction) by successful appends that detach no
block and issue only new outpoints, with validation enabled
(`_validation_depth > 0`), the set of outpoints of the rows of `Unspents` equals
the set of outpoints held in the spendables trie together with those held in the
trie of immature coinbases, and no outpoint is held in both tries. -/
theorem C18_tries_cover_unspents (X : Ext) (chain : Chain) (s : BlockChain)
    (h : Extended X chain s) (hv : 0 < s.validation_depth) :
    (∀ k : Coin, (∃ u ∈ s.store.unspents, u.key = k) ↔
      ((∃ u ∈ s.spendables.leaves, u.key = k) ∨
       (∃ u ∈ s.immature_coinbases.leaves, u.key = k))) ∧
    (∀ k : Coin, ¬ ((∃ u ∈ s.spendables.leaves, u.key = k) ∧
      (∃ u ∈ s.immature_coinbases.leaves, u.key = k))) := by
  obtain ⟨hr, hc⟩ := Extended.covered X chain s h hv
  constructor
  · intro k
    constructor
    · rintro ⟨u, hu, hk⟩
      rcases (hc.cover u).mp hu with h1 | h1
      · exact Or.inl ⟨u, h1, hk⟩
      · exact Or.inr ⟨u, h1, hk⟩
    · rintro (⟨u, hu, hk⟩ | ⟨u, hu, hk⟩)
      · exact ⟨u, (hc.cover u).mpr (Or.inl hu), hk⟩
      · exact ⟨u, (hc.cover u).mpr (Or.inr hu), hk⟩
  · rintro k ⟨⟨u, hu, hk⟩, ⟨v, hv1, hk1⟩⟩
    have := hr.keys u ((hc.cover u).mpr (Or.inl hu)) v ((hc.cover v).mpr (Or.inr hv1))
      (hk.trans hk1.symm)
    subst this
    exact hc.disjoint u hu hv1


theorem C18_tries_cover_unspents_witness :
    (∀ k : Coin,
      (∃ u ∈ (append demoExt demoParams (demoFresh demoParams false)
          (demoCoinbaseBlock 1)).state.store.unspents, u.key = k) ↔
      ((∃ u ∈ (append demoExt demoParams (demoFresh demoParams false)
          (demoCoinbaseBlock 1)).state.spendables.leaves, u.key = k) ∨
       (∃ u ∈ (append demoExt demoParams (demoFresh demoParams false)
          (demoCoinbaseBlock 1)).state.immature_coinbases.leaves, u.key = k))) ∧
    (∀ k : Coin,
      ¬ ((∃ u ∈ (append demoExt demoParams (demoFresh demoParams false)
          (demoCoinbaseBlock 1)).state.spendables.leaves, u.key = k) ∧
        (∃ u ∈ (append demoExt demoParams (demoFresh demoParams false)
          (demoCoinbaseBlock 1)).state.immature_coinbases.leaves, u.key = k))) :=
  C18_tries_cover_unspents demoExt demoParams
    (append demoExt demoParams (demoFresh demoParams false) (demoCoinbaseBlock 1)).state
    (Extended.step (demoFresh demoParams false) (demoCoinbaseBlock 1) _
      (Extended.fresh false 0 (demoCoinbase 1 [] 50) (demoFresh demoParams false) rfl (by decide))
      (by
        intro prev hp
        have h2 : (demoFresh demoParams false).tree.find demoExt.work (demoCoinbaseBlock 1).prev =
            some ⟨⟨1, 100, 0, 10, 5⟩, 0⟩ := by decide
        rw [h2] at hp
        injection hp with hp
        subst hp
        decide)
      (by unfold NewOutpoints; decide)
      (by decide))
    (by decide)

/-- C18 (the claim as stated fails): the engine constructed over the empty database
of the example chain (no append yet) has validation enabled; the table `Unspents`
holds a row for the outpoint (1, 0) of the genesis coinbase, and the spendables
trie holds no leaf for it. -/
theorem C18_trie_misses_immature_coinbase :
    BlockChain.create demoExt demoParams (Store.empty false) 0 =
      .ok () (demoFresh demoParams false) ∧
    0 < (demoFresh demoParams false).validation_depth ∧
    (∃ u ∈ (demoFresh demoParams false).store.unspents, u.key = ⟨1, 0⟩) ∧
    ¬ (∃ u ∈ (demoFresh demoParams false).spendables.leaves, u.key = ⟨1, 0⟩) := by
  decide

/-- C20 (amended): for an engine constructed over a database without blocks, the
tree height is 0, the best hash is the genesis hash, and the best locator computed
by `updateBestLocator` is the two-element list that holds the genesis hash twice:
once for the tip at height 0 and once for the genesis hash that is always
appended. -/
theorem C20_fresh_locator (X : Ext) (chain : Chain) (db : Store) (vd0 : Nat) (s : BlockChain)
    (hdb : db.blocks = [])
    (h : BlockChain.create X chain db vd0 = .ok () s) :
    s.tree.height X.work = 0 ∧
    (s.tree.best X.work).map (fun b => b.ref.hash) = some (X.blockHash chain.genesisBlock) ∧
    s.bestLocator = [X.blockHash chain.genesisBlock, X.blockHash chain.genesisBlock] := by
  obtain ⟨_, _, _, htree, hloc, _⟩ := create_fresh X chain db vd0 s hdb h
  refine ⟨?_, ?_, hloc⟩
  · rw [htree]; simp [BlockTree.height, BlockTree.single_trunk]
  · rw [htree, BlockTree.single_best]; rfl

theorem C20_fresh_locator_witness :
    (demoFresh demoParams false).tree.height demoExt.work = 0 ∧
    ((demoFresh demoParams false).tree.best demoExt.work).map (fun b => b.ref.hash) =
      some (demoExt.blockHash demoParams.genesisBlock) ∧
    (demoFresh demoParams false).bestLocator =
      [demoExt.blockHash demoParams.genesisBlock, demoExt.blockHash demoParams.genesisBlock] :=
  C20_fresh_locator demoExt demoParams (demoStore false) 0 (demoFresh demoParams false) rfl
    (by decide)

/-- C20 (the claim as stated fails): the best locator of the engine constructed
over the empty database is not the one-element list of the genesis hash. -/
theorem C20_locator_not_singleton :
    (BlockChain.create demoExt demoParams (demoStore false) 0).isOk = true ∧
    (demoFresh demoParams false).store.blocks.length = 1 ∧
    (demoFresh demoParams false).bestLocator ≠ [demoExt.blockHash demoParams.genesisBlock] := by
  decide

/-- C21: for a tree whose tip has the height `h` (any `h`, so every `h ≥ 0`), the
list of heights chosen by `updateBestLocator` starts with `h`, is strictly decreasing, is positive after
its first entry, has gaps of 1 after each of its first ten entries and of 2, 4,
8, ... after the following ones, and ends where the next height would not be
positive; any number of loop rounds of at least `h + 1` gives this same list (the
loop terminates), and the locator holds one hash per height followed by the
genesis hash, which is its last entry. -/
theorem C21_locator_heights (X : Ext) (chain : Chain) (bc : BlockChain) (h : Int)
    (htree : bc.tree.height X.work = h) :
    (locatorHeights (h.toNat + 1) [h] 1).head? = some h ∧
    (locatorHeights (h.toNat + 1) [h] 1).Pairwise (fun a b => a > b) ∧
    (∀ a ∈ (locatorHeights (h.toNat + 1) [h] 1).tail, 0 < a) ∧
    (∀ i, i + 1 < (locatorHeights (h.toNat + 1) [h] 1).length →
      (locatorHeights (h.toNat + 1) [h] 1).getD i 0 -
        (locatorHeights (h.toNat + 1) [h] 1).getD (i + 1) 0 = if i < 10 then 1 else 2 ^ (i - 9)) ∧
    (locatorHeights (h.toNat + 1) [h] 1).getLastD 0 -
      (if (locatorHeights (h.toNat + 1) [h] 1).length ≤ 10 then 1
       else 2 ^ ((locatorHeights (h.toNat + 1) [h] 1).length - 10)) ≤ 0 ∧
    (∀ fuel, h.toNat + 1 ≤ fuel →
      locatorHeights fuel [h] 1 = locatorHeights (h.toNat + 1) [h] 1) ∧
    (updateBestLocator X chain bc).bestLocator =
      (locatorHeights (h.toNat + 1) [h] 1).map
        (fun k => ((bc.tree.atHeight X.work k).map (fun r => r.hash)).getD 0) ++
      [X.blockHash chain.genesisBlock] ∧
    (updateBestLocator X chain bc).bestLocator.getLast? = some (X.blockHash chain.genesisBlock) := by
  have hinv0 : LocatorInv [h] := by
    refine ⟨List.pairwise_singleton _ _, ?_, ?_, ?_⟩
    · intro a ha
      simp only [List.mem_singleton] at ha
      subst ha
      exact le_refl _
    · intro a ha; simp at ha
    · intro i hi; simp at hi
  obtain ⟨⟨hp, _, hpos, hgap⟩, hhead, hstop, hfuel⟩ :=
    locatorHeights_inv (h.toNat + 1) [h] 1 (by simp) (by simp) hinv0 (by simp)
  have hloc : (updateBestLocator X chain bc).bestLocator =
      (locatorHeights (h.toNat + 1) [h] 1).map
        (fun k => ((bc.tree.atHeight X.work k).map (fun r => r.hash)).getD 0) ++
      [X.blockHash chain.genesisBlock] := by
    unfold updateBestLocator
    rw [htree]
  refine ⟨hhead, hp, hpos, ?_, ?_, hfuel, hloc, ?_⟩
  · intro i hi
    rw [hgap i hi]
    split
    · rename_i hlt
      have : i - 9 = 0 := by omega
      rw [this]; rfl
    · rfl
  · split
    · rename_i hle
      have : (locatorHeights (h.toNat + 1) [h] 1).length - 10 = 0 := by omega
      rw [this] at hstop
      simpa using hstop
    · exact hstop
  · rw [hloc, List.getLast?_append]
    rfl

theorem C21_locator_heights_witness :
    (locatorHeights ((13 : Int).toNat + 1) [13] 1).head? = some 13 ∧
    (locatorHeights ((13 : Int).toNat + 1) [13] 1).Pairwise (fun a b => a > b) ∧
    (∀ a ∈ (locatorHeights ((13 : Int).toNat + 1) [13] 1).tail, 0 < a) ∧
    (∀ i, i + 1 < (locatorHeights ((13 : Int).toNat + 1) [13] 1).length →
      (locatorHeights ((13 : Int).toNat + 1) [13] 1).getD i 0 -
        (locatorHeights ((13 : Int).toNat + 1) [13] 1).getD (i + 1) 0 =
          if i < 10 then 1 else 2 ^ (i - 9)) ∧
    (locatorHeights ((13 : Int).toNat + 1) [13] 1).getLastD 0 -
      (if (locatorHeights ((13 : Int).toNat + 1) [13] 1).length ≤ 10 then 1
       else 2 ^ ((locatorHeights ((13 : Int).toNat + 1) [13] 1).length - 10)) ≤ 0 ∧
    (∀ fuel, (13 : Int).toNat + 1 ≤ fuel →
      locatorHeights fuel [13] 1 = locatorHeights ((13 : Int).toNat + 1) [13] 1) ∧
    (updateBestLocator demoExt demoParams demoLong).bestLocator =
      (locatorHeights ((13 : Int).toNat + 1) [13] 1).map
        (fun k => ((demoLong.tree.atHeight demoExt.work k).map (fun r => r.hash)).getD 0) ++
      [demoExt.blockHash demoParams.genesisBlock] ∧
    (updateBestLocator demoExt demoParams demoLong).bestLocator.getLast? =
      some (demoExt.blockHash demoParams.genesisBlock) :=
  C21_locator_heights demoExt demoParams demoLong 13 (by decide)

/-- C22: in every state of the engine (after the constructor has returned, and
after any later call of `append` or `claim`, in particular after every call of
`append` that returns normally) `getDistanceBack` of the best locator is 0; and
for the best locator of such a state `s0`, the value of `getDistanceBack` in a
state `s1` that follows `s0` is at most its value in a state `s2` that follows
`s1`. -/
theorem C22_locator_distance (X : Ext) (chain : Chain) (s0 s1 s2 : BlockChain)
    (h0 : Reached X chain s0) (h1 : Later X chain s0 s1) (h2 : Later X chain s1 s2) :
    getDistanceBack X s0 s0.bestLocator = 0 ∧
    getDistanceBack X s1 s0.bestLocator ≤ getDistanceBack X s2 s0.bestLocator := by
  obtain ⟨hash, rest, hl, hk⟩ := reached_locator_known X chain s0 h0
  have hk1 := later_keeps_known X chain s0 s1 h1 hash hk
  have hk2 := later_keeps_known X chain s1 s2 h2 hash hk1
  rw [hl, getDistanceBack_known X s0 hash rest hk, getDistanceBack_known X s1 hash rest hk1,
    getDistanceBack_known X s2 hash rest hk2]
  exact ⟨rfl, le_refl _⟩

theorem C22_locator_distance_witness :
    getDistanceBack demoExt
      (append demoExt demoParams (demoFresh demoParams false) (demoCoinbaseBlock 1)).state
      (append demoExt demoParams (demoFresh demoParams false) (demoCoinbaseBlock 1)).state.bestLocator = 0 ∧
    getDistanceBack demoExt
      (append demoExt demoParams (demoFresh demoParams false) (demoCoinbaseBlock 1)).state
      (append demoExt demoParams (demoFresh demoParams false) (demoCoinbaseBlock 1)).state.bestLocator ≤
      getDistanceBack demoExt
        (append demoExt demoParams
          (append demoExt demoParams (demoFresh demoParams false) (demoCoinbaseBlock 1)).state
          (demoCoinbaseBlock 2)).state
        (append demoExt demoParams (demoFresh demoParams false) (demoCoinbaseBlock 1)).state.bestLocator :=
  C22_locator_distance demoExt demoParams
    (append demoExt demoParams (demoFresh demoParams false) (demoCoinbaseBlock 1)).state
    (append demoExt demoParams (demoFresh demoParams false) (demoCoinbaseBlock 1)).state
    (append demoExt demoParams
      (append demoExt demoParams (demoFresh demoParams false) (demoCoinbaseBlock 1)).state
      (demoCoinbaseBlock 2)).state
    (Reached.appended _ (demoCoinbaseBlock 1) (Reached.init (demoStore false) 0 _ (by decide)))
    Later.now
    (Later.appended _ (demoCoinbaseBlock 2) Later.now)

/-- C23 (the code at a failing input): the two modes differ by one block. With
the table `Unspents` (`_validation_depth` 0) the lookup of `redeem` lets a coinbase
row of count -c be spent exactly when the count n of the spending block has
n - c ≥ 100. In trie mode the engine `demoBase` (tip count 102) refuses block 202
of count 103, whose transaction 500 spends the coinbase output of count 3, and
accepts the same transaction in a block of count 104; once `validation_depth(0)`
has switched the same engine to store mode, the block of count 103 is accepted. -/
theorem C23_maturity_differs_between_modes :
    (∀ (bc : BlockChain) (input : Input) (iconf : Confirmation) (coin : Unspent),
      bc.validation_depth = 0 →
      bc.store.unspents.find? (fun u => decide (u.key = input.prevout)) = some coin →
      coin.count < 0 →
      (findCoin bc input iconf = .ok coin bc ↔ COINBASE_MATURITY ≤ iconf.count + coin.count)) ∧
    demoBase.validation_depth = 1 ∧
    demoBase.tree.count demoExt.work = 102 ∧
    (demoBase.store.unspents.find? (fun u => decide (u.key = ⟨3, 0⟩))).map (fun u => u.count) =
      some (-3) ∧
    (append demoExt demoParams demoBase demoEarlySpendBlock).failure =
      some (.Error "append(Block): Spent coin not found or immature coinbase") ∧
    (append demoExt demoParams
      (append demoExt demoParams demoBase (demoCoinbaseBlock 102)).state demoLateSpendBlock).isOk = true ∧
    (append demoExt demoParams demoBase (demoCoinbaseBlock 102)).isOk = true ∧
    (validation_depth demoExt demoBase 0).isOk = true ∧
    demoBaseStoreMode.validation_depth = 0 ∧
    demoBaseStoreMode.store.unspents = demoBase.store.unspents ∧
    (append demoExt demoParams demoBaseStoreMode demoEarlySpendBlock).isOk = true := by
  refine ⟨?_, by decide, by decide, by decide, by decide, by decide, by decide, by decide,
    by decide, by decide, by decide⟩
  intro bc input iconf coin hvd hfind hneg
  unfold findCoin
  rw [if_pos hvd, hfind]
  dsimp only
  constructor
  · intro h
    split at h
    · cases h
    · rename_i hc
      by_contra hlt
      exact hc ⟨hneg, not_le.mp hlt⟩
  · intro h
    rw [if_neg]
    intro hc
    exact absurd h (not_le.mpr hc.2)

/-- C24 (the code at a failing input): for the tip height 13 `updateBestLocator`
chooses the heights 13, 12, ..., 3, 1; the entry at index 11 is the height 1, which
lies 12 blocks below the tip. For a tree that holds the blocks of heights 0 and 1
only, and so knows none of the first 11 hashes of the locator and knows the
twelfth, `getDistanceBack` returns 11. -/
theorem C24_distance_back_off_by_one :
    demoLong.tree.height demoExt.work = 13 ∧
    locatorHeights 14 [13] 1 = [13, 12, 11, 10, 9, 8, 7, 6, 5, 4, 3, 1] ∧
    (updateBestLocator demoExt demoParams demoLong).bestLocator =
      [113, 112, 111, 110, 109, 108, 107, 106, 105, 104, 103, 101, 100] ∧
    (∀ hash ∈ [113, 112, 111, 110, 109, 108, 107, 106, 105, 104, 103],
      demoShort.tree.find demoExt.work hash = none) ∧
    (demoShort.tree.find demoExt.work 101).isSome = true ∧
    getDistanceBack demoExt demoShort (updateBestLocator demoExt demoParams demoLong).bestLocator = 11 ∧
    (13 : Int) - (locatorHeights 14 [13] 1).getD 11 0 = 12 := by
  decide

/-- C25 (the code at a failing input): after the genesis and `demoRegularBlock`
the tip count is 2 and the output of the regular transaction 10 (row count 2) is
in the spendables trie. The engine constructed over the store of that state, in
trie mode, loads no row into the spendables trie and loads the row of the regular
output into the trie of immature coinbases. -/
theorem C25_restart_misplaces_regular_output :
    (append demoExt demoParams (demoFresh demoParams false) demoRegularBlock).isOk = true ∧
    demoRegular.tree.count demoExt.work = 2 ∧
    demoRegular.store.unspents.map (fun u => (u.key, u.count)) =
      [(⟨1, 0⟩, -1), (⟨10, 0⟩, 2), (⟨2, 0⟩, -2)] ∧
    demoRegular.spendables.leaves.map (fun u => u.key) = [⟨10, 0⟩] ∧
    demoRegular.immature_coinbases.leaves.map (fun u => u.key) = [⟨1, 0⟩, ⟨2, 0⟩] ∧
    (BlockChain.create demoExt demoParams demoRegular.store 0).isOk = true ∧
    (BlockChain.create demoExt demoParams demoRegular.store 0).state.validation_depth = 1 ∧
    (BlockChain.create demoExt demoParams demoRegular.store 0).state.tree.count demoExt.work = 2 ∧
    (BlockChain.create demoExt demoParams demoRegular.store 0).state.spendables.leaves = [] ∧
    (BlockChain.create demoExt demoParams demoRegular.store 0).state.immature_coinbases.leaves.map
      (fun u => u.key) = [⟨1, 0⟩, ⟨2, 0⟩, ⟨10, 0⟩] := by
  decide

end Libcoin
